/-
Verification of the SyncedChunkedArray chunked concurrent storage engine
(single-threaded semantics).

The C++ source is shallowly embedded: each C++ function used by a claim is
translated into a Lean definition operating on explicit state records.
Machine integers (std::size_t) are modelled as Nat; the one loop counter the
source decrements and compares to zero (`deleted_left` in `compact`) is
modelled as Int so that the `== 0` test agrees with size_t wrap-around
semantics for any bounded number of decrements.  Locks are elided: every
claim treated here is about the single-threaded behaviour, where every
try_lock in the source succeeds and the recursion level of a top-level
operation is exactly 1.

Layout: all definitions first, then the lemmas and the claim theorems.
-/
import Mathlib

/-! # Default chunk capacity (claim C9)

`template<class T, std::size_t chunk_size_t = std::max<std::size_t>(
        32, (std::size_t) (2048.0 / sizeof(T)))>`

The double division `2048.0 / sizeof(T)` followed by the size_t cast
truncates toward zero; for `1 ≤ sizeof(T) < 2^42` the nearest-double
rounding cannot carry the quotient across an integer, so the result equals
Nat division `2048 / sizeofT`. -/

namespace ChunkDefault

/-- Default chunk capacity computed from `sizeof(T)`, as in the template
default argument of `SyncedChunkedArray`. -/
def default_chunk_size (sizeofT : Nat) : Nat :=
  max 32 (2048 / sizeofT)

/-- The spec's claim about the default capacity, verbatim: it is at least 32,
and (unless the floor of 32 already gives a payload of 2 KiB or more) it is
the **smallest** value whose payload area reaches 2048 bytes. -/
def claimedDefault (s : Nat) : Prop :=
  32 ≤ default_chunk_size s ∧
    (2048 ≤ 32 * s → default_chunk_size s = 32) ∧
    (32 * s < 2048 →
      2048 ≤ default_chunk_size s * s ∧
        ∀ k, 2048 ≤ k * s → default_chunk_size s ≤ k)

end ChunkDefault

/-! # Chunk chain unlinking (claim C5)

Shallow embedding of `maintain_and_unlock::remove_chunk` (part_000 lines
397-416).  Only the `prev`/`next` shared-ownership links matter here; a link
state maps each chunk id to its two links (`none` = null shared_ptr). -/

namespace Links

/-- The `prev`/`next` shared-ownership links of every chunk. -/
structure LinkState where
  prev : Nat → Option Nat
  next : Nat → Option Nat

/-- Embedding of `remove_chunk(chunk)`: load the chunk's `prev` and `next` into locals;
CAS `prev->next` from the chunk to `next`; CAS `next->prev` from the chunk to
`prev`.  The final `std::atomic_store(&prev, chunk_null)` in the source
stores null into the **local** shared_ptr copy `prev`, not into
`chunk->prev`, so it changes no link state. -/
def remove_chunk (s : LinkState) (chunk : Nat) : LinkState :=
  let prevL := s.prev chunk
  let nextL := s.next chunk
  let s1 : LinkState :=
    match prevL with
    | none => s
    | some p =>
        if s.next p = some chunk then
          { s with next := Function.update s.next p nextL }
        else s
  let s2 : LinkState :=
    match nextL with
    | none => s1
    | some n =>
        if s1.prev n = some chunk then
          { s1 with prev := Function.update s1.prev n prevL }
        else s1
  s2

/-- A three-chunk chain `0 ↔ 1 ↔ 2` (0 is the head). -/
def chain3 : LinkState where
  prev := fun i => if i = 1 then some 0 else if i = 2 then some 1 else none
  next := fun i => if i = 0 then some 1 else if i = 1 then some 2 else none

end Links

/-! # Move construction (claim C8)

Shallow embedding of `SyncedChunkedArray(SyncedChunkedArray&&)` (lines
556-568) and `FreeList(FreeList&&)` (lines 189-193), restricted to the state
that decides where a subsequent `emplace` constructs: the head pointer and
the free-chunk registry's `is_empty` flag and `first` pointer. -/

namespace MoveCtor

/-- The observable state of `FreeList`. -/
structure FreeListSt where
  is_empty : Bool
  first : Option Nat

/-- Embedding of `FreeList(FreeList&& other)`: copies `other.first` and `other.is_empty`
under `other.lock` and leaves `other`'s fields in place.  Returns the new
registry paired with the source registry afterwards. -/
def freeListMove (other : FreeListSt) : FreeListSt × FreeListSt :=
  ({ is_empty := other.is_empty, first := other.first }, other)

/-- A container's head pointer and free-chunk registry. -/
structure Container where
  first : Option Nat
  free : FreeListSt

/-- Embedding of `SyncedChunkedArray(SyncedChunkedArray&& other)`:
`first = std::move(other.first)` transfers and nulls the source head;
`free_list = std::move(other.free_list)` takes the source registry's fields
while `FreeList(FreeList&&)` leaves the source registry untouched.
Returns (moved-to container, moved-from container afterwards). -/
def moveConstruct (other : Container) : Container × Container :=
  let fl := freeListMove other.free
  ({ first := other.first, free := fl.1 }, { first := none, free := fl.2 })

/-- The chunk `emplace` constructs into: the registry's head chunk when the
registry's fast-path flag reports non-empty (`get_first_under_maintance_lock`),
otherwise the container's head chunk (`none` = a freshly allocated chunk). -/
def emplaceTarget (c : Container) : Option Nat :=
  if c.free.is_empty = false then c.free.first else c.first

/-- Chunks reachable from a head pointer through the `next` links
(fuel-bounded walk, as in `get_chunks_count`). -/
def chainFrom (nexts : Nat → Option Nat) : Option Nat → Nat → List Nat
  | _, 0 => []
  | none, _ => []
  | some i, fuel + 1 => i :: chainFrom nexts (nexts i) fuel

/-- Scenario: chunk 0 is the anchor, chunk 1 is a non-full non-anchor chunk
listed in the free-chunk registry; the chain is `0 → 1`. -/
def scenario : Container where
  first := some 0
  free := { is_empty := false, first := some 1 }

/-- The chain links of the scenario (never modified by the move). -/
def scenarioNexts : Nat → Option Nat := fun i => if i = 0 then some 1 else none

end MoveCtor

/-! # Trackable-handle registry (claims C7, C2, C3)

Shallow embedding of `trackable_iterator`, `Chunk::Trackable`,
`track_delete_element` (lines 258-270), `track_move_element` (lines
273-304), `Chunk::erase` (lines 168-173), `~Chunk` (lines 69-77) and the
`try_delete` branch of maintenance (lines 496-507).  A handle is its
`(chunk, index)` pair; a trackable slot is its `have` fast-path flag
(renamed `hav`: `have` is a Lean keyword) and its doubly-linked handle list,
modelled as the list of handle ids with `Trackable::first` at the head. -/

namespace Track

/-- A `trackable_iterator`'s fields that name its slot. -/
structure Handle where
  chunk : Option Nat
  index : Nat
deriving DecidableEq

/-- A slot's `Chunk::Trackable` entry. -/
structure TSlot where
  hav : Bool
  first : List Nat
deriving DecidableEq

/-- Embedding of `iterate_trackable_iterators(iter, closure)` (lines 248-256): walk the
handle list and apply the mutating closure to each handle under its lock. -/
def iterate_trackable_iterators (hs : Nat → Handle) (ids : List Nat)
    (f : Handle → Handle) : Nat → Handle :=
  ids.foldl (fun hs hid => Function.update hs hid (f (hs hid))) hs

/-- The registry state: every handle's fields, and every slot's trackable
entry, addressed by (chunk id, slot index). -/
structure TState where
  handles : Nat → Handle
  slots : Nat × Nat → TSlot

/-- Embedding of `track_delete_element(chunk, index)`: fast-fail on the `have` flag, else
null every listed handle's chunk pointer, clear the list and the flag. -/
def track_delete_element (st : TState) (cid i : Nat) : TState :=
  let t := st.slots (cid, i)
  if t.hav = false then st
  else
    { handles := iterate_trackable_iterators st.handles t.first
        (fun h => { h with chunk := none })
      slots := Function.update st.slots (cid, i) { hav := false, first := [] } }

/-- Embedding of `track_move_element(chunk_from, index_from, chunk_to, index_to)`:
return if source and destination are the same slot or neither has handles;
else null the destination's handles, rewrite each source handle to the
destination slot, splice the source list onto the destination, clear the
source entry, and raise the destination's `have` flag if it was down. -/
def track_move_element (st : TState) (cf idxf ct idxt : Nat) : TState :=
  if idxf = idxt ∧ cf = ct then st
  else
    let tf := st.slots (cf, idxf)
    let tt := st.slots (ct, idxt)
    let have_from := tf.hav
    let have_to := tt.hav
    if have_from = false ∧ have_to = false then st
    else
      let hs1 := iterate_trackable_iterators st.handles tt.first
        (fun h => { h with chunk := none })
      let hs2 := iterate_trackable_iterators hs1 tf.first
        (fun _ => { chunk := some ct, index := idxt })
      let slots1 := Function.update st.slots (ct, idxt)
        { hav := if have_to = false then true else tt.hav, first := tf.first }
      let slots2 := Function.update slots1 (cf, idxf)
        { hav := false, first := [] }
      { handles := hs2, slots := slots2 }

/-- What claim C7 asserts of one `track_move_element` call: source handles
renamed to the destination and listed there, prior destination handles
nulled, and for both slots the `have` flag true iff the slot's list is
non-empty. -/
def claimC7At (st : TState) (cf idxf ct idxt : Nat) : Prop :=
  let st2 := track_move_element st cf idxf ct idxt
  (∀ hid ∈ (st.slots (cf, idxf)).first,
      st2.handles hid = { chunk := some ct, index := idxt } ∧
        hid ∈ (st2.slots (ct, idxt)).first) ∧
    (∀ hid ∈ (st.slots (ct, idxt)).first, (st2.handles hid).chunk = none) ∧
    ((st2.slots (cf, idxf)).hav = true ↔ (st2.slots (cf, idxf)).first ≠ []) ∧
    ((st2.slots (ct, idxt)).hav = true ↔ (st2.slots (ct, idxt)).first ≠ [])

/-- C7 counterexample input: slot (0,0) holds no handles, slot (0,1) holds
handle 5; move slot (0,0) onto slot (0,1). -/
def cexC7 : TState where
  handles := fun hid =>
    if hid = 5 then { chunk := some 0, index := 1 } else { chunk := none, index := 0 }
  slots := fun p =>
    if p = (0, 1) then { hav := true, first := [5] } else { hav := false, first := [] }

end Track

/-! ## Chunk teardown and deletion (claims C2, C3)

The states reachable by `erase` on a slot of a non-anchor chunk whose other
slots are already gone: `Chunk::erase` marks the slot dead without
destructing T or touching the trackable registry; maintenance's `try_delete`
unchains the empty chunk; the chunk destructor then runs and only destructs
(and only notifies handles of) slots whose aliveness is still true. -/

namespace Track

/-- One chunk's storage state.  `constructed` records, per slot, whether a T
object currently lives there (ghost bookkeeping for destructor accounting);
`destructs` counts the T-destructor invocations on the slot's storage. -/
structure DChunk where
  size : Nat
  deleted : Nat
  al : Nat → Bool
  constructed : Nat → Bool
  destructs : Nat → Nat
  is_first : Bool

/-- Computes `alive_size()` = `size - deleted_count`. -/
def DChunk.alive (c : DChunk) : Nat := c.size - c.deleted

/-- Container-level state for the teardown scenarios.  `graveyard` records
the final state of destroyed chunks (ghost, for accounting only);
`handleIds` is the roster of outstanding handles. -/
structure DState where
  chain : List (Nat × DChunk)
  slots : Nat × Nat → TSlot
  handles : Nat → Handle
  handleIds : List Nat
  graveyard : List (Nat × DChunk)

/-- Embedding of `Chunk::erase(index)`: clear aliveness, bump `deleted_count`.  No
destructor call, no handle notification. -/
def chunk_erase (c : DChunk) (i : Nat) : DChunk :=
  { c with al := Function.update c.al i false, deleted := c.deleted + 1 }

/-- Body of `~Chunk()` for one slot `i`: skip when aliveness is false, else
notify the trackable registry and destruct the T. -/
def dtor_slot (cid : Nat) (acc : DChunk × TState) (i : Nat) : DChunk × TState :=
  let c := acc.1
  if c.al i = false then acc
  else
    let ts := track_delete_element acc.2 cid i
    ({ c with
        destructs := Function.update c.destructs i (c.destructs i + 1)
        constructed := Function.update c.constructed i false }, ts)

/-- Embedding of `~Chunk()`: destroy yet-alive elements — iterate `i ∈ [0, size)` and
apply `dtor_slot`. -/
def chunk_dtor (cid : Nat) (c : DChunk) (ts : TState) : DChunk × TState :=
  (List.range c.size).foldl (dtor_slot cid) (c, ts)

/-- Look up a chunk by id. -/
def getDChunk (st : DState) (cid : Nat) : Option DChunk :=
  (st.chain.find? (fun p => p.1 = cid)).map (·.2)

/-- Top-level `erase(iter)` on slot `(cid, i)` in the case where the chunk
holds no other live element, followed by the maintenance it triggers
(`erase_immideatley = true`): `Chunk::erase`, then `maintain_and_unlock`'s
`try_delete` — which fires exactly when `alive_size() == 0 && !is_first`,
unchains the chunk, and lets the chunk destructor run when the maintenance
routine drops the last shared reference (`chunk_self`).  The free-chunk
registry bookkeeping of `try_delete` does not touch handles and is omitted
here.  When `try_delete` declines (live elements remain, or the chunk is the
anchor) this model stops short of the merge/compact branches, which the
claims C2 and C3 do not exercise on this path. -/
def erase_then_try_delete (st : DState) (cid i : Nat) : DState :=
  match getDChunk st cid with
  | none => st
  | some c =>
      let c1 := chunk_erase c i
      if c1.alive > 0 ∨ c1.is_first then
        { st with chain := st.chain.map (fun p => if p.1 = cid then (cid, c1) else p) }
      else
        let chain1 := st.chain.filter (fun p => ¬ p.1 = cid)
        let dt := chunk_dtor cid c1 { handles := st.handles, slots := st.slots }
        { chain := chain1
          slots := dt.2.slots
          handles := dt.2.handles
          handleIds := st.handleIds
          graveyard := (cid, dt.1) :: st.graveyard }

/-- The handle invariant claimed by C2, as a decidable check over a state:
every outstanding handle either has a null chunk pointer, or names a slot
alive in a chunk still owned by the container with the handle listed exactly
once in that slot's trackable list. -/
def handleInvariantB (st : DState) : Bool :=
  st.handleIds.all fun hid =>
    let h := st.handles hid
    match h.chunk with
    | none => true
    | some cid =>
        st.chain.any fun p =>
          p.1 = cid && decide (h.index < p.2.size) && p.2.al h.index &&
            ((st.slots (cid, h.index)).first.count hid = 1)

/-- C2/C3 scenario: chunk 0 is the anchor; chunk 1 is a non-anchor chunk
whose single remaining slot 0 is alive, holds a constructed T, and carries
outstanding handle 7. -/
def scenarioC2 : DState where
  chain :=
    [ (0, { size := 0, deleted := 0, al := fun _ => false,
            constructed := fun _ => false, destructs := fun _ => 0,
            is_first := true }),
      (1, { size := 1, deleted := 0, al := fun i => i = 0,
            constructed := fun i => i = 0, destructs := fun _ => 0,
            is_first := false }) ]
  slots := fun p => if p = (1, 0) then { hav := true, first := [7] } else { hav := false, first := [] }
  handles := fun hid =>
    if hid = 7 then { chunk := some 1, index := 0 } else { chunk := none, index := 0 }
  handleIds := [7]
  graveyard := []

end Track

/-! # The chunked storage engine (claims C1, C4, C6, C10)

Shallow embedding of the container's single-threaded semantics: `Chunk`
(lines 62-174), `compact` (311-351), `merge` (353-381),
`maintain_and_unlock` (384-547), `FreeList` (181-242), `emplace` (595-640),
`erase` (642-650) and `iterate` (660-713).  Element values are `Nat`; the
trackable registry is irrelevant to the value-level claims and is modelled
separately above.  `Cap` stands for the compile-time capacity
`chunk_size_t`.  Chunks are identified by ids; the chain is the list of
(id, chunk) pairs with the head (`is_first`) chunk first, `next` links
running head to tail as in the source (`emplace` pushes new heads). -/

namespace SCA

/-- A chunk's value-level state: aliveness bitmap, element storage, `size`,
`deleted_count`, the `is_first` flag and the free-list membership flag. -/
structure Chunk where
  al : Nat → Bool
  data : Nat → Nat
  size : Nat
  deleted : Nat
  is_first : Bool
  in_free_list : Bool

/-- Computes `alive_size()` = `size - deleted_count` (size_t subtraction;
never wraps in reachable states, where `deleted ≤ size`). -/
def Chunk.alive (c : Chunk) : Nat := c.size - c.deleted

/-- Computes `is_full()` = `size == chunk_size_t`. -/
def Chunk.is_full (Cap : Nat) (c : Chunk) : Bool := c.size == Cap

/-- Computes `merge_threshold` = `chunk_size_t * 0.25`: the double multiply
is exact and the size_t cast truncates, giving Nat division by 4. -/
def merge_threshold (Cap : Nat) : Nat := Cap / 4

/-- Embedding of `Chunk::emplace(args...)`: construct the element at index
`size`, publish aliveness, increment `size`; returns the updated chunk (the
written index is its old `size`). -/
def Chunk.emplace (c : Chunk) (v : Nat) : Chunk :=
  { c with
    data := Function.update c.data c.size v
    al := Function.update c.al c.size true
    size := c.size + 1 }

/-- Embedding of `Chunk::erase(index)`: clear aliveness, bump
`deleted_count`.  No destructor call here (destruction is deferred). -/
def Chunk.erase (c : Chunk) (i : Nat) : Chunk :=
  { c with al := Function.update c.al i false, deleted := c.deleted + 1 }

/-- The live values of an aliveness/storage pair below `m`, in slot
order. -/
def visitsOn (al : Nat → Bool) (dt : Nat → Nat) (m : Nat) : List Nat :=
  ((List.range m).filter (fun i => al i)).map dt

/-- Number of dead slots in the half-open range `[i, m)`. -/
def deadCount (al : Nat → Bool) (i m : Nat) : Nat :=
  ((List.range' i (m - i)).filter (fun j => !al j)).length

/-- Embedding of `Chunk::iterate(closure)`: read `size` once, visit each
`i ∈ [0, size)` whose aliveness is true.  The visited values in slot
order. -/
def Chunk.visits (c : Chunk) : List Nat := visitsOn c.al c.data c.size

/-- Inner while loop of `compact`: strip trailing dead slots below `m`,
decrementing `deleted_left` per stripped slot, stopping at an alive slot or
at `m = 0`.  The source also notifies the trackable registry, destructs the
stripped slot's deferred T and re-stores its (already false) aliveness;
none of that changes the value-level state. -/
def clearTail (al : Nat → Bool) : Nat → Int → Nat × Int
  | 0, dl => (0, dl)
  | m + 1, dl => if al m then (m + 1, dl) else clearTail al m (dl - 1)

/-- Outer for loop of `compact` over `(al, data, i, m, deleted_left)`: skip
alive slots; at a dead slot strip the trailing dead, stop if the cursor ran
past the new end, else move the last alive element into the hole and shrink;
stop early when `deleted_left` hits zero.  `fuel` bounds the iteration
count; the cursor `i` advances by one per iteration and the loop runs while
`i < m ≤ size`, so `compact` passes `fuel = size`, which renders the loop
exactly. -/
def compactLoop :
    (Nat → Bool) → (Nat → Nat) → Nat → Nat → Int → Nat →
      (Nat → Bool) × (Nat → Nat) × Nat
  | al, dt, _, m, _, 0 => (al, dt, m)
  | al, dt, i, m, dl, fuel + 1 =>
      if i < m then
        if al i then compactLoop al dt (i + 1) m dl fuel
        else
          let md := clearTail al m dl
          if md.1 ≤ i then (al, dt, md.1)
          else
            let al2 := Function.update (Function.update al i true) (md.1 - 1) false
            let dt2 := Function.update dt i (dt (md.1 - 1))
            let dl2 := md.2 - 1
            if dl2 = 0 then (al2, dt2, md.1 - 1)
            else compactLoop al2 dt2 (i + 1) (md.1 - 1) dl2 fuel
      else (al, dt, m)

/-- Relation between a compaction result `r = (al2, dt2, size2)` and the
input storage: the surviving prefix is all alive, the rest of the old range
is dead, the bitmap above the old bound is untouched, and the live multiset
is preserved. -/
def CompactsTo (al : Nat → Bool) (dt : Nat → Nat) (m : Nat)
    (r : (Nat → Bool) × (Nat → Nat) × Nat) : Prop :=
  (∀ j, j < r.2.2 → r.1 j = true) ∧
    (∀ j, r.2.2 ≤ j → j < m → r.1 j = false) ∧
    (∀ j, m ≤ j → r.1 j = al j) ∧
    r.2.2 ≤ m ∧
    (visitsOn r.1 r.2.1 r.2.2 : Multiset Nat) = ↑(visitsOn al dt m)

/-- Embedding of `compact(chunk)`: run the loop from `i = 0` with
`deleted_left = deleted_count` and `m = size`, then store `deleted_count =
0` and the shrunk `size`. -/
def Chunk.compact (c : Chunk) : Chunk :=
  let r := compactLoop c.al c.data 0 c.size (c.deleted : Int) c.size
  { c with al := r.1, data := r.2.1, size := r.2.2, deleted := 0 }

/-- One iteration of the `merge` copy loop: if slot `i` of the donor is
alive, move its element to the tail of the receiver and publish it. -/
def mergeStep (f : Chunk) (t : Chunk) (i : Nat) : Chunk :=
  if f.al i then
    { t with
      data := Function.update t.data t.size (f.data i)
      al := Function.update t.al t.size true
      size := t.size + 1 }
  else t

/-- Embedding of `merge(chunk_to, chunk_from, ...)`, receiver side: compact
the receiver if it has holes, then move every alive donor element to the
receiver's tail. -/
def Chunk.mergeInto (t f : Chunk) : Chunk :=
  (List.range f.size).foldl (mergeStep f) (if 0 < t.deleted then t.compact else t)

/-- Embedding of `merge(chunk_to, chunk_from, ...)`, donor side: the donor
ends with `size = 0`, `deleted_count = 0` (its aliveness bits are left as
they were; the chunk is unchained right after). -/
def Chunk.mergeFrom (f : Chunk) : Chunk := { f with size := 0, deleted := 0 }

/-- A concrete chunk for the C4 witness: three slots used, slot 1 dead
(`deleted_count = 1`). -/
def exampleChunkC4 : Chunk where
  al := fun j => decide (j = 0 ∨ j = 2)
  data := fun j => 10 + j
  size := 3
  deleted := 1
  is_first := false
  in_free_list := false

/-- Container state: the chunk chain (head first), the free-chunk registry
as the list of member ids (`FreeList::first` at the head), and a fresh-id
counter for newly allocated chunks. -/
structure CState where
  chain : List (Nat × Chunk)
  freeList : List Nat
  nextId : Nat

/-- The state of a default-constructed container. -/
def initState : CState := { chain := [], freeList := [], nextId := 0 }

/-- Embedding of `FreeList::add(chunk)`: no-op when already a member, else
push at the front and set the membership flag. -/
def freeListAdd (fl : List Nat) (id : Nat) (c : Chunk) : List Nat × Chunk :=
  if c.in_free_list then (fl, c)
  else (id :: fl, { c with in_free_list := true })

/-- Embedding of `FreeList::erase(chunk)`: no-op when not a member, else
unlink and clear the membership flag. -/
def freeListErase (fl : List Nat) (id : Nat) (c : Chunk) : List Nat × Chunk :=
  if c.in_free_list then (fl.erase id, { c with in_free_list := false })
  else (fl, c)

/-- Embedding of `maintain_and_unlock::try_add_to_free_list`: register the
chunk when it is not yet a member, not full, and not the anchor. -/
def tryAddFree (Cap : Nat) (fl : List Nat) (id : Nat) (c : Chunk) : List Nat × Chunk :=
  if !c.in_free_list && !c.is_full Cap && !c.is_first then freeListAdd fl id c
  else (fl, c)

/-- Embedding of `maintain_and_unlock::try_remove_from_free_list`. -/
def tryRemoveFree (fl : List Nat) (id : Nat) (c : Chunk) : List Nat × Chunk :=
  if c.in_free_list then freeListErase fl id c else (fl, c)

/-- Embedding of `maintain_and_unlock::can_merge`: neither chunk is the
anchor and the combined alive sizes fit under the merge threshold. -/
def can_merge (Cap : Nat) (c o : Chunk) : Bool :=
  !c.is_first && !o.is_first &&
    decide (c.alive + o.alive ≤ merge_threshold Cap)

/-- Locate a chunk by id: the chain entries before it, the chunk, and the
entries after it. -/
def splitChain : List (Nat × Chunk) → Nat → Option (List (Nat × Chunk) × Chunk × List (Nat × Chunk))
  | [], _ => none
  | p :: rest, id =>
      if p.1 = id then some ([], p.2, rest)
      else (splitChain rest id).map (fun q => (p :: q.1, q.2.1, q.2.2))

/-- Maintenance events: a chunk deleted from the chain, or a merge that
emptied chunk `src` into chunk `dst` and unchained `src`. -/
inductive MEvent where
  | deleted : Nat → MEvent
  | merged : Nat → Nat → MEvent
deriving DecidableEq

/-- Body of `try_merge_with` once `can_merge` holds under both maintenance
locks: merge into the chunk with the larger alive count (ties to the
neighbour), remove the donor from the free-chunk registry, register the
receiver, and (in the caller) unchain the donor.  `cid`/`c` is the chunk
whose maintenance is running, `oid`/`oc` the neighbour.  Returns the
surviving (id, chunk) entry, the donor id, and the updated free list. -/
def do_merge (Cap : Nat) (fl : List Nat) (cid : Nat) (c : Chunk) (oid : Nat) (oc : Chunk) :
    (Nat × Chunk) × Nat × List Nat :=
  if decide (oc.alive < c.alive) then
    let t := Chunk.mergeInto c oc
    let f := Chunk.mergeFrom oc
    let r1 := tryRemoveFree fl oid f
    let r2 := tryAddFree Cap r1.1 cid t
    ((cid, r2.2), oid, r2.1)
  else
    let t := Chunk.mergeInto oc c
    let f := Chunk.mergeFrom c
    let r1 := tryRemoveFree fl cid f
    let r2 := tryAddFree Cap r1.1 oid t
    ((oid, r2.2), cid, r2.1)

/-- Embedding of `maintain_and_unlock<false>(chunk, p_self)` at recursion
level 1 (a top-level single-threaded call, every try_lock succeeding):
compute `need_merge`/`need_compact` from the chunk at entry; skip when
neither holds.  Else `try_delete` (alive-empty non-anchor chunks are removed
from the registry and the chain), then — if merging is wanted — try the
previous neighbour, then the next; a successful merge leaves the surviving
chunk hole-free, so the trailing compaction check declines.  Otherwise
compact when holes remain and re-register the chunk.  Also returns the
structural events for the anchor-safety claim. -/
def maintain (Cap : Nat) (s : CState) (id : Nat) : CState × List MEvent :=
  match splitChain s.chain id with
  | none => (s, [])
  | some (pre, c, post) =>
      let need_merge := !c.is_first && decide (c.alive ≤ merge_threshold Cap)
      let need_compact := decide (0 < c.deleted)
      if need_merge || need_compact then
        if decide (c.alive = 0) && !c.is_first then
          let fc := tryRemoveFree s.freeList id c
          ({ chain := pre ++ post, freeList := fc.1, nextId := s.nextId },
            [MEvent.deleted id])
        else
          let mergePrev : Option (CState × List MEvent) :=
            if need_merge then
              match pre.getLast? with
              | some pp =>
                  if can_merge Cap c pp.2 then
                    let r := do_merge Cap s.freeList id c pp.1 pp.2
                    some ({ chain := pre.dropLast ++ r.1 :: post,
                            freeList := r.2.2, nextId := s.nextId },
                      [MEvent.merged r.2.1 r.1.1])
                  else none
              | none => none
            else none
          let mergeAny : Option (CState × List MEvent) :=
            match mergePrev with
            | some r => some r
            | none =>
                if need_merge then
                  match post.head? with
                  | some np =>
                      if can_merge Cap c np.2 then
                        let r := do_merge Cap s.freeList id c np.1 np.2
                        some ({ chain := pre ++ r.1 :: post.tail,
                                freeList := r.2.2, nextId := s.nextId },
                          [MEvent.merged r.2.1 r.1.1])
                      else none
                  | none => none
                else none
          match mergeAny with
          | some r => r
          | none =>
              if decide (0 < c.deleted) then
                let c2 := c.compact
                let r := tryAddFree Cap s.freeList id c2
                ({ chain := pre ++ (id, r.2) :: post, freeList := r.1,
                   nextId := s.nextId }, [])
              else (s, [])
      else (s, [])

/-- A concrete state for the C6 witness: anchor chunk 9 followed by a fully
erased non-anchor chunk 5, which maintenance will delete. -/
def exampleStateC6 : CState where
  chain :=
    [ (9, { al := fun j => decide (j < 1), data := fun _ => 7, size := 1,
            deleted := 0, is_first := true, in_free_list := false }),
      (5, { al := fun _ => false, data := fun _ => 3, size := 1,
            deleted := 1, is_first := false, in_free_list := false }) ]
  freeList := []
  nextId := 10

/-- Look up a chunk by id. -/
def chunkById (s : CState) (id : Nat) : Option Chunk :=
  (splitChain s.chain id).map (fun q => q.2.1)

/-- What claim C6 asserts of one maintenance event: the chunks it deletes or
merges (source and destination alike) are non-anchor chunks of the entry
state. -/
def eventNonAnchor (s : CState) : MEvent → Prop
  | MEvent.deleted d => ∃ c, chunkById s d = some c ∧ c.is_first = false
  | MEvent.merged src dst =>
      (∃ c, chunkById s src = some c ∧ c.is_first = false) ∧
        ∃ c, chunkById s dst = some c ∧ c.is_first = false

/-- A chunk with no elements, as `std::make_shared<Chunk>(self_ptr)`
produces it (the `is_first` flag as the caller sets it). -/
def freshChunk (isf : Bool) : Chunk where
  al := fun _ => false
  data := fun _ => 0
  size := 0
  deleted := 0
  is_first := isf
  in_free_list := false

/-- Steps (1)-(2) of `emplace`: take the free-chunk registry's head chunk
under its maintenance lock when the registry is non-empty; else lock the
head — creating the first chunk if the container is empty, and splicing a
fresh anchor in front when the head is full (the old head loses `is_first`).
Returns the updated state and the id of the chunk that will receive the
element. -/
def emplaceSetup (Cap : Nat) (s : CState) : CState × Nat :=
  match s.freeList.head? with
  | some fid => (s, fid)
  | none =>
      match s.chain with
      | [] =>
          ({ chain := [(s.nextId, freshChunk true)], freeList := s.freeList,
             nextId := s.nextId + 1 }, s.nextId)
      | (hid, hc) :: rest =>
          if hc.is_full Cap then
            ({ chain := (s.nextId, freshChunk true) ::
                  (hid, { hc with is_first := false }) :: rest,
               freeList := s.freeList, nextId := s.nextId + 1 }, s.nextId)
          else (s, hid)

/-- Embedding of `SyncedChunkedArray::emplace(args...)`: select the target
chunk, construct the element at its tail, and drop the chunk from the
free-chunk registry when the insertion filled it.  (The returned deferred
handle factory is not part of the value-level state.) -/
def emplaceOp (Cap : Nat) (s : CState) (v : Nat) : CState :=
  let su := emplaceSetup Cap s
  match splitChain su.1.chain su.2 with
  | none => su.1
  | some (pre, c, post) =>
      let c1 := c.emplace v
      let r :=
        if c1.in_free_list && c1.is_full Cap then freeListErase su.1.freeList su.2 c1
        else (su.1.freeList, c1)
      { chain := pre ++ (su.2, r.2) :: post, freeList := r.1, nextId := su.1.nextId }

/-- Embedding of the top-level `erase(iter)` with `erase_immideatley = true`:
mark the slot dead, then (the top-level try_lock succeeds) run maintenance
on the chunk.  A valid cursor names an alive slot of an owned chunk —
anything else is the documented double-erase programming bug and is
modelled as a no-op. -/
def eraseOp (Cap : Nat) (s : CState) (id i : Nat) : CState :=
  match splitChain s.chain id with
  | none => s
  | some (pre, c, post) =>
      if i < c.size ∧ c.al i then
        (maintain Cap
          { chain := pre ++ (id, c.erase i) :: post, freeList := s.freeList,
            nextId := s.nextId } id).1
      else s

/-- The chain walk of `iterate` (exclusive, visitor collecting values):
visit the current chunk's live slots, run maintenance on it, then follow
its `next` pointer — when maintenance unchained the current chunk, that
pointer still names the successor the chunk had at unchaining time.  `fuel`
bounds the walk; maintenance never adds chunks and the cursor only moves
toward the tail, so `chain.length` steps render the full walk. -/
def iterateLoop (Cap : Nat) : CState → Option Nat → Nat → List Nat × CState
  | s, _, 0 => ([], s)
  | s, none, _ + 1 => ([], s)
  | s, some id, fuel + 1 =>
      match splitChain s.chain id with
      | none => ([], s)
      | some (_, c, post) =>
          let ms := (maintain Cap s id).1
          let nxt :=
            match splitChain ms.chain id with
            | some q => (q.2.2.head?).map Prod.fst
            | none => (post.head?).map Prod.fst
          let rest := iterateLoop Cap ms nxt fuel
          (c.visits ++ rest.1, rest.2)

/-- Embedding of `SyncedChunkedArray::iterate(closure)` with a visitor that
records each visited element: snapshot the head under the head lock, then
walk the chain.  (Single-threaded, no chunk is ever skipped for
contention.) -/
def iterateOp (Cap : Nat) (s : CState) : List Nat × CState :=
  iterateLoop Cap s ((s.chain.head?).map Prod.fst) s.chain.length

/-- The single-threaded operations of claim C1. -/
inductive Op where
  | emplace : Nat → Op
  | erase : Nat → Nat → Op

/-- One top-level operation. -/
def step (Cap : Nat) (s : CState) : Op → CState
  | Op.emplace v => emplaceOp Cap s v
  | Op.erase id i => eraseOp Cap s id i

/-- Run a sequence of top-level operations on a fresh container. -/
def run (Cap : Nat) (ops : List Op) : CState :=
  ops.foldl (step Cap) initState

/-- The multiset of values inserted by a sequence of operations. -/
def inserted : List Op → Multiset Nat
  | [] => 0
  | Op.emplace v :: t => {v} + inserted t
  | Op.erase _ _ :: t => inserted t

/-- The multiset of values removed by the valid erases of a sequence run
from `s` (an erase is valid when its cursor names an alive slot of an owned
chunk at that point). -/
def erasedFrom (Cap : Nat) (s : CState) : List Op → Multiset Nat
  | [] => 0
  | op :: t =>
      let rest := erasedFrom Cap (step Cap s op) t
      match op with
      | Op.emplace _ => rest
      | Op.erase id i =>
          match splitChain s.chain id with
          | none => rest
          | some (_, c, _) =>
              if i < c.size ∧ c.al i then {c.data i} + rest else rest

/-- A chunk's live values as a multiset. -/
def Chunk.liveVals (c : Chunk) : Multiset Nat := (c.visits : Multiset Nat)

/-- The container's live multiset: every chunk's live values. -/
def liveM (s : CState) : Multiset Nat :=
  (s.chain.map (fun p => p.2.liveVals)).sum

/-- Well-formedness of a single chunk at a quiescent point: hole-free,
within capacity, aliveness exactly on `[0, size)`. -/
def WFChunk (Cap : Nat) (c : Chunk) : Prop :=
  c.deleted = 0 ∧ c.size ≤ Cap ∧ ∀ i, c.al i = decide (i < c.size)

/-- The `is_first` flag marks exactly the head of the chain. -/
def chainShape : List (Nat × Chunk) → Prop
  | [] => True
  | h :: t => h.2.is_first = true ∧ ∀ p ∈ t, p.2.is_first = false

/-- The quiescent-state invariant maintained by the top-level operations:
well-formed compacted chunks; the anchor flag at the head only; distinct
ids below the fresh counter; non-anchor chunks non-empty; adjacent
non-anchor chunks jointly above the merge threshold (so no merge is
pending); and the free-chunk registry holding exactly the non-full
non-anchor chunks, consistently with the membership flags. -/
def WF (Cap : Nat) (s : CState) : Prop :=
  (∀ p ∈ s.chain, WFChunk Cap p.2) ∧
    chainShape s.chain ∧
    (s.chain.map Prod.fst).Nodup ∧
    (∀ p ∈ s.chain, p.1 < s.nextId) ∧
    (∀ p ∈ s.chain, p.2.is_first = false → 1 ≤ p.2.alive) ∧
    List.Chain' (fun a b => merge_threshold Cap < a.2.alive + b.2.alive) s.chain.tail ∧
    (∀ p ∈ s.chain, p.2.in_free_list = (!p.2.is_full Cap && !p.2.is_first)) ∧
    s.freeList.Nodup ∧
    (∀ id ∈ s.freeList, ∃ p ∈ s.chain, p.1 = id ∧ p.2.in_free_list = true) ∧
    (∀ p ∈ s.chain, p.2.in_free_list = true → p.1 ∈ s.freeList)

/-- The multiset a single `erase(iter)` removes: the cursor's value when the
cursor names an alive slot of an owned chunk, nothing otherwise. -/
def eraseVal (s : CState) (id i : Nat) : Multiset Nat :=
  match splitChain s.chain id with
  | none => 0
  | some (_, c, _) => if i < c.size ∧ c.al i then {c.data i} else 0

/-- The chunk on which the container's `emplace` invokes `Chunk::emplace`:
the chunk the setup phase selects, looked up in the set-up chain. -/
def emplaceTargetChunk (Cap : Nat) (s : CState) : Option Chunk :=
  (splitChain (emplaceSetup Cap s).1.chain (emplaceSetup Cap s).2).map
    (fun q => q.2.1)

end SCA

/-! # Theorems -/

/-! ## Claim C9 -/

/-- C9 counterexample: at `sizeof(T) = 3` the code picks `⌊2048/3⌋ = 682`,
whose payload `2046` falls short of 2 KiB even though 32 is not the binding
floor (the smallest capacity reaching 2 KiB would be 683).  So the claimed
characterisation is false at 3. -/
theorem claim_C9_counterexample : ¬ ChunkDefault.claimedDefault 3 := by
  intro h
  have h32 : 32 * 3 < 2048 := by decide
  have h2048 : 2048 ≤ ChunkDefault.default_chunk_size 3 * 3 := (h.2.2 h32).1
  have : ChunkDefault.default_chunk_size 3 * 3 = 2046 := by decide
  omega

/-- C9 (amended): the default capacity is at least 32 and — unless a floor of
32 slots already reaches a 2 KiB payload — it is the **largest** capacity
whose payload area stays within 2 KiB, i.e. `⌊2048 / sizeof(T)⌋`. -/
theorem claim_C9_amended (s : Nat) (hs : 0 < s) :
    32 ≤ ChunkDefault.default_chunk_size s ∧
      (2048 ≤ 32 * s → ChunkDefault.default_chunk_size s = 32) ∧
      (32 * s < 2048 →
        ChunkDefault.default_chunk_size s * s ≤ 2048 ∧
          2048 < (ChunkDefault.default_chunk_size s + 1) * s) := by
  refine ⟨le_max_left _ _, ?_, ?_⟩
  · intro h
    have hs64 : 64 ≤ s := by omega
    have : 2048 / s ≤ 2048 / 64 := Nat.div_le_div_left hs64 (by omega)
    simp only [ChunkDefault.default_chunk_size]
    omega
  · intro h
    have hs63 : s ≤ 63 := by
      by_contra hc
      omega
    have hfloor : 32 ≤ 2048 / s := by
      have : 2048 / 63 ≤ 2048 / s := Nat.div_le_div_left hs63 hs
      have : (32 : Nat) = 2048 / 64 := by decide
      omega
    have hd : ChunkDefault.default_chunk_size s = 2048 / s := by
      simp only [ChunkDefault.default_chunk_size]
      omega
    constructor
    · rw [hd]; exact Nat.div_mul_le_self 2048 s
    · rw [hd]
      have h1 := Nat.div_add_mod 2048 s
      have h2 := Nat.mod_lt 2048 hs
      have h3 : (2048 / s + 1) * s = s * (2048 / s) + s := by ring
      omega

/-- Witness for C9 (amended) at `sizeof(T) = 3`: capacity 682, payload
`2046 ≤ 2048`, and one more slot would exceed 2 KiB. -/
theorem claim_C9_amended_witness :
    0 < 3 ∧
      (32 ≤ ChunkDefault.default_chunk_size 3 ∧
        (2048 ≤ 32 * 3 → ChunkDefault.default_chunk_size 3 = 32) ∧
        (32 * 3 < 2048 →
          ChunkDefault.default_chunk_size 3 * 3 ≤ 2048 ∧
            2048 < (ChunkDefault.default_chunk_size 3 + 1) * 3)) :=
  ⟨by decide, claim_C9_amended 3 (by decide)⟩

/-! ## Claim C5 -/

/-- C5: removing chunk 1 from the chain `0 ↔ 1 ↔ 2` CAS-updates the
neighbours' links to bypass it (that part of the claim holds), but the
removed chunk's own `prev` link still references its former predecessor:
the source nulls a local shared_ptr copy instead of `chunk->prev`. -/
theorem claim_C5_eval :
    (Links.remove_chunk Links.chain3 1).next 0 = some 2 ∧
      (Links.remove_chunk Links.chain3 1).prev 2 = some 0 ∧
      (Links.remove_chunk Links.chain3 1).prev 1 = some 0 ∧
      (Links.remove_chunk Links.chain3 1).prev 1 ≠ none := by
  refine ⟨by decide, by decide, by decide, by decide⟩

/-! ## Claim C8 -/

/-- C8: after move construction the moved-from container's head is null (so
iterating it indeed visits nothing), but its free-chunk registry still
reports non-empty and still references chunk 1 — a chunk of the chain now
owned by the moved-to container.  A subsequent emplace on the moved-from
container therefore constructs into the moved-to container's chunk 1, not
into a chunk of its own (its own chain is empty). -/
theorem claim_C8_eval :
    ((MoveCtor.moveConstruct MoveCtor.scenario).2).first = none ∧
      MoveCtor.chainFrom MoveCtor.scenarioNexts
        ((MoveCtor.moveConstruct MoveCtor.scenario).2).first 2 = [] ∧
      MoveCtor.emplaceTarget ((MoveCtor.moveConstruct MoveCtor.scenario).2) = some 1 ∧
      1 ∈ MoveCtor.chainFrom MoveCtor.scenarioNexts
        ((MoveCtor.moveConstruct MoveCtor.scenario).1).first 2 := by
  refine ⟨by decide, by decide, by decide, by decide⟩

/-! ## Claim C7 -/

namespace Track

/-- Bulk handle rewrite to a constant value: the handle map after
`iterate_trackable_iterators` with a constant closure. -/
theorem bulk_const (hs : Nat → Handle) (ids : List Nat) (v : Handle) (x : Nat) :
    iterate_trackable_iterators hs ids (fun _ => v) x = if x ∈ ids then v else hs x := by
  induction ids generalizing hs with
  | nil => simp [iterate_trackable_iterators]
  | cons a t ih =>
      simp only [iterate_trackable_iterators, List.foldl_cons] at *
      rw [ih]
      by_cases hxt : x ∈ t
      · simp [hxt, List.mem_cons]
      · by_cases hxa : x = a
        · subst hxa
          simp [hxt, Function.update]
        · simp [hxt, hxa, Function.update]

/-- Bulk handle rewrite with an idempotent closure: each listed handle ends
with the closure applied to its original value. -/
theorem bulk_idem (f : Handle → Handle) (hf : ∀ h, f (f h) = f h)
    (hs : Nat → Handle) (ids : List Nat) (x : Nat) :
    iterate_trackable_iterators hs ids f x = if x ∈ ids then f (hs x) else hs x := by
  induction ids generalizing hs with
  | nil => simp [iterate_trackable_iterators]
  | cons a t ih =>
      simp only [iterate_trackable_iterators, List.foldl_cons] at *
      rw [ih]
      by_cases hxt : x ∈ t
      · by_cases hxa : x = a
        · subst hxa
          simp [hxt, Function.update, hf]
        · simp [hxt, hxa, Function.update]
      · by_cases hxa : x = a
        · subst hxa
          simp [hxt, Function.update]
        · simp [hxt, hxa, Function.update]

end Track

/-- C7 counterexample: moving slot (0,0) — which has no handles — onto slot
(0,1) — which holds handle 5 — leaves the destination's `have` flag true
while its handle list is empty, so the claimed biconditional between
`have_any` and list non-emptiness fails. -/
theorem claim_C7_counterexample : ¬ Track.claimC7At Track.cexC7 0 0 0 1 := by
  intro h
  have h4 := h.2.2.2
  revert h4
  decide


/-- Reduction of `track_move_element` in the case where the move proceeds
(distinct slots, at least one `have` flag up). -/
theorem Track.track_move_main_eq (st : Track.TState) (cf idxf ct idxt : Nat)
    (hne : ¬(idxf = idxt ∧ cf = ct))
    (hsome : ¬((st.slots (cf, idxf)).hav = false ∧ (st.slots (ct, idxt)).hav = false)) :
    Track.track_move_element st cf idxf ct idxt =
      { handles := Track.iterate_trackable_iterators
          (Track.iterate_trackable_iterators st.handles (st.slots (ct, idxt)).first
            (fun h => { h with chunk := none }))
          (st.slots (cf, idxf)).first (fun _ => { chunk := some ct, index := idxt })
        slots := Function.update
          (Function.update st.slots (ct, idxt)
            { hav := if (st.slots (ct, idxt)).hav = false then true
                     else (st.slots (ct, idxt)).hav,
              first := (st.slots (cf, idxf)).first })
          (cf, idxf) { hav := false, first := [] } } := by
  unfold Track.track_move_element
  rw [if_neg hne, if_neg hsome]

/-- C7 (amended): after `track_move_element` from a source slot to a distinct
destination slot — given registries whose `have` flags do not under-report
and whose two lists are disjoint — every source handle names the destination
and the source list is spliced onto the destination, every prior destination
handle is nulled (its index left as it was), all other handles are
untouched, the source entry is cleared, and the destination's `have` flag
becomes the **disjunction** of the two prior flags: it may be conservatively
true with an empty list when the source had no handles but the destination
did. -/
theorem claim_C7_amended (st : Track.TState) (cf idxf ct idxt : Nat)
    (hne : ¬(idxf = idxt ∧ cf = ct))
    (hsrc : (st.slots (cf, idxf)).hav = false → (st.slots (cf, idxf)).first = [])
    (hdst : (st.slots (ct, idxt)).hav = false → (st.slots (ct, idxt)).first = [])
    (hdisj : ∀ hid ∈ (st.slots (ct, idxt)).first, hid ∉ (st.slots (cf, idxf)).first) :
    (Track.track_move_element st cf idxf ct idxt).slots (cf, idxf)
        = { hav := false, first := [] } ∧
      (Track.track_move_element st cf idxf ct idxt).slots (ct, idxt)
        = { hav := (st.slots (cf, idxf)).hav || (st.slots (ct, idxt)).hav,
            first := (st.slots (cf, idxf)).first } ∧
      (∀ hid ∈ (st.slots (cf, idxf)).first,
        (Track.track_move_element st cf idxf ct idxt).handles hid
          = { chunk := some ct, index := idxt }) ∧
      (∀ hid ∈ (st.slots (ct, idxt)).first,
        ((Track.track_move_element st cf idxf ct idxt).handles hid).chunk = none ∧
          ((Track.track_move_element st cf idxf ct idxt).handles hid).index
            = (st.handles hid).index) ∧
      (∀ hid, hid ∉ (st.slots (cf, idxf)).first → hid ∉ (st.slots (ct, idxt)).first →
        (Track.track_move_element st cf idxf ct idxt).handles hid = st.handles hid) := by
  have hpairne : (cf, idxf) ≠ (ct, idxt) := by
    intro hp
    exact hne ⟨congrArg Prod.snd hp, congrArg Prod.fst hp⟩
  by_cases hboth : (st.slots (cf, idxf)).hav = false ∧ (st.slots (ct, idxt)).hav = false
  · have hid : Track.track_move_element st cf idxf ct idxt = st := by
      unfold Track.track_move_element
      rw [if_neg hne, if_pos hboth]
    have h2 : (st.slots (cf, idxf)).first = [] := hsrc hboth.1
    have h4 : (st.slots (ct, idxt)).first = [] := hdst hboth.2
    rw [hid]
    refine ⟨?_, ?_, ?_, ?_, ?_⟩
    · have heta : st.slots (cf, idxf)
          = { hav := (st.slots (cf, idxf)).hav, first := (st.slots (cf, idxf)).first } := rfl
      rw [heta, hboth.1, h2]
    · have heta : st.slots (ct, idxt)
          = { hav := (st.slots (ct, idxt)).hav, first := (st.slots (ct, idxt)).first } := rfl
      rw [heta, hboth.1, hboth.2, h4, h2]
      rfl
    · intro hid hmem
      rw [h2] at hmem
      cases hmem
    · intro hid hmem
      rw [h4] at hmem
      cases hmem
    · intro hid _ _
      rfl
  · rw [Track.track_move_main_eq st cf idxf ct idxt hne hboth]
    refine ⟨?_, ?_, ?_, ?_, ?_⟩
    · exact Function.update_same _ _ _
    · refine Eq.trans (Function.update_noteq hpairne.symm _ _)
        (Eq.trans (Function.update_same _ _ _) ?_)
      rcases hto : (st.slots (ct, idxt)).hav with _ | _
      · have hfromt : (st.slots (cf, idxf)).hav = true := by
          rcases hfrom : (st.slots (cf, idxf)).hav with _ | _
          · exact absurd ⟨hfrom, hto⟩ hboth
          · rfl
        simp [hfromt]
      · simp [hto]
    · intro hid hmem
      simp only
      rw [Track.bulk_const]
      simp [hmem]
    · intro hid hmem
      have hnot : hid ∉ (st.slots (cf, idxf)).first := hdisj hid hmem
      simp only
      rw [Track.bulk_const]
      simp only [hnot, if_false]
      rw [Track.bulk_idem (fun h => { h with chunk := none }) (fun h => rfl)]
      simp [hmem]
    · intro hid hnf hnt
      simp only
      rw [Track.bulk_const]
      simp only [hnf, if_false]
      rw [Track.bulk_idem (fun h => { h with chunk := none }) (fun h => rfl)]
      simp [hnt]

/-- Witness for C7 (amended) at the concrete registry of the counterexample
input: source (0,0) empty, destination (0,1) holding handle 5. -/
theorem claim_C7_amended_witness :
    (¬((0 : Nat) = 1 ∧ (0 : Nat) = 0)) ∧
      ((Track.cexC7.slots (0, 0)).hav = false → (Track.cexC7.slots (0, 0)).first = []) ∧
      ((Track.cexC7.slots (0, 1)).hav = false → (Track.cexC7.slots (0, 1)).first = []) ∧
      (∀ hid ∈ (Track.cexC7.slots (0, 1)).first, hid ∉ (Track.cexC7.slots (0, 0)).first) ∧
      ((Track.track_move_element Track.cexC7 0 0 0 1).slots (0, 0)
          = { hav := false, first := [] } ∧
        (Track.track_move_element Track.cexC7 0 0 0 1).slots (0, 1)
          = { hav := (Track.cexC7.slots (0, 0)).hav || (Track.cexC7.slots (0, 1)).hav,
              first := (Track.cexC7.slots (0, 0)).first } ∧
        (∀ hid ∈ (Track.cexC7.slots (0, 0)).first,
          (Track.track_move_element Track.cexC7 0 0 0 1).handles hid
            = { chunk := some 0, index := 1 }) ∧
        (∀ hid ∈ (Track.cexC7.slots (0, 1)).first,
          ((Track.track_move_element Track.cexC7 0 0 0 1).handles hid).chunk = none ∧
            ((Track.track_move_element Track.cexC7 0 0 0 1).handles hid).index
              = (Track.cexC7.handles hid).index) ∧
        (∀ hid, hid ∉ (Track.cexC7.slots (0, 0)).first →
            hid ∉ (Track.cexC7.slots (0, 1)).first →
          (Track.track_move_element Track.cexC7 0 0 0 1).handles hid
            = Track.cexC7.handles hid)) :=
  ⟨by decide, by decide, by decide, by decide,
    claim_C7_amended Track.cexC7 0 0 0 1 (by decide) (by decide) (by decide) (by decide)⟩

/-! ## Claims C2 and C3 -/

/-- C2: the handle invariant holds before the scenario, but erasing the last
element of non-anchor chunk 1 triggers `try_delete`, which unchains the
chunk without notifying the dead slot's handles, and the chunk destructor
skips dead slots — so afterwards handle 7 still carries a non-null chunk
pointer to chunk 1, which the container no longer owns.  The claimed
invariant is false at this quiescent point. -/
theorem claim_C2_eval :
    Track.handleInvariantB Track.scenarioC2 = true ∧
      Track.handleInvariantB (Track.erase_then_try_delete Track.scenarioC2 1 0) = false ∧
      (Track.erase_then_try_delete Track.scenarioC2 1 0).handles 7
        = { chunk := some 1, index := 0 } ∧
      (Track.erase_then_try_delete Track.scenarioC2 1 0).chain.map Prod.fst = [0] := by
  refine ⟨by decide, by decide, by decide, by decide⟩

/-- C3: in the same scenario the erased element's T is never destructed: the
erase defers destruction, `try_delete` removes the chunk without compaction,
and `~Chunk` skips slots whose aliveness is false.  The destroyed chunk's
slot 0 records zero destructor invocations while still holding a constructed
T — not the exactly-once destruction the claim states. -/
theorem claim_C3_eval :
    ((Track.erase_then_try_delete Track.scenarioC2 1 0).graveyard.map
        (fun p => (p.1, p.2.destructs 0, p.2.constructed 0))) = [(1, 0, true)] := by
  decide

/-! ## Compaction lemmas (toward claims C4 and C1) -/

namespace SCA

/-- Membership in the plain-step range'. -/
theorem mem_range'_iff {s n j : Nat} : j ∈ List.range' s n ↔ s ≤ j ∧ j < s + n := by
  constructor
  · intro h
    have := List.mem_range'.mp h
    obtain ⟨k, hk, rfl⟩ := this
    omega
  · intro ⟨h1, h2⟩
    exact List.mem_range'.mpr ⟨j - s, by omega, by omega⟩

/-- visitsOn only depends on the functions below the bound. -/
theorem visitsOn_congr {al al2 : Nat → Bool} {dt dt2 : Nat → Nat} {m : Nat}
    (hal : ∀ j, j < m → al j = al2 j) (hdt : ∀ j, j < m → dt j = dt2 j) :
    visitsOn al dt m = visitsOn al2 dt2 m := by
  unfold visitsOn
  have h1 : (List.range m).filter (fun i => al i) = (List.range m).filter (fun i => al2 i) :=
    List.filter_congr (fun x hx => by rw [hal x (List.mem_range.mp hx)])
  rw [h1]
  apply List.map_congr_left
  intro x hx
  exact hdt x (List.mem_range.mp (List.mem_of_mem_filter hx))

/-- visitsOn extended by one slot. -/
theorem visitsOn_succ (al : Nat → Bool) (dt : Nat → Nat) (m : Nat) :
    visitsOn al dt (m + 1) = visitsOn al dt m ++ (if al m then [dt m] else []) := by
  unfold visitsOn
  rw [List.range_succ, List.filter_append, List.map_append]
  congr 1
  by_cases h : al m <;> simp [h]

/-- A dead tail contributes no visits. -/
theorem visitsOn_dead_tail (al : Nat → Bool) (dt : Nat → Nat) {a b : Nat} (hab : a ≤ b)
    (h : ∀ j, a ≤ j → j < b → al j = false) :
    visitsOn al dt b = visitsOn al dt a := by
  induction b with
  | zero =>
      have : a = 0 := by omega
      rw [this]
  | succ k ih =>
      rcases Nat.lt_or_ge k a with hk | hk
      · have : a = k + 1 := by omega
        rw [this]
      · rw [visitsOn_succ, h k hk (by omega)]
        simp only [Bool.false_eq_true, if_false, List.append_nil]
        exact ih hk (fun j hj1 hj2 => h j hj1 (by omega))

/-- Filling a dead slot with a value adds exactly that value to the live
multiset. -/
theorem visitsOn_fill (al : Nat → Bool) (dt : Nat → Nat) {i m : Nat} (him : i < m)
    (hdead : al i = false) (v : Nat) :
    (visitsOn (Function.update al i true) (Function.update dt i v) m : Multiset Nat)
      = ↑(visitsOn al dt m) + {v} := by
  induction m with
  | zero => omega
  | succ k ih =>
      rcases Nat.lt_or_ge i k with hik | hik
      · rw [visitsOn_succ, visitsOn_succ al dt k]
        rw [Function.update_noteq (by omega : k ≠ i), Function.update_noteq (by omega : k ≠ i)]
        by_cases h : al k
        · simp only [h, if_true]
          have := ih hik
          push_cast at this ⊢
          rw [← Multiset.coe_add] at *
          simp only [Multiset.coe_add] at *
          calc (↑(visitsOn (Function.update al i true) (Function.update dt i v) k) : Multiset Nat)
                + ↑[dt k]
              = ↑(visitsOn al dt k) + {v} + ↑[dt k] := by rw [this]
            _ = ↑(visitsOn al dt k) + ↑[dt k] + {v} := add_right_comm _ _ _
        · simp only [h, Bool.false_eq_true, if_false, List.append_nil]
          exact ih hik
      · have hi : i = k := by omega
        subst hi
        rw [visitsOn_succ, visitsOn_succ al dt i, hdead, Function.update_same,
          Function.update_same]
        have hcong : visitsOn (Function.update al i true) (Function.update dt i v) i
            = visitsOn al dt i :=
          visitsOn_congr (fun j hj => Function.update_noteq (by omega) _ _)
            (fun j hj => Function.update_noteq (by omega) _ _)
        rw [hcong]
        simp [← Multiset.coe_add]

/-- deadCount on an empty range. -/
theorem deadCount_of_le {al : Nat → Bool} {i m : Nat} (h : m ≤ i) : deadCount al i m = 0 := by
  unfold deadCount
  have : m - i = 0 := by omega
  rw [this]
  rfl

/-- deadCount peeled at the left end. -/
theorem deadCount_cons {al : Nat → Bool} {i m : Nat} (h : i < m) :
    deadCount al i m = (if al i then 0 else 1) + deadCount al (i + 1) m := by
  unfold deadCount
  have h1 : m - i = (m - (i + 1)) + 1 := by omega
  rw [h1, List.range'_succ, List.filter_cons]
  by_cases hal : al i <;> simp [hal] <;> omega

/-- deadCount split at an intermediate bound. -/
theorem deadCount_split {al : Nat → Bool} {i m2 m : Nat} (h1 : i ≤ m2) (h2 : m2 ≤ m) :
    deadCount al i m = deadCount al i m2 + deadCount al m2 m := by
  unfold deadCount
  have hr := List.range'_append i (m2 - i) (m - m2) 1
  have hi : i + 1 * (m2 - i) = m2 := by omega
  have hm : (m - m2) + (m2 - i) = m - i := by omega
  rw [hi, hm] at hr
  rw [← hr, List.filter_append, List.length_append]

/-- deadCount of an all-dead range. -/
theorem deadCount_all_dead {al : Nat → Bool} {a b : Nat} (hab : a ≤ b)
    (h : ∀ j, a ≤ j → j < b → al j = false) : deadCount al a b = b - a := by
  unfold deadCount
  have : (List.range' a (b - a)).filter (fun j => !al j) = List.range' a (b - a) := by
    apply List.filter_eq_self.mpr
    intro j hj
    have := mem_range'_iff.mp hj
    rw [h j this.1 (by omega)]
    rfl
  rw [this, List.length_range']

/-- A zero deadCount means every slot in the range is alive. -/
theorem deadCount_eq_zero {al : Nat → Bool} {i m : Nat} (h : deadCount al i m = 0) :
    ∀ j, i ≤ j → j < m → al j = true := by
  intro j hj1 hj2
  unfold deadCount at h
  rw [List.length_eq_zero] at h
  have := List.filter_eq_nil_iff.mp h j (mem_range'_iff.mpr ⟨hj1, by omega⟩)
  simpa using this

/-- deadCount only depends on the bitmap within the range. -/
theorem deadCount_congr {al al2 : Nat → Bool} {i m : Nat}
    (h : ∀ j, i ≤ j → j < m → al j = al2 j) : deadCount al i m = deadCount al2 i m := by
  unfold deadCount
  congr 1
  apply List.filter_congr
  intro j hj
  have := mem_range'_iff.mp hj
  rw [h j this.1 (by omega)]

end SCA


namespace SCA

/-- Constructor for `CompactsTo` with the result components spelled out. -/
theorem compactsTo_mk (al : Nat → Bool) (dt : Nat → Nat) (m : Nat)
    (al2 : Nat → Bool) (dt2 : Nat → Nat) (m2 : Nat)
    (h1 : ∀ j, j < m2 → al2 j = true)
    (h2 : ∀ j, m2 ≤ j → j < m → al2 j = false)
    (h3 : ∀ j, m ≤ j → al2 j = al j)
    (h4 : m2 ≤ m)
    (h5 : (visitsOn al2 dt2 m2 : Multiset Nat) = ↑(visitsOn al dt m)) :
    CompactsTo al dt m (al2, dt2, m2) :=
  ⟨h1, h2, h3, h4, h5⟩

/-- Behaviour of the trailing-dead strip: the new bound is below the old,
everything between is dead, the bound sits just above an alive slot (or at
zero), and the counter drops by the number of stripped slots. -/
theorem clearTail_spec (al : Nat → Bool) :
    ∀ (m : Nat) (dl : Int),
      (clearTail al m dl).1 ≤ m ∧
        (∀ j, (clearTail al m dl).1 ≤ j → j < m → al j = false) ∧
        ((clearTail al m dl).1 = 0 ∨ al ((clearTail al m dl).1 - 1) = true) ∧
        (clearTail al m dl).2 = dl - ((m : Int) - ((clearTail al m dl).1 : Int)) := by
  intro m
  induction m with
  | zero =>
      intro dl
      refine ⟨le_refl _, ?_, Or.inl rfl, ?_⟩
      · intro j h1 h2; omega
      · simp [clearTail]
  | succ k ih =>
      intro dl
      by_cases h : al k
      · simp only [clearTail, h, if_true]
        refine ⟨le_refl _, ?_, Or.inr ?_, ?_⟩
        · intro j h1 h2; omega
        · simpa using h
        · simp
      · have hstep : clearTail al (k + 1) dl = clearTail al k (dl - 1) := by
          simp [clearTail, h]
        obtain ⟨h1, h2, h3, h4⟩ := ih (dl - 1)
        rw [hstep]
        refine ⟨h1.trans (Nat.le_succ k), ?_, h3, ?_⟩
        · intro j hj1 hj2
          rcases Nat.lt_or_ge j k with hjk | hjk
          · exact h2 j hj1 hjk
          · have : j = k := by omega
            rw [this]
            simpa using h
        · rw [h4]
          have := h1
          push_cast
          omega

/-- Loop invariant for `compactLoop`: starting with a correct dead counter
and an all-alive prefix, the loop compacts the storage. -/
theorem compactLoop_spec (fuel : Nat) :
    ∀ (al : Nat → Bool) (dt : Nat → Nat) (i m : Nat) (dl : Int),
      dl = (deadCount al i m : Int) →
      (∀ j, j < i → j < m → al j = true) →
      m ≤ i + fuel →
      CompactsTo al dt m (compactLoop al dt i m dl fuel) := by
  induction fuel with
  | zero =>
      intro al dt i m dl _ hbelow hfuel
      have hmi : m ≤ i := by omega
      have hstep : compactLoop al dt i m dl 0 = (al, dt, m) := rfl
      rw [hstep]
      exact compactsTo_mk al dt m al dt m
        (fun j hj => hbelow j (by omega) hj)
        (fun j hj1 hj2 => by omega)
        (fun j _ => rfl) (le_refl _) rfl
  | succ fuel ih =>
      intro al dt i m dl hdl hbelow hfuel
      by_cases him : i < m
      · by_cases hal : al i
        · -- alive slot: advance the cursor
          have hstep : compactLoop al dt i m dl (fuel + 1) = compactLoop al dt (i + 1) m dl fuel := by
            simp [compactLoop, him, hal]
          rw [hstep]
          apply ih
          · rw [hdl, deadCount_cons him, hal]
            simp
          · intro j h1 h2
            rcases Nat.lt_or_ge j i with hji | hji
            · exact hbelow j hji h2
            · have : j = i := by omega
              rw [this]; exact hal
          · omega
        · -- dead slot: strip the tail
          have half : al i = false := by simpa using hal
          obtain ⟨hc1, hc2, hc3, hc4⟩ := clearTail_spec al m dl
          set m2 := (clearTail al m dl).1 with hm2
          set dlc := (clearTail al m dl).2 with hdlc
          have hdead_tail : ∀ j, m2 ≤ j → j < m → al j = false := hc2
          have hdc_tail : deadCount al m2 m = m - m2 := deadCount_all_dead (by omega) hdead_tail
          by_cases hstop : m2 ≤ i
          · -- cursor ran past the new end: stop with bound m2
            have hstep : compactLoop al dt i m dl (fuel + 1) = (al, dt, m2) := by
              simp only [compactLoop]
              rw [if_pos him, if_neg (by simp [hal]), if_pos hstop]
            rw [hstep]
            exact compactsTo_mk al dt m al dt m2
              (fun j hj => hbelow j (by omega) (by omega))
              (fun j h1 h2 => hdead_tail j h1 h2)
              (fun j _ => rfl) (by omega)
              (by rw [visitsOn_dead_tail al dt (by omega : m2 ≤ m) hdead_tail])
          · -- move the last alive element into the hole
            push_neg at hstop
            have hi_lt : i < m2 := hstop
            have hm2pos : 0 < m2 := by omega
            have halast : al (m2 - 1) = true := by
              rcases hc3 with h0 | h1
              · omega
              · exact h1
            have hine : i ≠ m2 - 1 := by
              intro hcontra
              rw [hcontra, halast] at half
              cases half
            have hi_lt' : i < m2 - 1 := by omega
            have hdlc_eq : dlc = (deadCount al i m2 : Int) := by
              rw [hc4, hdl, deadCount_split (by omega : i ≤ m2) (by omega : m2 ≤ m), hdc_tail]
              push_cast
              omega
            have hsplit1 : deadCount al i m2 = 1 + deadCount al (i + 1) m2 := by
              rw [deadCount_cons hi_lt, half]
              simp
            have hsplit2 : deadCount al (i + 1) m2
                = deadCount al (i + 1) (m2 - 1) := by
              rw [deadCount_split (by omega : i + 1 ≤ m2 - 1) (by omega : m2 - 1 ≤ m2)]
              have hz : deadCount al (m2 - 1) m2 = 0 := by
                rw [deadCount_cons (by omega), halast]
                simp [deadCount_of_le, show m2 ≤ m2 - 1 + 1 by omega]
              omega
            set al2 := Function.update (Function.update al i true) (m2 - 1) false with hal2
            set dt2 := Function.update dt i (dt (m2 - 1)) with hdt2
            have hal2_mid : ∀ j, i + 1 ≤ j → j < m2 - 1 → al2 j = al j := by
              intro j h1 h2
              rw [hal2, Function.update_noteq (by omega), Function.update_noteq (by omega)]
            have hal2_below : ∀ j, j < i → al2 j = al j := by
              intro j hj
              rw [hal2, Function.update_noteq (by omega), Function.update_noteq (by omega)]
            have hal2_above : ∀ j, m2 ≤ j → al2 j = al j := by
              intro j hj
              rw [hal2, Function.update_noteq (by omega), Function.update_noteq (by omega)]
            have hal2_i : al2 i = true := by
              rw [hal2, Function.update_noteq (by omega), Function.update_same]
            have hal2_last : al2 (m2 - 1) = false := by
              rw [hal2, Function.update_same]
            have hdl2_eq : dlc - 1 = (deadCount al2 (i + 1) (m2 - 1) : Int) := by
              rw [show deadCount al2 (i + 1) (m2 - 1) = deadCount al (i + 1) (m2 - 1) from
                deadCount_congr (fun j h1 h2 => hal2_mid j h1 h2)]
              rw [hdlc_eq, hsplit1, hsplit2]
              push_cast
              omega
            have hvis_move : (visitsOn al2 dt2 (m2 - 1) : Multiset Nat)
                = ↑(visitsOn al dt m) := by
              have hstepm : visitsOn al2 dt2 (m2 - 1)
                  = visitsOn (Function.update al i true) (Function.update dt i (dt (m2 - 1))) (m2 - 1) := by
                rw [hdt2]
                exact visitsOn_congr
                  (fun j hj => by rw [hal2, Function.update_noteq (by omega : j ≠ m2 - 1)])
                  (fun j _ => rfl)
              have hfill := visitsOn_fill al dt hi_lt' half (dt (m2 - 1))
              have hlast : visitsOn al dt m2 = visitsOn al dt (m2 - 1) ++ [dt (m2 - 1)] := by
                have hm2e : m2 = (m2 - 1) + 1 := by omega
                rw [hm2e, visitsOn_succ]
                rw [← hm2e, halast]
                simp
              have htail : visitsOn al dt m = visitsOn al dt m2 :=
                visitsOn_dead_tail al dt (by omega) hdead_tail
              rw [hstepm, hfill, htail, hlast]
              simp [← Multiset.coe_add]
            by_cases hdlz : dlc - 1 = 0
            · -- deleted_left hit zero: stop with bound m2 - 1
              have hstep : compactLoop al dt i m dl (fuel + 1) = (al2, dt2, m2 - 1) := by
                simp only [compactLoop]
                rw [if_pos him, if_neg (by simp [hal]), if_neg (by omega), if_pos hdlz]
              rw [hstep]
              have hmid_dead : deadCount al (i + 1) (m2 - 1) = 0 := by omega
              have hmid_alive := deadCount_eq_zero hmid_dead
              refine compactsTo_mk al dt m al2 dt2 (m2 - 1) ?_ ?_ ?_ (by omega) hvis_move
              · intro j hj
                rcases Nat.lt_or_ge j i with hji | hji
                · rw [hal2_below j hji]
                  exact hbelow j hji (by omega)
                · rcases Nat.eq_or_lt_of_le hji with hji2 | hji2
                  · rw [← hji2]
                    exact hal2_i
                  · rw [hal2_mid j (by omega) (by omega)]
                    exact hmid_alive j (by omega) (by omega)
              · intro j h1 h2
                rcases Nat.eq_or_lt_of_le h1 with hj1 | hj1
                · rw [← hj1]
                  exact hal2_last
                · rw [hal2_above j (by omega)]
                  exact hdead_tail j (by omega) h2
              · intro j hj
                exact hal2_above j (by omega)
            · -- recurse past the filled hole
              have hstep : compactLoop al dt i m dl (fuel + 1)
                  = compactLoop al2 dt2 (i + 1) (m2 - 1) (dlc - 1) fuel := by
                simp only [compactLoop]
                rw [if_pos him, if_neg (by simp [hal]), if_neg (by omega), if_neg hdlz]
              rw [hstep]
              obtain ⟨hr1, hr2, hr3, hr4, hr5⟩ :=
                ih al2 dt2 (i + 1) (m2 - 1) (dlc - 1) hdl2_eq
                  (by
                    intro j h1 h2
                    rcases Nat.lt_or_ge j i with hji | hji
                    · rw [hal2_below j hji]
                      exact hbelow j hji (by omega)
                    · have hje : j = i := by omega
                      rw [hje]
                      exact hal2_i)
                  (by omega)
              refine ⟨hr1, ?_, ?_, by omega, ?_⟩
              · intro j h1 h2
                rcases Nat.lt_or_ge j (m2 - 1) with hj1 | hj1
                · exact hr2 j h1 hj1
                · rw [hr3 j hj1]
                  rcases Nat.eq_or_lt_of_le hj1 with hj2 | hj2
                  · rw [← hj2]
                    exact hal2_last
                  · rw [hal2_above j (by omega)]
                    exact hdead_tail j (by omega) h2
              · intro j hj
                rw [hr3 j (by omega)]
                exact hal2_above j (by omega)
              · rw [hr5, hvis_move]
      · -- cursor at or past the end: no work left
        have hstep : compactLoop al dt i m dl (fuel + 1) = (al, dt, m) := by
          simp [compactLoop, him]
        rw [hstep]
        exact compactsTo_mk al dt m al dt m
          (fun j hj => hbelow j (by omega) hj)
          (fun j hj1 hj2 => by omega)
          (fun j _ => rfl) (le_refl _) rfl

end SCA

namespace SCA

/-- An all-alive prefix yields one visit per slot. -/
theorem visitsOn_length_all_alive {al : Nat → Bool} (dt : Nat → Nat) {m : Nat}
    (h : ∀ j, j < m → al j = true) : (visitsOn al dt m).length = m := by
  unfold visitsOn
  rw [List.length_map]
  rw [List.filter_eq_self.mpr (fun j hj => by
    rw [h j (List.mem_range.mp hj)])]
  exact List.length_range m

/-- Live visits and dead slots partition the range. -/
theorem visitsOn_length_add_deadCount (al : Nat → Bool) (dt : Nat → Nat) (m : Nat) :
    (visitsOn al dt m).length + deadCount al 0 m = m := by
  induction m with
  | zero => rfl
  | succ k ih =>
      rw [visitsOn_succ, List.length_append,
        deadCount_split (Nat.zero_le k) (Nat.le_succ k),
        deadCount_cons (Nat.lt_succ_self k), deadCount_of_le (le_refl (k + 1))]
      by_cases h : al k <;> simp [h] <;> omega

/-- Specification of `Chunk.compact` under the chunk invariant relating
`deleted_count` to the dead slots. -/
theorem Chunk.compact_spec (c : Chunk) (hdc : c.deleted = deadCount c.al 0 c.size) :
    c.compact.deleted = 0 ∧
      c.compact.size = c.size - c.deleted ∧
      c.compact.size ≤ c.size ∧
      (∀ j, j < c.compact.size → c.compact.al j = true) ∧
      (∀ j, c.compact.size ≤ j → j < c.size → c.compact.al j = false) ∧
      (∀ j, c.size ≤ j → c.compact.al j = c.al j) ∧
      c.compact.liveVals = c.liveVals ∧
      c.compact.is_first = c.is_first ∧
      c.compact.in_free_list = c.in_free_list := by
  obtain ⟨h1, h2, h3, h4, h5⟩ :=
    compactLoop_spec c.size c.al c.data 0 c.size (c.deleted : Int)
      (by rw [hdc]) (fun j hj _ => by omega) (by omega)
  have hsz : c.compact.size = (compactLoop c.al c.data 0 c.size (c.deleted : Int) c.size).2.2 := rfl
  have hal : c.compact.al = (compactLoop c.al c.data 0 c.size (c.deleted : Int) c.size).1 := rfl
  have hdt : c.compact.data = (compactLoop c.al c.data 0 c.size (c.deleted : Int) c.size).2.1 := rfl
  have hlive : c.compact.liveVals = c.liveVals := by
    unfold Chunk.liveVals Chunk.visits
    rw [hsz, hal, hdt]
    have : c.compact.size = (compactLoop c.al c.data 0 c.size (c.deleted : Int) c.size).2.2 := rfl
    exact h5
  have hlen : c.compact.size = c.size - c.deleted := by
    have hcard : (visitsOn c.compact.al c.compact.data c.compact.size).length
        = (visitsOn c.al c.data c.size).length := by
      have := congrArg Multiset.card hlive
      unfold Chunk.liveVals Chunk.visits at this
      simpa using this
    have hall : (visitsOn c.compact.al c.compact.data c.compact.size).length = c.compact.size :=
      visitsOn_length_all_alive c.compact.data (by rw [hal, hsz] at *; exact fun j hj => h1 j hj)
    have hpart := visitsOn_length_add_deadCount c.al c.data c.size
    omega
  exact ⟨rfl, hlen, by rw [hsz]; exact h4, by rw [hal, hsz]; exact h1,
    by rw [hal, hsz]; exact h2, by rw [hal]; exact h3, hlive, rfl, rfl⟩

end SCA

/-- C4: for a chunk satisfying the chunk invariant (`deleted_count` counts
the dead slots of `[0, size)`, `size ≤ C`, slots at and above `size` dead),
compaction terminates with `deleted_count = 0`, `size` equal to the previous
alive count (`size - deleted_count`), every slot of the new `[0, size)`
alive and every slot of `[size, C)` dead. -/
theorem claim_C4_compact (Cap : Nat) (c : SCA.Chunk)
    (hdc : c.deleted = SCA.deadCount c.al 0 c.size)
    (hcap : c.size ≤ Cap)
    (htail : ∀ j, c.size ≤ j → c.al j = false) :
    c.compact.deleted = 0 ∧
      c.compact.size = c.size - c.deleted ∧
      (∀ j, j < c.compact.size → c.compact.al j = true) ∧
      (∀ j, c.compact.size ≤ j → j < Cap → c.compact.al j = false) := by
  obtain ⟨h1, h2, _, h4, h5, h6, _, _, _⟩ := SCA.Chunk.compact_spec c hdc
  refine ⟨h1, h2, h4, ?_⟩
  intro j hj1 hj2
  rcases Nat.lt_or_ge j c.size with hjs | hjs
  · exact h5 j hj1 hjs
  · rw [h6 j hjs]
    exact htail j hjs

/-- Witness for C4 at a concrete chunk: capacity 4, `size = 3`, slot 1 dead
(`deleted_count = 1`); compaction yields `deleted_count = 0`, `size = 2`,
slots 0 and 1 alive, slots 2 and 3 dead. -/
theorem claim_C4_compact_witness :
    (SCA.exampleChunkC4.deleted = SCA.deadCount SCA.exampleChunkC4.al 0 SCA.exampleChunkC4.size ∧
      SCA.exampleChunkC4.size ≤ 4 ∧
      ∀ j, SCA.exampleChunkC4.size ≤ j → SCA.exampleChunkC4.al j = false) ∧
      (SCA.exampleChunkC4.compact.deleted = 0 ∧
        SCA.exampleChunkC4.compact.size = SCA.exampleChunkC4.size - SCA.exampleChunkC4.deleted ∧
        (∀ j, j < SCA.exampleChunkC4.compact.size → SCA.exampleChunkC4.compact.al j = true) ∧
        (∀ j, SCA.exampleChunkC4.compact.size ≤ j → j < 4 →
          SCA.exampleChunkC4.compact.al j = false)) :=
  ⟨⟨by decide, by decide, fun j hj => by
      have hj3 : 3 ≤ j := hj
      show decide (j = 0 ∨ j = 2) = false
      rw [decide_eq_false_iff_not]
      omega⟩,
    claim_C4_compact 4 SCA.exampleChunkC4 (by decide) (by decide)
      (fun j hj => by
        have hj3 : 3 ≤ j := hj
        show decide (j = 0 ∨ j = 2) = false
        rw [decide_eq_false_iff_not]
        omega)⟩

/-! ## Chain decomposition lemmas -/

namespace SCA

/-- A successful split decomposes the chain, with the id absent from the
prefix. -/
theorem splitChain_eq_some :
    ∀ (l : List (Nat × Chunk)) (id : Nat) (pre : List (Nat × Chunk)) (c : Chunk)
      (post : List (Nat × Chunk)),
      splitChain l id = some (pre, c, post) →
      l = pre ++ (id, c) :: post ∧ id ∉ pre.map Prod.fst := by
  intro l
  induction l with
  | nil => intro id pre c post h; cases h
  | cons p rest ih =>
      intro id pre c post h
      by_cases hp : p.1 = id
      · simp only [splitChain, hp, if_true, Option.some.injEq, Prod.mk.injEq] at h
        obtain ⟨h1, h2, h3⟩ := h
        have hpe : p = (id, c) := by
          rw [← hp, ← h2]
        rw [← h1, ← h3, hpe]
        exact ⟨rfl, by simp⟩
      · simp only [splitChain, hp, if_false, Option.map_eq_some'] at h
        obtain ⟨q, hq, hq2⟩ := h
        simp only [Prod.mk.injEq] at hq2
        obtain ⟨hq1, hq2, hq3⟩ := hq2
        obtain ⟨ha, hb⟩ := ih id q.1 q.2.1 q.2.2 (by rw [hq])
        constructor
        · rw [← hq1, ← hq2, ← hq3, List.cons_append]
          exact congrArg (p :: ·) ha
        · rw [← hq1]
          simp only [List.map_cons, List.mem_cons]
          rintro (h1 | h1)
          · exact hp h1.symm
          · exact hb h1

/-- Splitting a decomposed chain at the distinguished id. -/
theorem splitChain_of_parts :
    ∀ (pre : List (Nat × Chunk)) (id : Nat) (c : Chunk) (post : List (Nat × Chunk)),
      id ∉ pre.map Prod.fst →
      splitChain (pre ++ (id, c) :: post) id = some (pre, c, post) := by
  intro pre
  induction pre with
  | nil =>
      intro id c post _
      simp [splitChain]
  | cons p rest ih =>
      intro id c post hnot
      simp only [List.map_cons, List.mem_cons] at hnot
      push_neg at hnot
      have hp : ¬ p.1 = id := fun h => hnot.1 h.symm
      simp only [List.cons_append, splitChain, hp, if_false]
      rw [List.append_eq, ih id c post hnot.2]
      rfl

end SCA

/-! ## Maintenance equation lemmas -/

namespace SCA

/-- Maintenance on an id not in the chain does nothing. -/
theorem maintain_not_found (Cap : Nat) (s : CState) (id : Nat)
    (hsplit : splitChain s.chain id = none) : maintain Cap s id = (s, []) := by
  unfold maintain
  rw [hsplit]

/-- Maintenance declines when neither merging nor compaction is wanted. -/
theorem maintain_skip (Cap : Nat) (s : CState) (id : Nat)
    (pre : List (Nat × Chunk)) (c : Chunk) (post : List (Nat × Chunk))
    (hsplit : splitChain s.chain id = some (pre, c, post))
    (hflags : (!c.is_first && decide (c.alive ≤ merge_threshold Cap)
        || decide (0 < c.deleted)) = false) :
    maintain Cap s id = (s, []) := by
  unfold maintain
  rw [hsplit]
  simp only [hflags, Bool.false_eq_true, if_false]

/-- The `try_delete` branch: an alive-empty non-anchor chunk is removed from
the registry and the chain. -/
theorem maintain_delete (Cap : Nat) (s : CState) (id : Nat)
    (pre : List (Nat × Chunk)) (c : Chunk) (post : List (Nat × Chunk))
    (hsplit : splitChain s.chain id = some (pre, c, post))
    (hflags : (!c.is_first && decide (c.alive ≤ merge_threshold Cap)
        || decide (0 < c.deleted)) = true)
    (hdel : (decide (c.alive = 0) && !c.is_first) = true) :
    maintain Cap s id =
      ({ chain := pre ++ post, freeList := (tryRemoveFree s.freeList id c).1,
         nextId := s.nextId }, [MEvent.deleted id]) := by
  unfold maintain
  rw [hsplit]
  simp only [hflags, if_true, hdel]

/-- The merge-with-previous branch. -/
theorem maintain_merge_prev (Cap : Nat) (s : CState) (id : Nat)
    (pre : List (Nat × Chunk)) (c : Chunk) (post : List (Nat × Chunk))
    (pp : Nat × Chunk)
    (hsplit : splitChain s.chain id = some (pre, c, post))
    (hdel : (decide (c.alive = 0) && !c.is_first) = false)
    (hnm : (!c.is_first && decide (c.alive ≤ merge_threshold Cap)) = true)
    (hlast : pre.getLast? = some pp)
    (hcm : can_merge Cap c pp.2 = true) :
    maintain Cap s id =
      ({ chain := pre.dropLast ++ (do_merge Cap s.freeList id c pp.1 pp.2).1 :: post,
         freeList := (do_merge Cap s.freeList id c pp.1 pp.2).2.2,
         nextId := s.nextId },
       [MEvent.merged (do_merge Cap s.freeList id c pp.1 pp.2).2.1
          (do_merge Cap s.freeList id c pp.1 pp.2).1.1]) := by
  unfold maintain
  rw [hsplit]
  simp only [hnm, Bool.true_or, if_true, hdel, Bool.false_eq_true, if_false, hlast, hcm]

/-- The merge-with-next branch (previous neighbour absent or unmergeable). -/
theorem maintain_merge_next (Cap : Nat) (s : CState) (id : Nat)
    (pre : List (Nat × Chunk)) (c : Chunk) (post : List (Nat × Chunk))
    (np : Nat × Chunk)
    (hsplit : splitChain s.chain id = some (pre, c, post))
    (hdel : (decide (c.alive = 0) && !c.is_first) = false)
    (hnm : (!c.is_first && decide (c.alive ≤ merge_threshold Cap)) = true)
    (hprev : ∀ pp, pre.getLast? = some pp → can_merge Cap c pp.2 = false)
    (hhead : post.head? = some np)
    (hcm : can_merge Cap c np.2 = true) :
    maintain Cap s id =
      ({ chain := pre ++ (do_merge Cap s.freeList id c np.1 np.2).1 :: post.tail,
         freeList := (do_merge Cap s.freeList id c np.1 np.2).2.2,
         nextId := s.nextId },
       [MEvent.merged (do_merge Cap s.freeList id c np.1 np.2).2.1
          (do_merge Cap s.freeList id c np.1 np.2).1.1]) := by
  unfold maintain
  rw [hsplit]
  rcases hpl : pre.getLast? with _ | pp
  · simp only [hnm, Bool.true_or, if_true, hdel, Bool.false_eq_true, if_false, hpl,
      hhead, hcm]
  · simp only [hnm, Bool.true_or, if_true, hdel, Bool.false_eq_true, if_false, hpl,
      hprev pp hpl, hhead, hcm]

/-- No deletion and no merge: compact when holes remain and re-register. -/
theorem maintain_compact (Cap : Nat) (s : CState) (id : Nat)
    (pre : List (Nat × Chunk)) (c : Chunk) (post : List (Nat × Chunk))
    (hsplit : splitChain s.chain id = some (pre, c, post))
    (hflags : (!c.is_first && decide (c.alive ≤ merge_threshold Cap)
        || decide (0 < c.deleted)) = true)
    (hdel : (decide (c.alive = 0) && !c.is_first) = false)
    (hprev : (!c.is_first && decide (c.alive ≤ merge_threshold Cap)) = true →
      ∀ pp, pre.getLast? = some pp → can_merge Cap c pp.2 = false)
    (hnext : (!c.is_first && decide (c.alive ≤ merge_threshold Cap)) = true →
      ∀ np, post.head? = some np → can_merge Cap c np.2 = false)
    (hdc : decide (0 < c.deleted) = true) :
    maintain Cap s id =
      ({ chain := pre ++ (id, (tryAddFree Cap s.freeList id c.compact).2) :: post,
         freeList := (tryAddFree Cap s.freeList id c.compact).1,
         nextId := s.nextId }, []) := by
  unfold maintain
  rw [hsplit]
  rcases hnm : (!c.is_first && decide (c.alive ≤ merge_threshold Cap)) with _ | _
  · rcases hpl : pre.getLast? with _ | pp
    · rcases hph : post.head? with _ | np
      · simp [hflags, hdel, hnm, hpl, hph, hdc]
      · simp [hflags, hdel, hnm, hpl, hph, hdc]
    · rcases hph : post.head? with _ | np
      · simp [hflags, hdel, hnm, hpl, hph, hdc]
      · simp [hflags, hdel, hnm, hpl, hph, hdc]
  · rcases hpl : pre.getLast? with _ | pp
    · rcases hph : post.head? with _ | np
      · simp [hflags, hdel, hnm, hpl, hph, hdc]
      · simp [hflags, hdel, hnm, hpl, hph, hnext hnm np hph, hdc]
    · rcases hph : post.head? with _ | np
      · simp [hflags, hdel, hnm, hpl, hprev hnm pp hpl, hph, hdc]
      · simp [hflags, hdel, hnm, hpl, hprev hnm pp hpl, hph, hnext hnm np hph, hdc]

/-- No deletion, no merge, no holes: maintenance does nothing. -/
theorem maintain_nothing (Cap : Nat) (s : CState) (id : Nat)
    (pre : List (Nat × Chunk)) (c : Chunk) (post : List (Nat × Chunk))
    (hsplit : splitChain s.chain id = some (pre, c, post))
    (hflags : (!c.is_first && decide (c.alive ≤ merge_threshold Cap)
        || decide (0 < c.deleted)) = true)
    (hdel : (decide (c.alive = 0) && !c.is_first) = false)
    (hprev : (!c.is_first && decide (c.alive ≤ merge_threshold Cap)) = true →
      ∀ pp, pre.getLast? = some pp → can_merge Cap c pp.2 = false)
    (hnext : (!c.is_first && decide (c.alive ≤ merge_threshold Cap)) = true →
      ∀ np, post.head? = some np → can_merge Cap c np.2 = false)
    (hdc : decide (0 < c.deleted) = false) :
    maintain Cap s id = (s, []) := by
  unfold maintain
  rw [hsplit]
  rcases hnm : (!c.is_first && decide (c.alive ≤ merge_threshold Cap)) with _ | _
  · rcases hpl : pre.getLast? with _ | pp
    · rcases hph : post.head? with _ | np
      · simp [hflags, hdel, hnm, hpl, hph, hdc]
      · simp [hflags, hdel, hnm, hpl, hph, hdc]
    · rcases hph : post.head? with _ | np
      · simp [hflags, hdel, hnm, hpl, hph, hdc]
      · simp [hflags, hdel, hnm, hpl, hph, hdc]
  · rcases hpl : pre.getLast? with _ | pp
    · rcases hph : post.head? with _ | np
      · simp [hflags, hdel, hnm, hpl, hph, hdc]
      · simp [hflags, hdel, hnm, hpl, hph, hnext hnm np hph, hdc]
    · rcases hph : post.head? with _ | np
      · simp [hflags, hdel, hnm, hpl, hprev hnm pp hpl, hph, hdc]
      · simp [hflags, hdel, hnm, hpl, hprev hnm pp hpl, hph, hnext hnm np hph, hdc]

end SCA

namespace SCA

/-- With distinct ids, a decomposition determines the split. -/
theorem splitChain_of_mem_nodup (l : List (Nat × Chunk))
    (hnodup : (l.map Prod.fst).Nodup) (a : List (Nat × Chunk)) (p : Nat × Chunk)
    (b : List (Nat × Chunk)) (hdecomp : l = a ++ p :: b) :
    splitChain l p.1 = some (a, p.2, b) := by
  have hnot : p.1 ∉ a.map Prod.fst := by
    rw [hdecomp] at hnodup
    simp only [List.map_append, List.map_cons, List.nodup_append] at hnodup
    intro hmem
    exact hnodup.2.2 hmem (List.mem_cons_self _ _)
  have := splitChain_of_parts a p.1 p.2 b hnot
  rw [hdecomp]
  simpa using this

/-- The surviving and donor ids of a merge are the two participants. -/
theorem do_merge_ids (Cap : Nat) (fl : List Nat) (cid : Nat) (c : Chunk)
    (oid : Nat) (oc : Chunk) :
    ((do_merge Cap fl cid c oid oc).1.1 = cid ∧ (do_merge Cap fl cid c oid oc).2.1 = oid) ∨
      ((do_merge Cap fl cid c oid oc).1.1 = oid ∧ (do_merge Cap fl cid c oid oc).2.1 = cid) := by
  by_cases h : oc.alive < c.alive
  · left
    simp [do_merge, h]
  · right
    simp [do_merge, h]

end SCA

/-- C6: the merge and delete steps of maintenance only ever act on
non-anchor chunks.  For any container state with distinct chunk ids and any
chunk, every structural event of one maintenance call — a chunk deletion or
a merge — names only chunks whose `is_first` flag is false: the anchor is
never deleted and never a merge source or destination. -/
theorem claim_C6_anchor_safety (Cap : Nat) (s : SCA.CState) (id : Nat)
    (hnodup : (s.chain.map Prod.fst).Nodup) :
    ∀ ev ∈ (SCA.maintain Cap s id).2, SCA.eventNonAnchor s ev := by
  intro ev hev
  rcases hsplit : SCA.splitChain s.chain id with _ | q
  · rw [SCA.maintain_not_found Cap s id hsplit] at hev
    cases hev
  · obtain ⟨pre, c, post⟩ := q
    obtain ⟨hdecomp, _⟩ := SCA.splitChain_eq_some s.chain id pre c post hsplit
    have hcid : SCA.chunkById s id = some c := by
      unfold SCA.chunkById
      rw [hsplit]
      rfl
    rcases hflags : (!c.is_first && decide (c.alive ≤ SCA.merge_threshold Cap)
        || decide (0 < c.deleted)) with _ | _
    · rw [SCA.maintain_skip Cap s id pre c post hsplit hflags] at hev
      cases hev
    · rcases hdel : (decide (c.alive = 0) && !c.is_first) with _ | _
      · -- no deletion; consider merges
        rcases hnm : (!c.is_first && decide (c.alive ≤ SCA.merge_threshold Cap)) with _ | _
        · -- no merge wanted: compaction or nothing, no events
          have hprev : (!c.is_first && decide (c.alive ≤ SCA.merge_threshold Cap)) = true →
              ∀ pp, pre.getLast? = some pp → SCA.can_merge Cap c pp.2 = false := by
            intro h; rw [hnm] at h; cases h
          have hnext : (!c.is_first && decide (c.alive ≤ SCA.merge_threshold Cap)) = true →
              ∀ np, post.head? = some np → SCA.can_merge Cap c np.2 = false := by
            intro h; rw [hnm] at h; cases h
          rcases hdc : decide (0 < c.deleted) with _ | _
          · rw [SCA.maintain_nothing Cap s id pre c post hsplit hflags hdel hprev hnext hdc] at hev
            cases hev
          · rw [SCA.maintain_compact Cap s id pre c post hsplit hflags hdel hprev hnext hdc] at hev
            cases hev
        · -- merging wanted
          have hcfirst : c.is_first = false := by
            have := Bool.and_eq_true .. ▸ hnm
            rcases hcf : c.is_first with _ | _
            · rfl
            · rw [hcf] at this
              simp at this
          rcases hpl : pre.getLast? with _ | pp
          · -- no previous neighbour; try next
            have hprev : (!c.is_first && decide (c.alive ≤ SCA.merge_threshold Cap)) = true →
                ∀ pp2, pre.getLast? = some pp2 → SCA.can_merge Cap c pp2.2 = false := by
              intro _ pp2 h
              rw [hpl] at h
              cases h
            rcases hph : post.head? with _ | np
            · have hnext : (!c.is_first && decide (c.alive ≤ SCA.merge_threshold Cap)) = true →
                  ∀ np2, post.head? = some np2 → SCA.can_merge Cap c np2.2 = false := by
                intro _ np2 h
                rw [hph] at h
                cases h
              rcases hdc : decide (0 < c.deleted) with _ | _
              · rw [SCA.maintain_nothing Cap s id pre c post hsplit hflags hdel hprev hnext hdc] at hev
                cases hev
              · rw [SCA.maintain_compact Cap s id pre c post hsplit hflags hdel hprev hnext hdc] at hev
                cases hev
            · rcases hcm : SCA.can_merge Cap c np.2 with _ | _
              · have hnext : (!c.is_first && decide (c.alive ≤ SCA.merge_threshold Cap)) = true →
                    ∀ np2, post.head? = some np2 → SCA.can_merge Cap c np2.2 = false := by
                  intro _ np2 h
                  rw [hph] at h
                  cases h
                  exact hcm
                rcases hdc : decide (0 < c.deleted) with _ | _
                · rw [SCA.maintain_nothing Cap s id pre c post hsplit hflags hdel hprev hnext hdc] at hev
                  cases hev
                · rw [SCA.maintain_compact Cap s id pre c post hsplit hflags hdel hprev hnext hdc] at hev
                  cases hev
              · -- merge with next
                rw [SCA.maintain_merge_next Cap s id pre c post np hsplit hdel hnm
                  (fun pp2 h => by rw [hpl] at h; cases h) hph hcm] at hev
                have hevq : ev = SCA.MEvent.merged
                    (SCA.do_merge Cap s.freeList id c np.1 np.2).2.1
                    (SCA.do_merge Cap s.freeList id c np.1 np.2).1.1 := by
                  simpa using hev
                have hnp_first : np.2.is_first = false := by
                  unfold SCA.can_merge at hcm
                  rcases hnpf : np.2.is_first with _ | _
                  · rfl
                  · rw [hnpf] at hcm
                    simp at hcm
                have hpost : post = np :: post.tail := by
                  rcases post with _ | ⟨h, t⟩
                  · cases hph
                  · simp only [List.head?_cons, Option.some.injEq] at hph
                    rw [hph]
                    rfl
                have hnpid : SCA.chunkById s np.1 = some np.2 := by
                  unfold SCA.chunkById
                  rw [SCA.splitChain_of_mem_nodup s.chain hnodup (pre ++ [(id, c)]) np post.tail
                    (by rw [hdecomp, hpost]; simp)]
                  rfl
                rw [hevq]
                rcases SCA.do_merge_ids Cap s.freeList id c np.1 np.2 with ⟨h1, h2⟩ | ⟨h1, h2⟩
                · exact ⟨⟨np.2, by rw [h2]; exact hnpid, hnp_first⟩, ⟨c, by rw [h1]; exact hcid, hcfirst⟩⟩
                · exact ⟨⟨c, by rw [h2]; exact hcid, hcfirst⟩, ⟨np.2, by rw [h1]; exact hnpid, hnp_first⟩⟩
          · rcases hcm : SCA.can_merge Cap c pp.2 with _ | _
            · -- previous unmergeable; try next
              have hprev : (!c.is_first && decide (c.alive ≤ SCA.merge_threshold Cap)) = true →
                  ∀ pp2, pre.getLast? = some pp2 → SCA.can_merge Cap c pp2.2 = false := by
                intro _ pp2 h
                rw [hpl] at h
                cases h
                exact hcm
              rcases hph : post.head? with _ | np
              · have hnext : (!c.is_first && decide (c.alive ≤ SCA.merge_threshold Cap)) = true →
                    ∀ np2, post.head? = some np2 → SCA.can_merge Cap c np2.2 = false := by
                  intro _ np2 h
                  rw [hph] at h
                  cases h
                rcases hdc : decide (0 < c.deleted) with _ | _
                · rw [SCA.maintain_nothing Cap s id pre c post hsplit hflags hdel hprev hnext hdc] at hev
                  cases hev
                · rw [SCA.maintain_compact Cap s id pre c post hsplit hflags hdel hprev hnext hdc] at hev
                  cases hev
              · rcases hcm2 : SCA.can_merge Cap c np.2 with _ | _
                · have hnext : (!c.is_first && decide (c.alive ≤ SCA.merge_threshold Cap)) = true →
                      ∀ np2, post.head? = some np2 → SCA.can_merge Cap c np2.2 = false := by
                    intro _ np2 h
                    rw [hph] at h
                    cases h
                    exact hcm2
                  rcases hdc : decide (0 < c.deleted) with _ | _
                  · rw [SCA.maintain_nothing Cap s id pre c post hsplit hflags hdel hprev hnext hdc] at hev
                    cases hev
                  · rw [SCA.maintain_compact Cap s id pre c post hsplit hflags hdel hprev hnext hdc] at hev
                    cases hev
                · rw [SCA.maintain_merge_next Cap s id pre c post np hsplit hdel hnm
                    (fun pp2 h => by rw [hpl] at h; cases h; exact hcm) hph hcm2] at hev
                  have hevq : ev = SCA.MEvent.merged
                      (SCA.do_merge Cap s.freeList id c np.1 np.2).2.1
                      (SCA.do_merge Cap s.freeList id c np.1 np.2).1.1 := by
                    simpa using hev
                  have hnp_first : np.2.is_first = false := by
                    unfold SCA.can_merge at hcm2
                    rcases hnpf : np.2.is_first with _ | _
                    · rfl
                    · rw [hnpf] at hcm2
                      simp at hcm2
                  have hpost : post = np :: post.tail := by
                    rcases post with _ | ⟨h, t⟩
                    · cases hph
                    · simp only [List.head?_cons, Option.some.injEq] at hph
                      rw [hph]
                      rfl
                  have hnpid : SCA.chunkById s np.1 = some np.2 := by
                    unfold SCA.chunkById
                    rw [SCA.splitChain_of_mem_nodup s.chain hnodup (pre ++ [(id, c)]) np post.tail
                      (by rw [hdecomp, hpost]; simp)]
                    rfl
                  rw [hevq]
                  rcases SCA.do_merge_ids Cap s.freeList id c np.1 np.2 with ⟨h1, h2⟩ | ⟨h1, h2⟩
                  · exact ⟨⟨np.2, by rw [h2]; exact hnpid, hnp_first⟩, ⟨c, by rw [h1]; exact hcid, hcfirst⟩⟩
                  · exact ⟨⟨c, by rw [h2]; exact hcid, hcfirst⟩, ⟨np.2, by rw [h1]; exact hnpid, hnp_first⟩⟩
            · -- merge with previous
              rw [SCA.maintain_merge_prev Cap s id pre c post pp hsplit hdel hnm hpl hcm] at hev
              have hevq : ev = SCA.MEvent.merged
                  (SCA.do_merge Cap s.freeList id c pp.1 pp.2).2.1
                  (SCA.do_merge Cap s.freeList id c pp.1 pp.2).1.1 := by
                simpa using hev
              have hpp_first : pp.2.is_first = false := by
                unfold SCA.can_merge at hcm
                rcases hppf : pp.2.is_first with _ | _
                · rfl
                · rw [hppf] at hcm
                  simp at hcm
              have hpre : pre = pre.dropLast ++ [pp] := by
                have := List.getLast?_eq_some_iff.mp hpl
                obtain ⟨l2, hl2⟩ := this
                rw [hl2]
                simp
              have hppid : SCA.chunkById s pp.1 = some pp.2 := by
                unfold SCA.chunkById
                rw [SCA.splitChain_of_mem_nodup s.chain hnodup pre.dropLast pp ((id, c) :: post)
                  (by rw [hdecomp]; nth_rewrite 1 [hpre]; simp)]
                rfl
              rw [hevq]
              rcases SCA.do_merge_ids Cap s.freeList id c pp.1 pp.2 with ⟨h1, h2⟩ | ⟨h1, h2⟩
              · exact ⟨⟨pp.2, by rw [h2]; exact hppid, hpp_first⟩, ⟨c, by rw [h1]; exact hcid, hcfirst⟩⟩
              · exact ⟨⟨c, by rw [h2]; exact hcid, hcfirst⟩, ⟨pp.2, by rw [h1]; exact hppid, hpp_first⟩⟩
      · -- deletion
        rw [SCA.maintain_delete Cap s id pre c post hsplit hflags hdel] at hev
        have hevq : ev = SCA.MEvent.deleted id := by
          simpa using hev
        have hcfirst : c.is_first = false := by
          rcases hcf : c.is_first with _ | _
          · rfl
          · rw [Bool.and_eq_true] at hdel
            have := hdel.2
            rw [hcf] at this
            simp at this
        rw [hevq]
        exact ⟨c, hcid, hcfirst⟩

/-- Witness for C6: a two-chunk chain with distinct ids; erasing has left
chunk 5 empty, so maintenance deletes it — and the event names only the
non-anchor chunk. -/
theorem claim_C6_anchor_safety_witness :
    ((SCA.exampleStateC6.chain.map Prod.fst).Nodup) ∧
      ∀ ev ∈ (SCA.maintain 4 SCA.exampleStateC6 5).2, SCA.eventNonAnchor SCA.exampleStateC6 ev :=
  ⟨by decide, claim_C6_anchor_safety 4 SCA.exampleStateC6 5 (by decide)⟩

/-! ## Chunk operation lemmas -/

namespace SCA

/-- deadCount of an all-alive range is zero. -/
theorem deadCount_all_alive {al : Nat → Bool} {a b : Nat}
    (h : ∀ j, a ≤ j → j < b → al j = true) : deadCount al a b = 0 := by
  unfold deadCount
  rw [List.length_eq_zero]
  rw [List.filter_eq_nil_iff]
  intro j hj
  have := mem_range'_iff.mp hj
  rw [h j this.1 (by omega)]
  simp

/-- Killing an alive slot removes exactly its value from the live
multiset. -/
theorem visitsOn_kill (al : Nat → Bool) (dt : Nat → Nat) {i m : Nat} (him : i < m)
    (halive : al i = true) :
    (visitsOn (Function.update al i false) dt m : Multiset Nat) + {dt i}
      = ↑(visitsOn al dt m) := by
  induction m with
  | zero => omega
  | succ k ih =>
      rcases Nat.lt_or_ge i k with hik | hik
      · rw [visitsOn_succ, visitsOn_succ al dt k,
          Function.update_noteq (by omega : k ≠ i)]
        by_cases h : al k
        · simp only [h, if_true]
          have := ih hik
          have hcomm : (↑(visitsOn (Function.update al i false) dt k ++ [dt k]) : Multiset Nat)
                + {dt i}
              = (↑(visitsOn (Function.update al i false) dt k) + {dt i}) + ↑[dt k] := by
            rw [← Multiset.coe_add]
            push_cast
            exact add_right_comm _ _ _
          rw [hcomm, this, Multiset.coe_add]
        · simp only [h, Bool.false_eq_true, if_false, List.append_nil]
          exact ih hik
      · have hi : i = k := by omega
        subst hi
        rw [visitsOn_succ, visitsOn_succ al dt i, halive, Function.update_same]
        have hcong : visitsOn (Function.update al i false) dt i = visitsOn al dt i :=
          visitsOn_congr (fun j hj => Function.update_noteq (by omega) _ _) (fun j _ => rfl)
        rw [hcong]
        simp [← Multiset.coe_add]

/-- One merge step appends the donor slot's value (when alive) to a shaped
receiver. -/
theorem mergeStep_spec (f : Chunk) (t : Chunk) (i : Nat)
    (hshape : ∀ j, t.al j = decide (j < t.size)) :
    (∀ j, (mergeStep f t i).al j = decide (j < (mergeStep f t i).size)) ∧
      (mergeStep f t i).size = t.size + (if f.al i then 1 else 0) ∧
      (mergeStep f t i).liveVals = t.liveVals + (if f.al i then {f.data i} else 0) ∧
      (mergeStep f t i).deleted = t.deleted ∧
      (mergeStep f t i).is_first = t.is_first ∧
      (mergeStep f t i).in_free_list = t.in_free_list := by
  by_cases h : f.al i
  · have hstep : mergeStep f t i =
        { t with
          data := Function.update t.data t.size (f.data i)
          al := Function.update t.al t.size true
          size := t.size + 1 } := by
      simp [mergeStep, h]
    rw [hstep]
    refine ⟨?_, by simp [h], ?_, rfl, rfl, rfl⟩
    · intro j
      show Function.update t.al t.size true j = decide (j < t.size + 1)
      rcases Nat.lt_trichotomy j t.size with hj | hj | hj
      · rw [Function.update_noteq (show j ≠ t.size by omega), hshape j]
        simp only [decide_eq_decide]
        omega
      · rw [hj, Function.update_same]
        simp
      · rw [Function.update_noteq (show j ≠ t.size by omega), hshape j]
        simp only [decide_eq_decide]
        omega
    · have hdead : t.al t.size = false := by
        rw [hshape t.size]
        simp
      have := visitsOn_fill t.al t.data (by omega : t.size < t.size + 1) hdead (f.data i)
      unfold Chunk.liveVals Chunk.visits
      simp only
      have hstepv : visitsOn t.al t.data (t.size + 1) = visitsOn t.al t.data t.size := by
        rw [visitsOn_succ, hdead]
        simp
      rw [this, hstepv]
      simp [h]
  · have hstep : mergeStep f t i = t := by
      simp [mergeStep, h]
    rw [hstep]
    exact ⟨hshape, by simp [h], by simp [h], rfl, rfl, rfl⟩

/-- The merge copy loop over any index list: sizes add, live values append,
shape is preserved. -/
theorem mergeFold_spec (f : Chunk) :
    ∀ (L : List Nat) (t : Chunk), (∀ j, t.al j = decide (j < t.size)) →
      (∀ j, (L.foldl (mergeStep f) t).al j = decide (j < (L.foldl (mergeStep f) t).size)) ∧
        (L.foldl (mergeStep f) t).size = t.size + (L.filter (fun i => f.al i)).length ∧
        (L.foldl (mergeStep f) t).liveVals
          = t.liveVals + ↑((L.filter (fun i => f.al i)).map f.data) ∧
        (L.foldl (mergeStep f) t).deleted = t.deleted ∧
        (L.foldl (mergeStep f) t).is_first = t.is_first ∧
        (L.foldl (mergeStep f) t).in_free_list = t.in_free_list := by
  intro L
  induction L with
  | nil =>
      intro t hshape
      exact ⟨hshape, by simp, by simp, rfl, rfl, rfl⟩
  | cons a rest ih =>
      intro t hshape
      obtain ⟨hs1, hs2, hs3, hs4, hs5, hs6⟩ := mergeStep_spec f t a hshape
      obtain ⟨hr1, hr2, hr3, hr4, hr5, hr6⟩ := ih (mergeStep f t a) hs1
      simp only [List.foldl_cons] at *
      refine ⟨hr1, ?_, ?_, by rw [hr4, hs4], by rw [hr5, hs5], by rw [hr6, hs6]⟩
      · rw [hr2, hs2, List.filter_cons]
        by_cases h : f.al a <;> simp [h] <;> omega
      · rw [hr3, hs3, List.filter_cons]
        by_cases h : f.al a
        · simp only [h, if_true, List.map_cons]
          rw [add_assoc]
          exact congrArg (t.liveVals + ·)
            ((Multiset.singleton_add _ _).trans (Multiset.cons_coe _ _))
        · simp [h]

/-- Specification of `Chunk.mergeInto` for invariant-satisfying chunks: the
receiver ends hole-free and fully shaped, its live multiset gains exactly
the donor's live values, and its size counts both live sets. -/
theorem Chunk.mergeInto_spec (t f : Chunk)
    (hdc : t.deleted = deadCount t.al 0 t.size)
    (htail : ∀ j, t.size ≤ j → t.al j = false) :
    (∀ j, (Chunk.mergeInto t f).al j = decide (j < (Chunk.mergeInto t f).size)) ∧
      (Chunk.mergeInto t f).size = Multiset.card t.liveVals + Multiset.card f.liveVals ∧
      (Chunk.mergeInto t f).liveVals = t.liveVals + f.liveVals ∧
      (Chunk.mergeInto t f).deleted = 0 ∧
      (Chunk.mergeInto t f).is_first = t.is_first ∧
      (Chunk.mergeInto t f).in_free_list = t.in_free_list := by
  have hbase : ∀ t1 : Chunk, t1 = (if 0 < t.deleted then t.compact else t) →
      (∀ j, t1.al j = decide (j < t1.size)) ∧ t1.liveVals = t.liveVals ∧
        t1.deleted = 0 ∧ t1.size = Multiset.card t.liveVals ∧
        t1.is_first = t.is_first ∧ t1.in_free_list = t.in_free_list := by
    intro t1 ht1
    by_cases h : 0 < t.deleted
    · rw [if_pos h] at ht1
      obtain ⟨k1, k2, k3, k4, k5, k6, k7, k8, k9⟩ := Chunk.compact_spec t hdc
      subst ht1
      refine ⟨?_, k7, k1, ?_, k8, k9⟩
      · intro j
        rcases Nat.lt_or_ge j t.compact.size with hj | hj
        · rw [k4 j hj]
          simp [hj]
        · rcases Nat.lt_or_ge j t.size with hj2 | hj2
          · rw [k5 j hj hj2]
            symm
            rw [decide_eq_false_iff_not]
            omega
          · rw [k6 j hj2, htail j hj2]
            symm
            rw [decide_eq_false_iff_not]
            omega
      · rw [← k7]
        unfold Chunk.liveVals
        have hall : t.compact.visits.length = t.compact.size := by
          unfold Chunk.visits
          exact visitsOn_length_all_alive _ k4
        simp [hall]
    · rw [if_neg h] at ht1
      rw [ht1]
      have hz : t.deleted = 0 := by omega
      have hshape : ∀ j, t.al j = decide (j < t.size) := by
        intro j
        rcases Nat.lt_or_ge j t.size with hj | hj
        · have := deadCount_eq_zero (by omega : deadCount t.al 0 t.size = 0) j (by omega) hj
          rw [this]
          simp [hj]
        · rw [htail j hj]
          symm
          rw [decide_eq_false_iff_not]
          omega
      refine ⟨hshape, rfl, hz, ?_, rfl, rfl⟩
      · unfold Chunk.liveVals
        have hall : t.visits.length = t.size := by
          unfold Chunk.visits
          exact visitsOn_length_all_alive _ (fun j hj => by rw [hshape j]; simp [hj])
        simp [hall]
  obtain ⟨hb1, hb2, hb3, hb4, hb5, hb6⟩ := hbase (if 0 < t.deleted then t.compact else t) rfl
  obtain ⟨hm1, hm2, hm3, hm4, hm5, hm6⟩ := mergeFold_spec f (List.range f.size)
    (if 0 < t.deleted then t.compact else t) hb1
  have hmerge : Chunk.mergeInto t f
      = (List.range f.size).foldl (mergeStep f) (if 0 < t.deleted then t.compact else t) := rfl
  rw [hmerge]
  have hfl : ((List.range f.size).filter (fun i => f.al i)).map f.data = f.visits := rfl
  have hfll : ((List.range f.size).filter (fun i => f.al i)).length = f.visits.length := by
    unfold Chunk.visits visitsOn
    simp
  refine ⟨hm1, ?_, ?_, by rw [hm4, hb3], by rw [hm5, hb5], by rw [hm6, hb6]⟩
  · rw [hm2, hb4, hfll]
    unfold Chunk.liveVals
    simp
  · rw [hm3, hb2, hfl]
    rfl

end SCA

namespace SCA

/-- Effect of `Chunk.emplace` on a shaped chunk. -/
theorem Chunk.emplace_spec (c : Chunk) (v : Nat)
    (hshape : ∀ j, c.al j = decide (j < c.size)) :
    (∀ j, (c.emplace v).al j = decide (j < (c.emplace v).size)) ∧
      (c.emplace v).size = c.size + 1 ∧
      (c.emplace v).liveVals = c.liveVals + {v} ∧
      (c.emplace v).deleted = c.deleted ∧
      (c.emplace v).is_first = c.is_first ∧
      (c.emplace v).in_free_list = c.in_free_list := by
  refine ⟨?_, rfl, ?_, rfl, rfl, rfl⟩
  · intro j
    show Function.update c.al c.size true j = decide (j < c.size + 1)
    rcases Nat.lt_trichotomy j c.size with hj | hj | hj
    · rw [Function.update_noteq (show j ≠ c.size by omega), hshape j]
      simp only [decide_eq_decide]
      omega
    · rw [hj, Function.update_same]
      simp
    · rw [Function.update_noteq (show j ≠ c.size by omega), hshape j]
      simp only [decide_eq_decide]
      omega
  · have hdead : c.al c.size = false := by
      rw [hshape c.size]
      simp
    unfold Chunk.liveVals Chunk.visits
    show (visitsOn (Function.update c.al c.size true)
        (Function.update c.data c.size v) (c.size + 1) : Multiset Nat) = _
    have hfill := visitsOn_fill c.al c.data (show c.size < c.size + 1 by omega) hdead v
    have hstepv : visitsOn c.al c.data (c.size + 1) = visitsOn c.al c.data c.size := by
      rw [visitsOn_succ, hdead]
      simp
    rw [hfill, hstepv]

/-- Effect of `Chunk.erase` on a shaped hole-free chunk: the slot's value
leaves the live multiset and exactly one hole appears. -/
theorem Chunk.erase_spec (c : Chunk) (i : Nat)
    (hshape : ∀ j, c.al j = decide (j < c.size))
    (hdel : c.deleted = 0) (hi : i < c.size) :
    (c.erase i).liveVals + {c.data i} = c.liveVals ∧
      (c.erase i).deleted = 1 ∧
      (c.erase i).size = c.size ∧
      (c.erase i).deleted = deadCount (c.erase i).al 0 (c.erase i).size ∧
      (∀ j, (c.erase i).size ≤ j → (c.erase i).al j = false) ∧
      (c.erase i).is_first = c.is_first ∧
      (c.erase i).in_free_list = c.in_free_list := by
  have halive : c.al i = true := by
    rw [hshape i]
    simp [hi]
  refine ⟨?_, by rw [show (c.erase i).deleted = c.deleted + 1 from rfl, hdel], rfl, ?_, ?_, rfl, rfl⟩
  · unfold Chunk.liveVals Chunk.visits
    exact visitsOn_kill c.al c.data hi halive
  · show c.deleted + 1 = deadCount (Function.update c.al i false) 0 c.size
    rw [hdel]
    have h1 : deadCount (Function.update c.al i false) 0 c.size
        = deadCount (Function.update c.al i false) 0 i
          + deadCount (Function.update c.al i false) i c.size :=
      deadCount_split (by omega) (by omega)
    have h2 : deadCount (Function.update c.al i false) 0 i = 0 :=
      deadCount_all_alive (fun j _ hj => by
        rw [Function.update_noteq (show j ≠ i by omega), hshape j]
        simp
        omega)
    have h3 : deadCount (Function.update c.al i false) i c.size
        = 1 + deadCount (Function.update c.al i false) (i + 1) c.size := by
      rw [deadCount_cons hi, Function.update_same]
      simp
    have h4 : deadCount (Function.update c.al i false) (i + 1) c.size = 0 :=
      deadCount_all_alive (fun j hj hj2 => by
        rw [Function.update_noteq (show j ≠ i by omega), hshape j]
        simp
        omega)
    omega
  · intro j hj
    have hj2 : c.size ≤ j := hj
    rw [show (c.erase i).al j = Function.update c.al i false j from rfl,
      Function.update_noteq (show j ≠ i by omega), hshape j]
    simp
    omega

/-- Replacing a chain entry by one with at least as many alive elements
preserves the adjacency bound. -/
theorem chain'_replace (Cap : Nat) (l1 l2 : List (Nat × Chunk)) (p q : Nat × Chunk)
    (hge : p.2.alive ≤ q.2.alive)
    (h : List.Chain' (fun a b => merge_threshold Cap < a.2.alive + b.2.alive) (l1 ++ p :: l2)) :
    List.Chain' (fun a b => merge_threshold Cap < a.2.alive + b.2.alive) (l1 ++ q :: l2) := by
  rw [List.chain'_append] at h ⊢
  obtain ⟨h1, h2, h3⟩ := h
  rw [List.chain'_cons'] at h2 ⊢
  refine ⟨h1, ⟨?_, h2.2⟩, ?_⟩
  · intro y hy
    have := h2.1 y hy
    omega
  · intro x hx y hy
    simp only [List.head?_cons, Option.mem_def, Option.some.injEq] at hy
    have := h3 x hx p (by simp)
    rw [← hy]
    omega

/-- The adjacency bound across a removed entry, given the new neighbour
pair satisfies it. -/
theorem chain'_remove {α : Type} {R : α → α → Prop} (l1 l2 : List α) (p : α)
    (h : List.Chain' R (l1 ++ p :: l2))
    (hjoin : ∀ x y, l1.getLast? = some x → l2.head? = some y → R x y) :
    List.Chain' R (l1 ++ l2) := by
  rw [List.chain'_append] at h ⊢
  obtain ⟨h1, h2, _⟩ := h
  rw [List.chain'_cons'] at h2
  exact ⟨h1, h2.2, fun x hx y hy => hjoin x y hx hy⟩

/-- Left-adjacency extraction: the entry before `p` relates to it. -/
theorem chain'_left {α : Type} {R : α → α → Prop} (l1 l2 : List α) (p : α)
    (h : List.Chain' R (l1 ++ p :: l2)) :
    ∀ x, l1.getLast? = some x → R x p := by
  rw [List.chain'_append] at h
  intro x hx
  exact h.2.2 x hx p (by simp)

/-- Right-adjacency extraction: `p` relates to the entry after it. -/
theorem chain'_right {α : Type} {R : α → α → Prop} (l1 l2 : List α) (p : α)
    (h : List.Chain' R (l1 ++ p :: l2)) :
    ∀ y, l2.head? = some y → R p y := by
  rw [List.chain'_append] at h
  have h2 := h.2.1
  rw [List.chain'_cons'] at h2
  exact h2.1

end SCA

namespace SCA

/-- On a well-formed quiescent state, maintenance does nothing: chunks are
hole-free, empty non-anchor chunks do not exist, and no adjacent pair fits
under the merge threshold. -/
theorem maintain_wf_id (Cap : Nat) (s : CState) (hwf : WF Cap s) (id : Nat) :
    maintain Cap s id = (s, []) := by
  obtain ⟨w1, w2, w3, _, w5, w6, _, _, _, _⟩ := hwf
  rcases hsplit : splitChain s.chain id with _ | q
  · exact maintain_not_found Cap s id hsplit
  · obtain ⟨pre, c, post⟩ := q
    obtain ⟨hdecomp, _⟩ := splitChain_eq_some s.chain id pre c post hsplit
    have hmem : (id, c) ∈ s.chain := by
      rw [hdecomp]
      simp
    have hdel0 : c.deleted = 0 := (w1 (id, c) hmem).1
    have hdc : decide (0 < c.deleted) = false := by
      rw [hdel0]
      simp
    rcases hcf : c.is_first with _ | _
    · -- non-anchor chunk
      have hpre_ne : pre ≠ [] := by
        intro hcontra
        rw [hcontra] at hdecomp
        rw [hdecomp] at w2
        have := w2.1
        simp only at this
        rw [hcf] at this
        cases this
      obtain ⟨p0, pre', hpre⟩ := List.exists_cons_of_ne_nil hpre_ne
      have htail : s.chain.tail = pre' ++ (id, c) :: post := by
        rw [hdecomp, hpre]
        rfl
      have halive : 1 ≤ c.alive := w5 (id, c) hmem hcf
      rcases hle : decide (c.alive ≤ merge_threshold Cap) with _ | _
      · -- not small enough to merge, no holes: skip entirely
        apply maintain_skip Cap s id pre c post hsplit
        rw [hcf, hle, hdc]
        rfl
      · -- merge wanted but no partner qualifies
        have hflags : (!c.is_first && decide (c.alive ≤ merge_threshold Cap)
            || decide (0 < c.deleted)) = true := by
          rw [hcf, hle]
          rfl
        have hdelf : (decide (c.alive = 0) && !c.is_first) = false := by
          have : decide (c.alive = 0) = false := by
            simp
            omega
          rw [this]
          rfl
        have hprev : ∀ pp, pre.getLast? = some pp → can_merge Cap c pp.2 = false := by
          intro pp hpp
          rcases hpre' : pre' with _ | ⟨p1, pre''⟩
          · -- the only previous chunk is the anchor
            have : pre.getLast? = some p0 := by
              rw [hpre, hpre']
              rfl
            rw [this] at hpp
            have hppe : pp = p0 := by
              injection hpp.symm
            have hp0first : p0.2.is_first = true := by
              rw [hdecomp, hpre] at w2
              exact w2.1
            unfold can_merge
            rw [hppe, hp0first]
            simp
          · -- the previous chunk is adjacent to c inside the tail
            have hlast : pre'.getLast? = some pp := by
              rw [hpre] at hpp
              rw [hpre'] at hpp ⊢
              rwa [List.getLast?_cons_cons] at hpp
            have hrel : merge_threshold Cap < pp.2.alive + c.alive :=
              chain'_left pre' post (id, c) (htail ▸ w6) pp hlast
            unfold can_merge
            have : decide (c.alive + pp.2.alive ≤ merge_threshold Cap) = false := by
              simp only [decide_eq_false_iff_not]
              omega
            rw [this]
            simp
        have hnext : ∀ np, post.head? = some np → can_merge Cap c np.2 = false := by
          intro np hnp
          have hrel : merge_threshold Cap < c.alive + np.2.alive :=
            chain'_right pre' post (id, c) (htail ▸ w6) np hnp
          unfold can_merge
          have : decide (c.alive + np.2.alive ≤ merge_threshold Cap) = false := by
            simp only [decide_eq_false_iff_not]
            omega
          rw [this]
          simp
        exact maintain_nothing Cap s id pre c post hsplit hflags hdelf
          (fun _ => hprev) (fun _ => hnext) hdc
    · -- the anchor: nothing is wanted
      apply maintain_skip Cap s id pre c post hsplit
      rw [hcf, hdc]
      rfl

end SCA

namespace SCA

/-- On a well-formed state the iterate walk visits each chunk of the chain
exactly once, in order, and leaves the state untouched. -/
theorem iterateLoop_wf (Cap : Nat) :
    ∀ (post pre : List (Nat × Chunk)) (s : CState) (fuel : Nat),
      WF Cap s → s.chain = pre ++ post → post.length ≤ fuel →
      iterateLoop Cap s ((post.head?).map Prod.fst) fuel
        = ((post.map (fun p => p.2.visits)).join, s) := by
  intro post
  induction post with
  | nil =>
      intro pre s fuel _ _ _
      rcases fuel with _ | f
      · rfl
      · rfl
  | cons pq rest ih =>
      intro pre s fuel hwf hdecomp hfuel
      rcases fuel with _ | f
      · simp at hfuel
      · have hw3 := hwf.2.2.1
        have hsplit : splitChain s.chain pq.1 = some (pre, pq.2, rest) :=
          splitChain_of_mem_nodup s.chain hw3 pre pq rest hdecomp
        have hmaint := maintain_wf_id Cap s hwf pq.1
        have hstep : iterateLoop Cap s ((((pq :: rest).head?).map Prod.fst)) (f + 1)
            = (pq.2.visits ++ (iterateLoop Cap s ((rest.head?).map Prod.fst) f).1,
               (iterateLoop Cap s ((rest.head?).map Prod.fst) f).2) := by
          simp only [List.head?_cons, Option.map_some']
          simp only [iterateLoop, hsplit, hmaint]
        rw [hstep]
        have hrec := ih (pre ++ [pq]) s f hwf (by rw [hdecomp]; simp) (by simpa using hfuel)
        rw [hrec]
        simp

/-- On a well-formed state `iterate` returns every chunk's live values in
chain order and does not change the state. -/
theorem iterateOp_wf (Cap : Nat) (s : CState) (hwf : WF Cap s) :
    iterateOp Cap s = ((s.chain.map (fun p => p.2.visits)).join, s) := by
  unfold iterateOp
  exact iterateLoop_wf Cap s.chain [] s s.chain.length hwf rfl (le_refl _)

/-- The joined visit lists carry the live multiset. -/
theorem liveM_eq_join (l : List (Nat × Chunk)) :
    ((l.map (fun p => p.2.visits)).join : Multiset Nat)
      = (l.map (fun p => p.2.liveVals)).sum := by
  induction l with
  | nil => rfl
  | cons p rest ih =>
      simp only [List.map_cons, List.join_cons, List.sum_cons]
      rw [← ih, ← Multiset.coe_add]
      rfl

end SCA

namespace SCA

/-- Setup takes the registry head when the registry is non-empty. -/
theorem emplaceSetup_free (Cap : Nat) (s : CState) (fid : Nat)
    (hfl : s.freeList.head? = some fid) : emplaceSetup Cap s = (s, fid) := by
  unfold emplaceSetup
  rw [hfl]

/-- Setup creates the first chunk when the container is empty. -/
theorem emplaceSetup_empty (Cap : Nat) (s : CState)
    (hfl : s.freeList.head? = none) (hchain : s.chain = []) :
    emplaceSetup Cap s =
      ({ chain := [(s.nextId, freshChunk true)], freeList := s.freeList,
         nextId := s.nextId + 1 }, s.nextId) := by
  unfold emplaceSetup
  rw [hfl, hchain]

/-- Setup splices a fresh anchor when the head chunk is full. -/
theorem emplaceSetup_full (Cap : Nat) (s : CState) (hid : Nat) (hc : Chunk)
    (rest : List (Nat × Chunk))
    (hfl : s.freeList.head? = none) (hchain : s.chain = (hid, hc) :: rest)
    (hfull : hc.is_full Cap = true) :
    emplaceSetup Cap s =
      ({ chain := (s.nextId, freshChunk true) ::
            (hid, { hc with is_first := false }) :: rest,
         freeList := s.freeList, nextId := s.nextId + 1 }, s.nextId) := by
  unfold emplaceSetup
  rw [hfl, hchain]
  simp [hfull]

/-- Setup targets a non-full head chunk directly. -/
theorem emplaceSetup_head (Cap : Nat) (s : CState) (hid : Nat) (hc : Chunk)
    (rest : List (Nat × Chunk))
    (hfl : s.freeList.head? = none) (hchain : s.chain = (hid, hc) :: rest)
    (hfull : hc.is_full Cap = false) :
    emplaceSetup Cap s = (s, hid) := by
  unfold emplaceSetup
  rw [hfl, hchain]
  simp [hfull]

/-- Reduction of `emplaceOp` once the target chunk is located. -/
theorem emplaceOp_eq (Cap : Nat) (s : CState) (v : Nat) (s1 : CState) (tid : Nat)
    (pre : List (Nat × Chunk)) (c : Chunk) (post : List (Nat × Chunk))
    (hsetup : emplaceSetup Cap s = (s1, tid))
    (hsplit : splitChain s1.chain tid = some (pre, c, post)) :
    emplaceOp Cap s v =
      { chain := pre ++ (tid,
          (if (c.emplace v).in_free_list && (c.emplace v).is_full Cap
           then freeListErase s1.freeList tid (c.emplace v)
           else (s1.freeList, c.emplace v)).2) :: post,
        freeList :=
          (if (c.emplace v).in_free_list && (c.emplace v).is_full Cap
           then freeListErase s1.freeList tid (c.emplace v)
           else (s1.freeList, c.emplace v)).1,
        nextId := s1.nextId } := by
  unfold emplaceOp
  rw [hsetup]
  simp only
  rw [hsplit]

end SCA

namespace SCA

/-- The live multiset of a chain segment. -/
theorem liveM_decomp (s : CState) (pre post : List (Nat × Chunk)) (p : Nat × Chunk)
    (hdecomp : s.chain = pre ++ p :: post) :
    liveM s = (pre.map (fun q => q.2.liveVals)).sum + p.2.liveVals
      + (post.map (fun q => q.2.liveVals)).sum := by
  unfold liveM
  rw [hdecomp]
  simp [add_assoc]

/-- Well-formedness is preserved when one chain entry is replaced by a
well-formed chunk with the same anchor flag and at least as many alive
elements, with a coherently updated registry. -/
theorem WF_replace (Cap : Nat) (s : CState) (pre post : List (Nat × Chunk))
    (id : Nat) (c c2 : Chunk) (fl2 : List Nat)
    (hwf : WF Cap s) (hdecomp : s.chain = pre ++ (id, c) :: post)
    (hc2wf : WFChunk Cap c2)
    (hfirst : c2.is_first = c.is_first)
    (halive : c.alive ≤ c2.alive)
    (halive1 : c.is_first = false → 1 ≤ c2.alive)
    (hflag : c2.in_free_list = (!c2.is_full Cap && !c2.is_first))
    (hfl_nodup : fl2.Nodup)
    (hfl_mem : ∀ i ∈ fl2, (i = id ∧ c2.in_free_list = true) ∨ (i ≠ id ∧ i ∈ s.freeList))
    (hfl_mem2 : c2.in_free_list = true → id ∈ fl2)
    (hfl_mem3 : ∀ i ∈ s.freeList, i ≠ id → i ∈ fl2) :
    WF Cap { chain := pre ++ (id, c2) :: post, freeList := fl2, nextId := s.nextId } := by
  obtain ⟨w1, w2, w3, w4, w5, w6, w7, w8, w9, w10⟩ := hwf
  have hids : (List.map Prod.fst (pre ++ (id, c2) :: post))
      = (List.map Prod.fst s.chain) := by
    rw [hdecomp]
    simp
  have hid_not_pre : id ∉ pre.map Prod.fst := by
    have := w3
    rw [hdecomp] at this
    simp only [List.map_append, List.map_cons, List.nodup_append] at this
    intro hmem
    exact this.2.2 hmem (List.mem_cons_self _ _)
  have hid_not_post : id ∉ post.map Prod.fst := by
    have := w3
    rw [hdecomp] at this
    simp only [List.map_append, List.map_cons, List.nodup_append, List.nodup_cons] at this
    exact this.2.1.1
  have hmem_other : ∀ p, p ∈ pre ∨ p ∈ post → p ∈ s.chain ∧ p.1 ≠ id := by
    intro p hp
    constructor
    · rw [hdecomp]
      rcases hp with h | h
      · exact List.mem_append_left _ h
      · exact List.mem_append_right _ (List.mem_cons_of_mem _ h)
    · intro hcontra
      rcases hp with h | h
      · exact hid_not_pre (hcontra ▸ List.mem_map_of_mem Prod.fst h)
      · exact hid_not_post (hcontra ▸ List.mem_map_of_mem Prod.fst h)
  have hmem_cases : ∀ p, p ∈ pre ++ (id, c2) :: post → p = (id, c2) ∨ (p ∈ s.chain ∧ p.1 ≠ id) := by
    intro p hp
    rcases List.mem_append.mp hp with h | h
    · exact Or.inr (hmem_other p (Or.inl h))
    · rcases List.mem_cons.mp h with h | h
      · exact Or.inl h
      · exact Or.inr (hmem_other p (Or.inr h))
  refine ⟨?_, ?_, ?_, ?_, ?_, ?_, ?_, hfl_nodup, ?_, ?_⟩
  · intro p hp
    rcases hmem_cases p hp with h | ⟨h, _⟩
    · rw [h]
      exact hc2wf
    · exact w1 p h
  · rcases pre with _ | ⟨p0, pre'⟩
    · rw [hdecomp] at w2
      refine ⟨?_, ?_⟩
      · simp only
        rw [hfirst]
        exact w2.1
      · exact fun p hp => w2.2 p hp
    · rw [hdecomp] at w2
      refine ⟨w2.1, ?_⟩
      intro p hp
      rcases List.mem_append.mp hp with h | h
      · exact w2.2 p (List.mem_append_left _ h)
      · rcases List.mem_cons.mp h with h | h
        · rw [h]
          simp only
          rw [hfirst]
          exact w2.2 (id, c) (List.mem_append_right _ (List.mem_cons_self _ _))
        · exact w2.2 p (List.mem_append_right _ (List.mem_cons_of_mem _ h))
  · simp only
    rw [hids]
    exact w3
  · intro p hp
    rcases hmem_cases p hp with h | ⟨h, _⟩
    · rw [h]
      exact w4 (id, c) (by rw [hdecomp]; simp)
    · exact w4 p h
  · intro p hp
    rcases hmem_cases p hp with h | ⟨h, _⟩
    · rw [h]
      simp only
      rw [hfirst]
      exact fun hf => halive1 hf
    · exact w5 p h
  · rcases pre with _ | ⟨p0, pre'⟩
    · simp only [List.nil_append, List.tail_cons]
      rw [hdecomp] at w6
      simpa using w6
    · simp only [List.cons_append, List.tail_cons]
      rw [hdecomp] at w6
      simp only [List.cons_append, List.tail_cons] at w6
      exact chain'_replace Cap pre' post (id, c) (id, c2) halive w6
  · intro p hp
    rcases hmem_cases p hp with h | ⟨h, _⟩
    · rw [h]
      exact hflag
    · exact w7 p h
  · intro i hi
    rcases hfl_mem i hi with ⟨h1, h2⟩ | ⟨h1, h2⟩
    · exact ⟨(id, c2), by simp, h1.symm, h2⟩
    · obtain ⟨p, hp_mem, hp_id, hp_flag⟩ := w9 i h2
      refine ⟨p, ?_, hp_id, hp_flag⟩
      rw [hdecomp] at hp_mem
      rcases List.mem_append.mp hp_mem with h | h
      · exact List.mem_append_left _ h
      · rcases List.mem_cons.mp h with h | h
        · exfalso
          apply h1
          rw [← hp_id, h]
        · exact List.mem_append_right _ (List.mem_cons_of_mem _ h)
  · intro p hp hpflag
    rcases hmem_cases p hp with h | ⟨h, hne⟩
    · rw [h]
      apply hfl_mem2
      rw [← hpflag, h]
    · exact hfl_mem3 p.1 (w10 p h hpflag) hne

end SCA

namespace SCA

/-- Boolean extraction: a raised registry flag means non-full non-anchor. -/
theorem flag_facts (Cap : Nat) (c : Chunk)
    (heq : c.in_free_list = (!c.is_full Cap && !c.is_first))
    (hflag : c.in_free_list = true) :
    c.is_full Cap = false ∧ c.is_first = false := by
  rw [hflag] at heq
  have := heq.symm
  rw [Bool.and_eq_true, Bool.not_eq_true', Bool.not_eq_true'] at this
  exact this

/-- A non-full chunk within capacity has room. -/
theorem size_lt_of_not_full (Cap : Nat) (c : Chunk)
    (hfull : c.is_full Cap = false) (hle : c.size ≤ Cap) : c.size < Cap := by
  unfold Chunk.is_full at hfull
  have : c.size ≠ Cap := by
    intro h
    rw [h] at hfull
    simp at hfull
  omega

/-- The alive count after inserting into a hole-free chunk. -/
theorem alive_emplace (c : Chunk) (v : Nat) (hdel : c.deleted = 0) :
    (c.emplace v).alive = c.alive + 1 := by
  unfold Chunk.alive
  rw [show (c.emplace v).size = c.size + 1 from rfl,
    show (c.emplace v).deleted = c.deleted from rfl, hdel]
  omega

/-- Emplacing preserves well-formedness and adds the value to the live
multiset. -/
theorem emplaceOp_spec (Cap : Nat) (hCap : 0 < Cap) (s : CState) (hwf : WF Cap s) (v : Nat) :
    WF Cap (emplaceOp Cap s v) ∧ liveM (emplaceOp Cap s v) = liveM s + {v} := by
  obtain ⟨w1, w2, w3, w4, w5, w6, w7, w8, w9, w10⟩ := id hwf
  rcases hfl : s.freeList.head? with _ | fid
  · -- registry empty: head-chunk paths
    have hfl0 : s.freeList = [] := List.head?_eq_none_iff.mp hfl
    rcases hchain : s.chain with _ | ⟨p0, rest⟩
    · -- empty container: fresh anchor
      have hsetup := emplaceSetup_empty Cap s hfl hchain
      have hsplit : splitChain ([(s.nextId, freshChunk true)] : List (Nat × Chunk)) s.nextId
          = some ([], freshChunk true, []) := by
        simp [splitChain]
      obtain ⟨he1, he2, he3, he4, he5, he6⟩ :=
        Chunk.emplace_spec (freshChunk true) v (fun j => by simp [freshChunk])
      have hop := emplaceOp_eq Cap s v _ s.nextId [] (freshChunk true) [] hsetup hsplit
      have hguard : (((freshChunk true).emplace v).in_free_list
          && ((freshChunk true).emplace v).is_full Cap) = false := by
        rw [he6]
        rfl
      rw [hguard, if_neg Bool.false_ne_true] at hop
      rw [hop]
      constructor
      · refine ⟨?_, ?_, ?_, ?_, ?_, ?_, ?_, ?_, ?_, ?_⟩
        · intro p hp
          simp only [List.nil_append, List.mem_singleton] at hp
          rw [hp]
          exact ⟨by rw [he4]; rfl, by rw [he2]; simp [freshChunk]; omega, he1⟩
        · refine ⟨?_, ?_⟩
          · simp only
            rw [he5]
            rfl
          · intro p hp
            simp at hp
        · simp
        · intro p hp
          simp only [List.nil_append, List.mem_singleton] at hp
          rw [hp]
          simp
        · intro p hp
          simp only [List.nil_append, List.mem_singleton] at hp
          rw [hp]
          intro hf
          simp only at hf
          rw [he5] at hf
          cases hf
        · simp
        · intro p hp
          simp only [List.nil_append, List.mem_singleton] at hp
          rw [hp]
          simp only
          rw [he6, he5]
          simp only [show (freshChunk true).in_free_list = false from rfl,
            show (freshChunk true).is_first = true from rfl, Bool.not_true, Bool.and_false]
        · rw [hfl0]
          exact List.nodup_nil
        · intro i hi
          rw [hfl0] at hi
          cases hi
        · intro p hp hpf
          simp only [List.nil_append, List.mem_singleton] at hp
          rw [hp] at hpf
          simp only at hpf
          rw [he6] at hpf
          cases hpf
      · rw [liveM_decomp _ [] [] (s.nextId, (freshChunk true).emplace v) rfl]
        unfold liveM
        rw [hchain]
        simp only [List.map_nil, List.sum_nil, List.map_cons]
        rw [he3]
        have : (freshChunk true).liveVals = 0 := rfl
        rw [this]
        simp
    · -- non-empty chain: target or splice at the head
      obtain ⟨hid0, hc⟩ := p0
      have hmemhd : (hid0, hc) ∈ s.chain := by
        rw [hchain]
        exact List.mem_cons_self _ _
      have hwfc := w1 (hid0, hc) hmemhd
      have hfirstT : hc.is_first = true := by
        have := w2
        rw [hchain] at this
        exact this.1
      cases hfull : hc.is_full Cap
      · -- head has room: emplace into it
        have hsetup := emplaceSetup_head Cap s hid0 hc rest hfl hchain hfull
        have hsplit : splitChain s.chain hid0 = some ([], hc, rest) := by
          rw [hchain]
          simp [splitChain]
        have hop := emplaceOp_eq Cap s v s hid0 [] hc rest hsetup hsplit
        have hflag0 : hc.in_free_list = false := by
          rw [w7 (hid0, hc) hmemhd, hfirstT]
          simp
        obtain ⟨he1, he2, he3, he4, he5, he6⟩ := Chunk.emplace_spec hc v hwfc.2.2
        have hguard : ((hc.emplace v).in_free_list && (hc.emplace v).is_full Cap) = false := by
          rw [he6, hflag0]
          rfl
        rw [hguard, if_neg Bool.false_ne_true] at hop
        rw [hop]
        have hdecomp0 : s.chain = [] ++ (hid0, hc) :: rest := by
          rw [hchain]
          rfl
        have halive := alive_emplace hc v hwfc.1
        constructor
        · refine WF_replace Cap s [] rest hid0 hc (hc.emplace v) s.freeList hwf hdecomp0
            ⟨by rw [he4]; exact hwfc.1,
             by rw [he2]; exact size_lt_of_not_full Cap hc hfull hwfc.2.1,
             he1⟩
            he5 (by rw [halive]; omega) (fun _ => by rw [halive]; omega) ?_ w8 ?_ ?_ ?_
          · rw [he6, hflag0, he5, hfirstT]
            simp
          · intro i hi
            rw [hfl0] at hi
            cases hi
          · intro hcontra
            rw [he6, hflag0] at hcontra
            cases hcontra
          · intro i hi
            rw [hfl0] at hi
            cases hi
        · rw [liveM_decomp _ ([] : List (Nat × Chunk)) rest (hid0, hc.emplace v) rfl,
            liveM_decomp s [] rest (hid0, hc) hdecomp0, he3]
          simp only [List.map_nil, List.sum_nil, zero_add]
          exact add_right_comm _ _ _
      · -- head full: splice in a fresh anchor and emplace there
        have hsetup := emplaceSetup_full Cap s hid0 hc rest hfl hchain hfull
        have hsplit : splitChain ((s.nextId, freshChunk true) ::
            (hid0, { hc with is_first := false }) :: rest) s.nextId
            = some ([], freshChunk true, (hid0, { hc with is_first := false }) :: rest) := by
          simp [splitChain]
        obtain ⟨he1, he2, he3, he4, he5, he6⟩ :=
          Chunk.emplace_spec (freshChunk true) v (fun j => by simp [freshChunk])
        have hop := emplaceOp_eq Cap s v _ s.nextId []
          (freshChunk true) ((hid0, { hc with is_first := false }) :: rest) hsetup hsplit
        have hguard : (((freshChunk true).emplace v).in_free_list
            && ((freshChunk true).emplace v).is_full Cap) = false := by
          rw [he6]
          rfl
        rw [hguard, if_neg Bool.false_ne_true] at hop
        rw [hop]
        have hsizeCap : hc.size = Cap := by
          have := hfull
          unfold Chunk.is_full at this
          exact eq_of_beq this
        have haliveCap : hc.alive = Cap := by
          unfold Chunk.alive
          rw [hsizeCap, hwfc.1]
          omega
        have hflag0 : hc.in_free_list = false := by
          rw [w7 (hid0, hc) hmemhd, hfull]
          rfl
        constructor
        · refine ⟨?_, ?_, ?_, ?_, ?_, ?_, ?_, w8, ?_, ?_⟩
          · intro p hp
            simp only [List.nil_append, List.mem_cons] at hp
            rcases hp with h | h | h
            · rw [h]
              exact ⟨by rw [he4]; rfl, by rw [he2]; simpa [freshChunk] using hCap, he1⟩
            · rw [h]
              exact hwfc
            · exact w1 p (by rw [hchain]; exact List.mem_cons_of_mem _ h)
          · refine ⟨?_, ?_⟩
            · simp only
              rw [he5]
              rfl
            · intro p hp
              rcases List.mem_cons.mp hp with h | h
              · rw [h]
              · have := w2
                rw [hchain] at this
                exact this.2 p h
          · simp only [List.nil_append, List.map_cons]
            refine List.nodup_cons.mpr ⟨?_, ?_⟩
            · intro hmem
              rcases List.mem_cons.mp hmem with h | h
              · exact absurd h.symm (Nat.ne_of_lt (w4 (hid0, hc) hmemhd))
              · obtain ⟨q, hq, hq2⟩ := List.mem_map.mp h
                have := w4 q (by rw [hchain]; exact List.mem_cons_of_mem _ hq)
                omega
            · have := w3
              rw [hchain] at this
              simpa using this
          · intro p hp
            simp only [List.nil_append, List.mem_cons] at hp
            rcases hp with h | h | h
            · rw [h]
              simp
            · rw [h]
              have := w4 (hid0, hc) hmemhd
              simpa using Nat.lt_succ_of_lt this
            · have := w4 p (by rw [hchain]; exact List.mem_cons_of_mem _ h)
              exact Nat.lt_succ_of_lt this
          · intro p hp
            simp only [List.nil_append, List.mem_cons] at hp
            rcases hp with h | h | h
            · rw [h]
              intro hcontra
              simp only at hcontra
              rw [he5] at hcontra
              cases hcontra
            · intro _
              rw [h]
              show 1 ≤ hc.alive
              rw [haliveCap]
              exact hCap
            · intro hfirstf
              exact w5 p (by rw [hchain]; exact List.mem_cons_of_mem _ h) hfirstf
          · show List.Chain' _ ((hid0, { hc with is_first := false }) :: rest)
            refine List.chain'_cons'.mpr ⟨?_, ?_⟩
            · intro q hq
              have hq1 : 1 ≤ q.2.alive := by
                refine w5 q ?_ ?_
                · rw [hchain]
                  exact List.mem_cons_of_mem _ (List.mem_of_mem_head? hq)
                · have := w2
                  rw [hchain] at this
                  exact this.2 q (List.mem_of_mem_head? hq)
              have hthr : merge_threshold Cap < Cap := by
                unfold merge_threshold
                exact Nat.div_lt_self hCap (by omega)
              show merge_threshold Cap < hc.alive + q.2.alive
              rw [haliveCap]
              omega
            · have := w6
              rw [hchain] at this
              exact this
          · intro p hp
            simp only [List.nil_append, List.mem_cons] at hp
            rcases hp with h | h | h
            · rw [h]
              simp only
              rw [he6, he5]
              simp only [show (freshChunk true).in_free_list = false from rfl,
                show (freshChunk true).is_first = true from rfl, Bool.not_true, Bool.and_false]
            · rw [h]
              show hc.in_free_list = (!Chunk.is_full Cap hc && !false)
              rw [hflag0, hfull]
              rfl
            · exact w7 p (by rw [hchain]; exact List.mem_cons_of_mem _ h)
          · intro i hi
            rw [hfl0] at hi
            cases hi
          · intro p hp hpf
            simp only [List.nil_append, List.mem_cons] at hp
            rcases hp with h | h | h
            · rw [h] at hpf
              simp only at hpf
              rw [he6] at hpf
              cases hpf
            · rw [h] at hpf
              simp only at hpf
              rw [hflag0] at hpf
              cases hpf
            · have := w10 p (by rw [hchain]; exact List.mem_cons_of_mem _ h) hpf
              rw [hfl0] at this
              cases this
        · rw [liveM_decomp _ ([] : List (Nat × Chunk))
            ((hid0, { hc with is_first := false }) :: rest)
            (s.nextId, (freshChunk true).emplace v) rfl, he3]
          have hfr : (freshChunk true).liveVals = 0 := rfl
          rw [hfr]
          unfold liveM
          rw [hchain]
          simp only [List.map_nil, List.sum_nil, zero_add, List.map_cons, List.sum_cons]
          have hcv : ({ hc with is_first := false } : Chunk).liveVals = hc.liveVals := rfl
          rw [hcv]
          exact (add_comm _ _).trans (by rw [add_assoc])
  · -- registry non-empty: emplace into its head chunk
    have hfid_mem : fid ∈ s.freeList := List.mem_of_mem_head? hfl
    obtain ⟨pf, hpf_mem, hpf_id, hpf_flag⟩ := w9 fid hfid_mem
    obtain ⟨pre, post, hdecomp⟩ := List.append_of_mem hpf_mem
    have hpf_eta : pf = (fid, pf.2) := by rw [← hpf_id]
    have hdecomp' : s.chain = pre ++ (fid, pf.2) :: post := by
      rw [← hpf_eta]
      exact hdecomp
    have hwfc := w1 pf hpf_mem
    have hff := flag_facts Cap pf.2 (w7 pf hpf_mem) hpf_flag
    have hsize : pf.2.size < Cap := size_lt_of_not_full Cap pf.2 hff.1 hwfc.2.1
    have hsetup := emplaceSetup_free Cap s fid hfl
    have hsplit := splitChain_of_mem_nodup s.chain w3 pre pf post hdecomp
    rw [hpf_id] at hsplit
    have hop := emplaceOp_eq Cap s v s fid pre pf.2 post hsetup hsplit
    obtain ⟨he1, he2, he3, he4, he5, he6⟩ := Chunk.emplace_spec pf.2 v hwfc.2.2
    have halive1 := alive_emplace pf.2 v hwfc.1
    cases hfull2 : (pf.2.emplace v).is_full Cap
    · -- still not full: only the chunk changes
      have hguard : ((pf.2.emplace v).in_free_list && (pf.2.emplace v).is_full Cap) = false := by
        rw [he6, hpf_flag, hfull2]
        rfl
      rw [hguard, if_neg Bool.false_ne_true] at hop
      rw [hop]
      constructor
      · refine WF_replace Cap s pre post fid pf.2 (pf.2.emplace v) s.freeList hwf hdecomp'
          ⟨by rw [he4]; exact hwfc.1, by rw [he2]; omega, he1⟩
          he5 (by rw [halive1]; omega) (fun _ => by rw [halive1]; omega) ?_ w8 ?_ ?_ ?_
        · rw [he6, hpf_flag, hfull2, he5, hff.2]
          rfl
        · intro i hi
          by_cases hieq : i = fid
          · exact Or.inl ⟨hieq, by rw [he6]; exact hpf_flag⟩
          · exact Or.inr ⟨hieq, hi⟩
        · intro _
          exact hfid_mem
        · intro i hi _
          exact hi
      · rw [liveM_decomp _ pre post (fid, pf.2.emplace v) rfl,
          liveM_decomp s pre post (fid, pf.2) hdecomp', he3]
        abel
    · -- the chunk became full: it leaves the registry
      have hguard : ((pf.2.emplace v).in_free_list && (pf.2.emplace v).is_full Cap) = true := by
        rw [he6, hpf_flag, hfull2]
        rfl
      have hfe : freeListErase s.freeList fid (pf.2.emplace v)
          = (s.freeList.erase fid, { pf.2.emplace v with in_free_list := false }) := by
        unfold freeListErase
        rw [he6, hpf_flag]
        rfl
      rw [hguard, if_pos rfl, hfe] at hop
      rw [hop]
      constructor
      · refine WF_replace Cap s pre post fid pf.2
          ({ pf.2.emplace v with in_free_list := false }) (s.freeList.erase fid) hwf hdecomp'
          ⟨?_, ?_, ?_⟩ ?_ ?_ ?_ ?_ ?_ ?_ ?_ ?_
        · show (pf.2.emplace v).deleted = 0
          rw [he4]
          exact hwfc.1
        · show (pf.2.emplace v).size ≤ Cap
          rw [he2]
          omega
        · exact he1
        · exact he5
        · show pf.2.alive ≤ (pf.2.emplace v).alive
          rw [halive1]
          omega
        · intro _
          show 1 ≤ (pf.2.emplace v).alive
          rw [halive1]
          omega
        · show false = (!(pf.2.emplace v).is_full Cap && !(pf.2.emplace v).is_first)
          rw [hfull2]
          rfl
        · exact w8.erase fid
        · intro i hi
          have := (List.Nodup.mem_erase_iff w8).mp hi
          exact Or.inr this
        · intro hcontra
          exact Bool.noConfusion hcontra
        · intro i hi hine
          exact (List.Nodup.mem_erase_iff w8).mpr ⟨hine, hi⟩
      · rw [liveM_decomp _ pre post
          (fid, ({ pf.2.emplace v with in_free_list := false } : Chunk)) rfl]
        have hcv : ({ pf.2.emplace v with in_free_list := false } : Chunk).liveVals
            = (pf.2.emplace v).liveVals := rfl
        rw [hcv, he3, liveM_decomp s pre post (fid, pf.2) hdecomp']
        abel

end SCA

namespace SCA

/-- Updating the membership flag to its current value changes nothing. -/
theorem chunk_set_flag_self (c : Chunk) (b : Bool) (h : c.in_free_list = b) :
    { c with in_free_list := b } = c := by
  cases c
  cases h
  rfl

/-- Removal from the registry erases the id and clears the flag; when the
flag is down (and hence the id absent) both are no-ops. -/
theorem tryRemoveFree_eq (fl : List Nat) (id : Nat) (c : Chunk)
    (hnm : c.in_free_list = false → id ∉ fl) :
    tryRemoveFree fl id c = (fl.erase id, { c with in_free_list := false }) := by
  unfold tryRemoveFree freeListErase
  cases hf : c.in_free_list
  · simp only [hf, Bool.false_eq_true, if_false]
    rw [List.erase_of_not_mem (hnm hf), chunk_set_flag_self c false hf]
  · simp [hf]

/-- Registration of a non-full non-anchor chunk: the flag ends up raised and
the registry gains the id exactly when it was absent. -/
theorem tryAddFree_eq (Cap : Nat) (fl : List Nat) (id : Nat) (c : Chunk)
    (hfull : c.is_full Cap = false) (hfirst : c.is_first = false)
    (hmem : c.in_free_list = true → id ∈ fl)
    (hnm : c.in_free_list = false → id ∉ fl)
    (hnodup : fl.Nodup) :
    (tryAddFree Cap fl id c).2 = { c with in_free_list := true } ∧
      (tryAddFree Cap fl id c).1.Nodup ∧
      ∀ j, (j ∈ (tryAddFree Cap fl id c).1 ↔ (j = id ∨ j ∈ fl)) := by
  unfold tryAddFree freeListAdd
  by_cases hf : c.in_free_list = true
  · have hcond : (!c.in_free_list && !c.is_full Cap && !c.is_first) = false := by
      rw [hf]
      rfl
    rw [hcond, if_neg Bool.false_ne_true]
    refine ⟨(chunk_set_flag_self c true hf).symm, hnodup, fun j => ?_⟩
    constructor
    · exact Or.inr
    · rintro (h | h)
      · rw [h]
        exact hmem hf
      · exact h
  · have hf2 : c.in_free_list = false := by
      simpa using hf
    have hcond : (!c.in_free_list && !c.is_full Cap && !c.is_first) = true := by
      rw [hf2, hfull, hfirst]
      rfl
    rw [hcond, if_pos rfl, hf2, if_neg Bool.false_ne_true]
    exact ⟨rfl, List.nodup_cons.mpr ⟨hnm hf2, hnodup⟩, fun j => by simp⟩

/-- The anchor is never registered. -/
theorem tryAddFree_of_first (Cap : Nat) (fl : List Nat) (id : Nat) (c : Chunk)
    (hfirst : c.is_first = true) :
    tryAddFree Cap fl id c = (fl, c) := by
  unfold tryAddFree
  have hcond : (!c.in_free_list && !c.is_full Cap && !c.is_first) = false := by
    rw [hfirst]
    simp
  rw [hcond, if_neg Bool.false_ne_true]

/-- In a chain with distinct ids, an entry carrying the id of a known
position is that position's entry. -/
theorem mem_unique_by_id (l : List (Nat × Chunk)) (hnodup : (l.map Prod.fst).Nodup)
    (pre : List (Nat × Chunk)) (id : Nat) (c : Chunk) (post : List (Nat × Chunk))
    (hdecomp : l = pre ++ (id, c) :: post) (p : Nat × Chunk) (hp : p ∈ l)
    (hid : p.1 = id) : p = (id, c) := by
  rw [hdecomp] at hp hnodup
  simp only [List.map_append, List.map_cons, List.nodup_append, List.nodup_cons] at hnodup
  rcases List.mem_append.mp hp with h | h
  · exact absurd (List.mem_cons_self _ _)
      (fun hx => (hnodup.2.2 (hid ▸ List.mem_map_of_mem Prod.fst h) hx).elim)
  · rcases List.mem_cons.mp h with h | h
    · exact h
    · exact absurd (hid ▸ List.mem_map_of_mem Prod.fst h) hnodup.2.1.1

/-- Replacing two adjacent entries by one that still relates to both outer
neighbours preserves a chain. -/
theorem chain'_merge_pair {α : Type} {R : α → α → Prop} (l1 l2 : List α) (a b m : α)
    (h : List.Chain' R (l1 ++ a :: b :: l2))
    (hleft : ∀ x, l1.getLast? = some x → R x a → R x m)
    (hright : ∀ y, l2.head? = some y → R b y → R m y) :
    List.Chain' R (l1 ++ m :: l2) := by
  rw [List.chain'_append] at h ⊢
  obtain ⟨h1, h2, h3⟩ := h
  rw [List.chain'_cons'] at h2
  have h4 := h2.2
  rw [List.chain'_cons'] at h4
  refine ⟨h1, ?_, ?_⟩
  · rw [List.chain'_cons']
    exact ⟨fun y hy => hright y hy (h4.1 y hy), h4.2⟩
  · intro x hx y hy
    simp only [List.head?_cons, Option.mem_def, Option.some.injEq] at hy
    rw [← hy]
    exact hleft x hx (h3 x hx a (by simp))

/-- The live multiset around two adjacent chain entries. -/
theorem liveM_decomp2 (s : CState) (l1 l2 : List (Nat × Chunk)) (a b : Nat × Chunk)
    (hdecomp : s.chain = l1 ++ a :: b :: l2) :
    liveM s = (l1.map (fun q => q.2.liveVals)).sum + a.2.liveVals + b.2.liveVals
      + (l2.map (fun q => q.2.liveVals)).sum := by
  unfold liveM
  rw [hdecomp]
  simp [add_assoc]

end SCA

namespace SCA

/-- The entry-replacement lemma with the adjacency chain of the new tail
supplied directly, for replacements that lower the alive count. -/
theorem WF_replace2 (Cap : Nat) (s : CState) (pre post : List (Nat × Chunk))
    (id : Nat) (c c2 : Chunk) (fl2 : List Nat)
    (hwf : WF Cap s) (hdecomp : s.chain = pre ++ (id, c) :: post)
    (hc2wf : WFChunk Cap c2)
    (hfirst : c2.is_first = c.is_first)
    (halive1 : c.is_first = false → 1 ≤ c2.alive)
    (hchain2 : List.Chain' (fun a b => merge_threshold Cap < a.2.alive + b.2.alive)
      ((pre ++ (id, c2) :: post).tail))
    (hflag : c2.in_free_list = (!c2.is_full Cap && !c2.is_first))
    (hfl_nodup : fl2.Nodup)
    (hfl_mem : ∀ i ∈ fl2, (i = id ∧ c2.in_free_list = true) ∨ (i ≠ id ∧ i ∈ s.freeList))
    (hfl_mem2 : c2.in_free_list = true → id ∈ fl2)
    (hfl_mem3 : ∀ i ∈ s.freeList, i ≠ id → i ∈ fl2) :
    WF Cap { chain := pre ++ (id, c2) :: post, freeList := fl2, nextId := s.nextId } := by
  obtain ⟨w1, w2, w3, w4, w5, w6, w7, w8, w9, w10⟩ := hwf
  have hids : (List.map Prod.fst (pre ++ (id, c2) :: post))
      = (List.map Prod.fst s.chain) := by
    rw [hdecomp]
    simp
  have hid_not_pre : id ∉ pre.map Prod.fst := by
    have := w3
    rw [hdecomp] at this
    simp only [List.map_append, List.map_cons, List.nodup_append] at this
    intro hmem
    exact this.2.2 hmem (List.mem_cons_self _ _)
  have hid_not_post : id ∉ post.map Prod.fst := by
    have := w3
    rw [hdecomp] at this
    simp only [List.map_append, List.map_cons, List.nodup_append, List.nodup_cons] at this
    exact this.2.1.1
  have hmem_other : ∀ p, p ∈ pre ∨ p ∈ post → p ∈ s.chain ∧ p.1 ≠ id := by
    intro p hp
    constructor
    · rw [hdecomp]
      rcases hp with h | h
      · exact List.mem_append_left _ h
      · exact List.mem_append_right _ (List.mem_cons_of_mem _ h)
    · intro hcontra
      rcases hp with h | h
      · exact hid_not_pre (hcontra ▸ List.mem_map_of_mem Prod.fst h)
      · exact hid_not_post (hcontra ▸ List.mem_map_of_mem Prod.fst h)
  have hmem_cases : ∀ p, p ∈ pre ++ (id, c2) :: post → p = (id, c2) ∨ (p ∈ s.chain ∧ p.1 ≠ id) := by
    intro p hp
    rcases List.mem_append.mp hp with h | h
    · exact Or.inr (hmem_other p (Or.inl h))
    · rcases List.mem_cons.mp h with h | h
      · exact Or.inl h
      · exact Or.inr (hmem_other p (Or.inr h))
  refine ⟨?_, ?_, ?_, ?_, ?_, ?_, ?_, hfl_nodup, ?_, ?_⟩
  · intro p hp
    rcases hmem_cases p hp with h | ⟨h, _⟩
    · rw [h]
      exact hc2wf
    · exact w1 p h
  · rcases pre with _ | ⟨p0, pre'⟩
    · rw [hdecomp] at w2
      refine ⟨?_, ?_⟩
      · simp only
        rw [hfirst]
        exact w2.1
      · exact fun p hp => w2.2 p hp
    · rw [hdecomp] at w2
      refine ⟨w2.1, ?_⟩
      intro p hp
      rcases List.mem_append.mp hp with h | h
      · exact w2.2 p (List.mem_append_left _ h)
      · rcases List.mem_cons.mp h with h | h
        · rw [h]
          simp only
          rw [hfirst]
          exact w2.2 (id, c) (List.mem_append_right _ (List.mem_cons_self _ _))
        · exact w2.2 p (List.mem_append_right _ (List.mem_cons_of_mem _ h))
  · simp only
    rw [hids]
    exact w3
  · intro p hp
    rcases hmem_cases p hp with h | ⟨h, _⟩
    · rw [h]
      exact w4 (id, c) (by rw [hdecomp]; simp)
    · exact w4 p h
  · intro p hp
    rcases hmem_cases p hp with h | ⟨h, _⟩
    · rw [h]
      simp only
      rw [hfirst]
      exact fun hf => halive1 hf
    · exact w5 p h
  · exact hchain2
  · intro p hp
    rcases hmem_cases p hp with h | ⟨h, _⟩
    · rw [h]
      exact hflag
    · exact w7 p h
  · intro i hi
    rcases hfl_mem i hi with ⟨h1, h2⟩ | ⟨h1, h2⟩
    · exact ⟨(id, c2), by simp, h1.symm, h2⟩
    · obtain ⟨p, hp_mem, hp_id, hp_flag⟩ := w9 i h2
      refine ⟨p, ?_, hp_id, hp_flag⟩
      rw [hdecomp] at hp_mem
      rcases List.mem_append.mp hp_mem with h | h
      · exact List.mem_append_left _ h
      · rcases List.mem_cons.mp h with h | h
        · exfalso
          apply h1
          rw [← hp_id, h]
        · exact List.mem_append_right _ (List.mem_cons_of_mem _ h)
  · intro p hp hpflag
    rcases hmem_cases p hp with h | ⟨h, hne⟩
    · rw [h]
      apply hfl_mem2
      rw [← hpflag, h]
    · exact hfl_mem3 p.1 (w10 p h hpflag) hne

end SCA

namespace SCA

/-- Well-formedness after `try_delete` unchains an alive-empty non-anchor
entry and drops its id from the registry, given the adjacency chain of the
shortened tail. -/
theorem WF_delete (Cap : Nat) (s : CState) (pre post : List (Nat × Chunk))
    (id : Nat) (c : Chunk)
    (hwf : WF Cap s) (hdecomp : s.chain = pre ++ (id, c) :: post)
    (hfirst : c.is_first = false)
    (hchain2 : List.Chain' (fun a b => merge_threshold Cap < a.2.alive + b.2.alive)
      ((pre ++ post).tail)) :
    WF Cap { chain := pre ++ post, freeList := s.freeList.erase id,
             nextId := s.nextId } := by
  obtain ⟨w1, w2, w3, w4, w5, w6, w7, w8, w9, w10⟩ := hwf
  have hid_not_pre : id ∉ pre.map Prod.fst := by
    have := w3
    rw [hdecomp] at this
    simp only [List.map_append, List.map_cons, List.nodup_append] at this
    intro hmem
    exact this.2.2 hmem (List.mem_cons_self _ _)
  have hid_not_post : id ∉ post.map Prod.fst := by
    have := w3
    rw [hdecomp] at this
    simp only [List.map_append, List.map_cons, List.nodup_append, List.nodup_cons] at this
    exact this.2.1.1
  have hmem_other : ∀ p, p ∈ pre ++ post → p ∈ s.chain ∧ p.1 ≠ id := by
    intro p hp
    rcases List.mem_append.mp hp with h | h
    · exact ⟨by rw [hdecomp]; exact List.mem_append_left _ h,
        fun hc => hid_not_pre (hc ▸ List.mem_map_of_mem Prod.fst h)⟩
    · exact ⟨by rw [hdecomp]; exact List.mem_append_right _ (List.mem_cons_of_mem _ h),
        fun hc => hid_not_post (hc ▸ List.mem_map_of_mem Prod.fst h)⟩
  refine ⟨?_, ?_, ?_, ?_, ?_, ?_, ?_, w8.erase id, ?_, ?_⟩
  · exact fun p hp => w1 p (hmem_other p hp).1
  · rcases pre with _ | ⟨p0, pre'⟩
    · exfalso
      rw [hdecomp] at w2
      rw [w2.1] at hfirst
      cases hfirst
    · rw [hdecomp] at w2
      refine ⟨w2.1, ?_⟩
      intro p hp
      rcases List.mem_append.mp hp with h | h
      · exact w2.2 p (List.mem_append_left _ h)
      · exact w2.2 p (List.mem_append_right _ (List.mem_cons_of_mem _ h))
  · have hsub : (List.map Prod.fst (pre ++ post)).Sublist
        (List.map Prod.fst (pre ++ (id, c) :: post)) := by
      simp only [List.map_append, List.map_cons]
      exact List.Sublist.append_left (List.sublist_cons_self _ _) _
    have := w3
    rw [hdecomp] at this
    exact this.sublist hsub
  · exact fun p hp => w4 p (hmem_other p hp).1
  · exact fun p hp => w5 p (hmem_other p hp).1
  · exact hchain2
  · exact fun p hp => w7 p (hmem_other p hp).1
  · intro j hj
    have hj2 := (List.Nodup.mem_erase_iff w8).mp hj
    obtain ⟨p, hp_mem, hp_id, hp_flag⟩ := w9 j hj2.2
    refine ⟨p, ?_, hp_id, hp_flag⟩
    rw [hdecomp] at hp_mem
    rcases List.mem_append.mp hp_mem with h | h
    · exact List.mem_append_left _ h
    · rcases List.mem_cons.mp h with h | h
      · exact absurd (by rw [← hp_id, h]) hj2.1
      · exact List.mem_append_right _ h
  · intro p hp hpflag
    have hm := hmem_other p hp
    exact (List.Nodup.mem_erase_iff w8).mpr ⟨hm.2, w10 p hm.1 hpflag⟩

end SCA

namespace SCA

/-- Well-formedness after a merge replaces two adjacent non-anchor entries
by the surviving chunk, with a coherently updated registry. -/
theorem WF_merge2 (Cap : Nat) (s : CState) (l1 l2 : List (Nat × Chunk)) (a b : Nat × Chunk)
    (sid : Nat) (t : Chunk) (fl2 : List Nat)
    (hwf : WF Cap s) (hdecomp : s.chain = l1 ++ a :: b :: l2)
    (hsid : sid = a.1 ∨ sid = b.1)
    (htwf : WFChunk Cap t)
    (hfirst : t.is_first = false)
    (hafirst : a.2.is_first = false)
    (halive : 1 ≤ t.alive)
    (hta : a.2.alive ≤ t.alive)
    (htb : b.2.alive ≤ t.alive)
    (hflag : t.in_free_list = (!t.is_full Cap && !t.is_first))
    (hfl_nodup : fl2.Nodup)
    (hfl_mem : ∀ j ∈ fl2,
      (j = sid ∧ t.in_free_list = true) ∨ (j ≠ a.1 ∧ j ≠ b.1 ∧ j ∈ s.freeList))
    (hfl_mem2 : t.in_free_list = true → sid ∈ fl2)
    (hfl_mem3 : ∀ j ∈ s.freeList, j ≠ a.1 → j ≠ b.1 → j ∈ fl2) :
    WF Cap { chain := l1 ++ (sid, t) :: l2, freeList := fl2, nextId := s.nextId } := by
  obtain ⟨w1, w2, w3, w4, w5, w6, w7, w8, w9, w10⟩ := hwf
  have hamem : a ∈ s.chain := by
    rw [hdecomp]
    exact List.mem_append_right _ (List.mem_cons_self _ _)
  have hbmem : b ∈ s.chain := by
    rw [hdecomp]
    exact List.mem_append_right _ (List.mem_cons_of_mem _ (List.mem_cons_self _ _))
  have hNod := w3
  rw [hdecomp] at hNod
  simp only [List.map_append, List.map_cons, List.nodup_append, List.nodup_cons,
    List.mem_cons] at hNod
  have hmem_other : ∀ p, p ∈ l1 ++ l2 → p ∈ s.chain ∧ p.1 ≠ a.1 ∧ p.1 ≠ b.1 := by
    intro p hp
    rcases List.mem_append.mp hp with h | h
    · refine ⟨by rw [hdecomp]; exact List.mem_append_left _ h, ?_, ?_⟩
      · intro hc
        exact hNod.2.2 (List.mem_map_of_mem Prod.fst h)
          (by rw [hc]; exact List.mem_cons_self _ _)
      · intro hc
        exact hNod.2.2 (List.mem_map_of_mem Prod.fst h)
          (by rw [hc]; exact List.mem_cons_of_mem _ (List.mem_cons_self _ _))
    · have hpm : p ∈ s.chain := by
        rw [hdecomp]
        exact List.mem_append_right _ (List.mem_cons_of_mem _ (List.mem_cons_of_mem _ h))
      refine ⟨hpm, ?_, ?_⟩
      · intro hc
        exact hNod.2.1.1 (Or.inr (hc ▸ List.mem_map_of_mem Prod.fst h))
      · intro hc
        exact hNod.2.1.2.1 (hc ▸ List.mem_map_of_mem Prod.fst h)
  have hmem_cases : ∀ p, p ∈ l1 ++ (sid, t) :: l2 →
      p = (sid, t) ∨ (p ∈ s.chain ∧ p.1 ≠ a.1 ∧ p.1 ≠ b.1) := by
    intro p hp
    rcases List.mem_append.mp hp with h | h
    · exact Or.inr (hmem_other p (List.mem_append_left _ h))
    · rcases List.mem_cons.mp h with h | h
      · exact Or.inl h
      · exact Or.inr (hmem_other p (List.mem_append_right _ h))
  have hl1ne : l1 ≠ [] := by
    intro hl1
    rw [hl1] at hdecomp
    rw [hdecomp] at w2
    rw [w2.1] at hafirst
    cases hafirst
  refine ⟨?_, ?_, ?_, ?_, ?_, ?_, ?_, hfl_nodup, ?_, ?_⟩
  · intro p hp
    rcases hmem_cases p hp with h | ⟨h, _⟩
    · rw [h]
      exact htwf
    · exact w1 p h
  · rcases l1 with _ | ⟨p0, l1'⟩
    · exact absurd rfl hl1ne
    · rw [hdecomp] at w2
      refine ⟨w2.1, ?_⟩
      intro p hp
      rcases List.mem_append.mp hp with h | h
      · exact w2.2 p (List.mem_append_left _ h)
      · rcases List.mem_cons.mp h with h | h
        · rw [h]
          exact hfirst
        · exact w2.2 p (List.mem_append_right _
            (List.mem_cons_of_mem _ (List.mem_cons_of_mem _ h)))
  · have hold := w3
    rw [hdecomp] at hold
    refine hold.sublist ?_
    simp only [List.map_append, List.map_cons]
    refine List.Sublist.append_left ?_ _
    rcases hsid with h | h
    · rw [h]
      exact List.Sublist.cons₂ _ (List.sublist_cons_self _ _)
    · rw [h]
      exact List.sublist_cons_self _ _
  · intro p hp
    rcases hmem_cases p hp with h | ⟨h, _⟩
    · rw [h]
      rcases hsid with hs | hs
      · rw [hs]
        exact w4 a hamem
      · rw [hs]
        exact w4 b hbmem
    · exact w4 p h
  · intro p hp
    rcases hmem_cases p hp with h | ⟨h, _⟩
    · rw [h]
      exact fun _ => halive
    · exact w5 p h
  · rcases l1 with _ | ⟨p0, l1'⟩
    · exact absurd rfl hl1ne
    · simp only [List.cons_append, List.tail_cons]
      rw [hdecomp] at w6
      simp only [List.cons_append, List.tail_cons] at w6
      refine chain'_merge_pair l1' l2 a b (sid, t) w6 ?_ ?_
      · intro x hx hr
        show merge_threshold Cap < x.2.alive + t.alive
        omega
      · intro y hy hr
        show merge_threshold Cap < t.alive + y.2.alive
        omega
  · intro p hp
    rcases hmem_cases p hp with h | ⟨h, _⟩
    · rw [h]
      exact hflag
    · exact w7 p h
  · intro j hj
    rcases hfl_mem j hj with ⟨h1, h2⟩ | ⟨h1, h2, h3⟩
    · exact ⟨(sid, t), by simp, h1.symm, h2⟩
    · obtain ⟨p, hp_mem, hp_id, hp_flag⟩ := w9 j h3
      refine ⟨p, ?_, hp_id, hp_flag⟩
      rw [hdecomp] at hp_mem
      rcases List.mem_append.mp hp_mem with h | h
      · exact List.mem_append_left _ h
      · rcases List.mem_cons.mp h with h | h
        · exact absurd (by rw [← hp_id, h]) h1
        · rcases List.mem_cons.mp h with h | h
          · exact absurd (by rw [← hp_id, h]) h2
          · exact List.mem_append_right _ (List.mem_cons_of_mem _ h)
  · intro p hp hpflag
    rcases hmem_cases p hp with h | ⟨h, hna, hnb⟩
    · have hpf2 : t.in_free_list = true := by rw [← hpflag, h]
      have hs2 := hfl_mem2 hpf2
      rw [h]
      exact hs2
    · exact hfl_mem3 p.1 (w10 p h hpflag) hna hnb

end SCA

namespace SCA

/-- What `try_merge_with` produces once `can_merge` held: a hole-free
surviving chunk carrying both live multisets, registered (it cannot be full
since the combined size is under the threshold), with the donor id dropped
from the registry. -/
theorem do_merge_spec (Cap : Nat) (fl : List Nat) (cid : Nat) (c : Chunk) (oid : Nat) (oc : Chunk)
    (hcdc : c.deleted = deadCount c.al 0 c.size)
    (hctail : ∀ j, c.size ≤ j → c.al j = false)
    (hocdc : oc.deleted = deadCount oc.al 0 oc.size)
    (hoctail : ∀ j, oc.size ≤ j → oc.al j = false)
    (hcfirst : c.is_first = false) (hocfirst : oc.is_first = false)
    (hsum : Multiset.card c.liveVals + Multiset.card oc.liveVals < Cap)
    (hne : cid ≠ oid)
    (hfl_nodup : fl.Nodup)
    (hcmem : c.in_free_list = true → cid ∈ fl)
    (hcmem2 : c.in_free_list = false → cid ∉ fl)
    (hocmem : oc.in_free_list = true → oid ∈ fl)
    (hocmem2 : oc.in_free_list = false → oid ∉ fl) :
    ∃ sid did t2 fl2, do_merge Cap fl cid c oid oc = ((sid, t2), did, fl2) ∧
      ((sid = cid ∧ did = oid) ∨ (sid = oid ∧ did = cid)) ∧
      (∀ j, t2.al j = decide (j < t2.size)) ∧
      t2.size = Multiset.card c.liveVals + Multiset.card oc.liveVals ∧
      t2.liveVals = c.liveVals + oc.liveVals ∧
      t2.deleted = 0 ∧ t2.is_first = false ∧ t2.in_free_list = true ∧
      fl2.Nodup ∧ (∀ j, j ∈ fl2 ↔ (j = sid ∨ (j ≠ did ∧ j ∈ fl))) := by
  by_cases hdir : oc.alive < c.alive
  · obtain ⟨m1, m2, m3, m4, m5, m6⟩ := Chunk.mergeInto_spec c oc hcdc hctail
    have hrm : tryRemoveFree fl oid (Chunk.mergeFrom oc)
        = (fl.erase oid, { Chunk.mergeFrom oc with in_free_list := false }) :=
      tryRemoveFree_eq fl oid (Chunk.mergeFrom oc) (fun h => hocmem2 h)
    have htfull : (Chunk.mergeInto c oc).is_full Cap = false := by
      unfold Chunk.is_full
      rw [m2]
      exact beq_eq_false_iff_ne.mpr (by omega)
    obtain ⟨a1, a2, a3⟩ := tryAddFree_eq Cap (fl.erase oid) cid (Chunk.mergeInto c oc)
      htfull (m5.trans hcfirst)
      (fun h => (List.Nodup.mem_erase_iff hfl_nodup).mpr ⟨hne, hcmem (m6 ▸ h)⟩)
      (fun h hmem => hcmem2 (m6 ▸ h) (List.mem_of_mem_erase hmem))
      (hfl_nodup.erase oid)
    have hval : do_merge Cap fl cid c oid oc
        = ((cid, (tryAddFree Cap (fl.erase oid) cid (Chunk.mergeInto c oc)).2), oid,
           (tryAddFree Cap (fl.erase oid) cid (Chunk.mergeInto c oc)).1) := by
      unfold do_merge
      rw [decide_eq_true hdir, if_pos rfl]
      show ((cid, (tryAddFree Cap (tryRemoveFree fl oid (Chunk.mergeFrom oc)).1 cid
          (Chunk.mergeInto c oc)).2), oid,
        (tryAddFree Cap (tryRemoveFree fl oid (Chunk.mergeFrom oc)).1 cid
          (Chunk.mergeInto c oc)).1) = _
      rw [hrm]
    refine ⟨cid, oid, _, _, hval, Or.inl ⟨rfl, rfl⟩, ?_, ?_, ?_, ?_, ?_, ?_, a2, ?_⟩
    · rw [a1]
      exact fun j => m1 j
    · rw [a1]
      exact m2
    · rw [a1]
      exact m3
    · rw [a1]
      exact m4
    · rw [a1]
      exact m5.trans hcfirst
    · rw [a1]
    · intro j
      exact (a3 j).trans (or_congr Iff.rfl (List.Nodup.mem_erase_iff hfl_nodup))
  · obtain ⟨m1, m2, m3, m4, m5, m6⟩ := Chunk.mergeInto_spec oc c hocdc hoctail
    have hrm : tryRemoveFree fl cid (Chunk.mergeFrom c)
        = (fl.erase cid, { Chunk.mergeFrom c with in_free_list := false }) :=
      tryRemoveFree_eq fl cid (Chunk.mergeFrom c) (fun h => hcmem2 h)
    have htfull : (Chunk.mergeInto oc c).is_full Cap = false := by
      unfold Chunk.is_full
      rw [m2]
      exact beq_eq_false_iff_ne.mpr (by omega)
    obtain ⟨a1, a2, a3⟩ := tryAddFree_eq Cap (fl.erase cid) oid (Chunk.mergeInto oc c)
      htfull (m5.trans hocfirst)
      (fun h => (List.Nodup.mem_erase_iff hfl_nodup).mpr ⟨fun hx => hne hx.symm, hocmem (m6 ▸ h)⟩)
      (fun h hmem => hocmem2 (m6 ▸ h) (List.mem_of_mem_erase hmem))
      (hfl_nodup.erase cid)
    have hval : do_merge Cap fl cid c oid oc
        = ((oid, (tryAddFree Cap (fl.erase cid) oid (Chunk.mergeInto oc c)).2), cid,
           (tryAddFree Cap (fl.erase cid) oid (Chunk.mergeInto oc c)).1) := by
      unfold do_merge
      rw [decide_eq_false hdir, if_neg Bool.false_ne_true]
      show ((oid, (tryAddFree Cap (tryRemoveFree fl cid (Chunk.mergeFrom c)).1 oid
          (Chunk.mergeInto oc c)).2), cid,
        (tryAddFree Cap (tryRemoveFree fl cid (Chunk.mergeFrom c)).1 oid
          (Chunk.mergeInto oc c)).1) = _
      rw [hrm]
    refine ⟨oid, cid, _, _, hval, Or.inr ⟨rfl, rfl⟩, ?_, ?_, ?_, ?_, ?_, ?_, a2, ?_⟩
    · rw [a1]
      exact fun j => m1 j
    · rw [a1]
      rw [m2]
      omega
    · rw [a1]
      show (Chunk.mergeInto oc c).liveVals = _
      rw [m3]
      exact add_comm _ _
    · rw [a1]
      exact m4
    · rw [a1]
      exact m5.trans hocfirst
    · rw [a1]
    · intro j
      exact (a3 j).trans (or_congr Iff.rfl (List.Nodup.mem_erase_iff hfl_nodup))

end SCA

namespace SCA

/-- Replacing an entry that still relates to both neighbours preserves a
chain. -/
theorem chain'_replace2 {α : Type} {R : α → α → Prop} (l1 l2 : List α) (p q : α)
    (h : List.Chain' R (l1 ++ p :: l2))
    (hleft : ∀ x, l1.getLast? = some x → R x q)
    (hright : ∀ y, l2.head? = some y → R q y) :
    List.Chain' R (l1 ++ q :: l2) := by
  rw [List.chain'_append] at h ⊢
  obtain ⟨h1, h2, _⟩ := h
  rw [List.chain'_cons'] at h2 ⊢
  refine ⟨h1, ⟨fun y hy => hright y hy, h2.2⟩, ?_⟩
  intro x hx y hy
  simp only [List.head?_cons, Option.mem_def, Option.some.injEq] at hy
  rw [← hy]
  exact hleft x hx

/-- A list is its front followed by its last element. -/
theorem dropLast_append_of_getLast? {α : Type} :
    ∀ (l : List α) (a : α), l.getLast? = some a → l.dropLast ++ [a] = l := by
  intro l
  induction l with
  | nil =>
      intro a h
      cases h
  | cons x t ih =>
      intro a h
      rcases t with _ | ⟨y, t'⟩
      · have : a = x := by
          simp [List.getLast?] at h
          exact h.symm
        rw [this]
        rfl
      · have hgl : (y :: t').getLast? = some a := by
          rw [← h]
          rfl
        have := ih a hgl
        rw [show (x :: y :: t').dropLast = x :: (y :: t').dropLast from rfl]
        rw [List.cons_append, this]

/-- The last element of a nonempty tail. -/
theorem getLast?_cons_of_ne_nil {α : Type} (a : α) (l : List α) (h : l ≠ []) :
    (a :: l).getLast? = l.getLast? := by
  rcases l with _ | ⟨y, t⟩
  · exact absurd rfl h
  · rfl

/-- A list with a head is that head followed by its tail. -/
theorem cons_of_head? {α : Type} (l : List α) (a : α) (h : l.head? = some a) :
    l = a :: l.tail := by
  rcases l with _ | ⟨x, t⟩
  · cases h
  · rw [show (x :: t).head? = some x from rfl, Option.some.injEq] at h
    rw [h]
    rfl

/-- Two entries of an id-distinct chain sharing an id coincide. -/
theorem entry_unique (l : List (Nat × Chunk)) (hnodup : (l.map Prod.fst).Nodup)
    (p q : Nat × Chunk) (hp : p ∈ l) (hq : q ∈ l) (hid : p.1 = q.1) : p = q := by
  obtain ⟨a, b, hd⟩ := List.append_of_mem hq
  have hq_eta : q = (q.1, q.2) := rfl
  exact mem_unique_by_id l hnodup a q.1 q.2 b (by rw [hd, ← hq_eta]) p hp hid

/-- An unflagged chunk's id is absent from the registry. -/
theorem flag_false_not_mem (s : CState) (hnodup : (s.chain.map Prod.fst).Nodup)
    (hw9 : ∀ id ∈ s.freeList, ∃ p ∈ s.chain, p.1 = id ∧ p.2.in_free_list = true)
    (p : Nat × Chunk) (hp : p ∈ s.chain) (hf : p.2.in_free_list = false) :
    p.1 ∉ s.freeList := by
  intro hmem
  obtain ⟨q, hq_mem, hq_id, hq_flag⟩ := hw9 p.1 hmem
  have := entry_unique s.chain hnodup q p hq_mem hp hq_id
  rw [this, hf] at hq_flag
  cases hq_flag

end SCA


namespace SCA

/-- The compaction tail of maintenance after an erase on a non-anchor chunk:
the chunk is compacted in place and (re-)registered; well-formedness holds
given the merge-failure bounds towards both neighbours. -/
theorem erase_compact_nonanchor (Cap : Nat) (s : CState) (hwf : WF Cap s)
    (id i : Nat) (pre post : List (Nat × Chunk)) (c : Chunk)
    (hdecomp : s.chain = pre ++ (id, c) :: post)
    (hi : i < c.size) (hal : c.al i = true)
    (hfirstF : c.is_first = false)
    (halive_pos : 1 ≤ (c.erase i).alive)
    (hleft : ∀ x, pre.getLast? = some x → x.2.is_first = false →
        merge_threshold Cap < x.2.alive + (c.erase i).alive)
    (hright : ∀ y, post.head? = some y →
        merge_threshold Cap < (c.erase i).alive + y.2.alive) :
    WF Cap { chain := pre ++ (id, (tryAddFree Cap s.freeList id (c.erase i).compact).2) :: post,
             freeList := (tryAddFree Cap s.freeList id (c.erase i).compact).1,
             nextId := s.nextId } ∧
      liveM { chain := pre ++ (id, (tryAddFree Cap s.freeList id (c.erase i).compact).2) :: post,
              freeList := (tryAddFree Cap s.freeList id (c.erase i).compact).1,
              nextId := s.nextId } + {c.data i} = liveM s := by
  have hwf2 := hwf
  obtain ⟨w1, w2, w3, w4, w5, w6, w7, w8, w9, w10⟩ := hwf2
  have hmemc : (id, c) ∈ s.chain := by
    rw [hdecomp]
    exact List.mem_append_right _ (List.mem_cons_self _ _)
  have hwfc := w1 (id, c) hmemc
  obtain ⟨e1, e2, e3, e4, e5, e6, e7⟩ := Chunk.erase_spec c i hwfc.2.2 hwfc.1 hi
  obtain ⟨k1, k2, k3, k4, k5, k6, k7, k8, k9⟩ := Chunk.compact_spec (c.erase i) e4
  have hsz2 : (c.erase i).compact.size = c.size - 1 := by
    rw [k2]
    omega
  have halive2 : (c.erase i).compact.alive = (c.erase i).alive := by
    unfold Chunk.alive
    rw [k1, hsz2, e3, e2]
    omega
  have hshape2 : ∀ j, (c.erase i).compact.al j
      = decide (j < (c.erase i).compact.size) := by
    intro j
    by_cases hj1 : j < (c.erase i).compact.size
    · rw [k4 j hj1]
      simp [hj1]
    · by_cases hj2 : j < (c.erase i).size
      · rw [k5 j (by omega) hj2]
        simp [hj1]
      · rw [k6 j (by omega), e5 j (by omega)]
        simp [hj1]
  have hfull2 : (c.erase i).compact.is_full Cap = false := by
    unfold Chunk.is_full
    rw [hsz2]
    have h1 : c.size ≤ Cap := hwfc.2.1
    exact beq_eq_false_iff_ne.mpr (by omega)
  have hfirst2 : (c.erase i).compact.is_first = false := by
    rw [k8, e6]
    exact hfirstF
  have hflag2 : (c.erase i).compact.in_free_list = c.in_free_list := by
    rw [k9, e7]
  obtain ⟨a1, a2, a3⟩ := tryAddFree_eq Cap s.freeList id (c.erase i).compact
    hfull2 hfirst2
    (fun h => w10 (id, c) hmemc (hflag2 ▸ h))
    (fun h => flag_false_not_mem s w3 w9 (id, c) hmemc (hflag2 ▸ h))
    w8
  have hchain2 : List.Chain' (fun a b => merge_threshold Cap < a.2.alive + b.2.alive)
      ((pre ++ (id, (tryAddFree Cap s.freeList id (c.erase i).compact).2) :: post).tail) := by
    rcases pre with _ | ⟨p0, pre'⟩
    · exfalso
      rw [hdecomp] at w2
      rw [w2.1] at hfirstF
      cases hfirstF
    · simp only [List.cons_append, List.tail_cons]
      have hold := w6
      rw [hdecomp] at hold
      simp only [List.cons_append, List.tail_cons] at hold
      refine chain'_replace2 pre' post (id, c) _ hold ?_ ?_
      · intro x hx
        have hpre'ne : pre' ≠ [] := by
          intro hn
          rw [hn] at hx
          cases hx
        have hx_mem : x ∈ pre' := by
          have := dropLast_append_of_getLast? pre' x hx
          rw [← this]
          exact List.mem_append_right _ (List.mem_singleton.mpr rfl)
        have hx_first : x.2.is_first = false := by
          have := w2
          rw [hdecomp] at this
          exact this.2 x (List.mem_append_left _ hx_mem)
        have hx_last : (p0 :: pre').getLast? = some x := by
          rw [getLast?_cons_of_ne_nil p0 pre' hpre'ne]
          exact hx
        have hb := hleft x hx_last hx_first
        show merge_threshold Cap
            < x.2.alive + (tryAddFree Cap s.freeList id (c.erase i).compact).2.alive
        rw [a1]
        show merge_threshold Cap < x.2.alive + (c.erase i).compact.alive
        rw [halive2]
        exact hb
      · intro y hy
        have hb := hright y hy
        show merge_threshold Cap
            < (tryAddFree Cap s.freeList id (c.erase i).compact).2.alive + y.2.alive
        rw [a1]
        show merge_threshold Cap < (c.erase i).compact.alive + y.2.alive
        rw [halive2]
        exact hb
  constructor
  · refine WF_replace2 Cap s pre post id c
      ((tryAddFree Cap s.freeList id (c.erase i).compact).2)
      ((tryAddFree Cap s.freeList id (c.erase i).compact).1)
      hwf hdecomp ?_ ?_ ?_ hchain2 ?_ a2 ?_ ?_ ?_
    · rw [a1]
      refine ⟨k1, ?_, ?_⟩
      · show (c.erase i).compact.size ≤ Cap
        rw [hsz2]
        have h1 : c.size ≤ Cap := hwfc.2.1
        omega
      · exact hshape2
    · rw [a1]
      show (c.erase i).compact.is_first = c.is_first
      rw [k8, e6]
    · intro _
      rw [a1]
      show 1 ≤ (c.erase i).compact.alive
      rw [halive2]
      exact halive_pos
    · rw [a1]
      show true = _
      have hfl : ({ (c.erase i).compact with in_free_list := true } : Chunk).is_full Cap
          = false := hfull2
      have hfr : ({ (c.erase i).compact with in_free_list := true } : Chunk).is_first
          = false := hfirst2
      rw [hfl, hfr]
      rfl
    · intro j hj
      rcases (a3 j).mp hj with h | h
      · exact Or.inl ⟨h, by rw [a1]⟩
      · by_cases hje : j = id
        · exact Or.inl ⟨hje, by rw [a1]⟩
        · exact Or.inr ⟨hje, h⟩
    · intro _
      exact (a3 id).mpr (Or.inl rfl)
    · intro j hj _
      exact (a3 j).mpr (Or.inr hj)
  · rw [liveM_decomp
      { chain := pre ++ (id, (tryAddFree Cap s.freeList id (c.erase i).compact).2) :: post,
        freeList := (tryAddFree Cap s.freeList id (c.erase i).compact).1,
        nextId := s.nextId } pre post
      (id, (tryAddFree Cap s.freeList id (c.erase i).compact).2) rfl,
      liveM_decomp s pre post (id, c) hdecomp]
    have hlv : (tryAddFree Cap s.freeList id (c.erase i).compact).2.liveVals
        = (c.erase i).liveVals := by
      rw [a1]
      show (c.erase i).compact.liveVals = _
      exact k7
    rw [hlv, ← e1]
    abel

end SCA

namespace SCA

/-- The merge-with-previous tail of maintenance after an erase: the erased
chunk and its left neighbour fuse into the surviving entry. -/
theorem erase_merge_prev_case (Cap : Nat) (hCap : 0 < Cap) (s : CState) (hwf : WF Cap s)
    (id i : Nat) (dl post : List (Nat × Chunk)) (pp : Nat × Chunk) (c : Chunk)
    (hdecomp : s.chain = dl ++ pp :: (id, c) :: post)
    (hi : i < c.size) (hal : c.al i = true)
    (hfirstF : c.is_first = false)
    (hcm : can_merge Cap (c.erase i) pp.2 = true) :
    WF Cap { chain := dl ++ (do_merge Cap s.freeList id (c.erase i) pp.1 pp.2).1 :: post,
             freeList := (do_merge Cap s.freeList id (c.erase i) pp.1 pp.2).2.2,
             nextId := s.nextId } ∧
      liveM { chain := dl ++ (do_merge Cap s.freeList id (c.erase i) pp.1 pp.2).1 :: post,
              freeList := (do_merge Cap s.freeList id (c.erase i) pp.1 pp.2).2.2,
              nextId := s.nextId } + {c.data i} = liveM s := by
  have hwf2 := hwf
  obtain ⟨w1, w2, w3, w4, w5, w6, w7, w8, w9, w10⟩ := hwf2
  have hmemc : (id, c) ∈ s.chain := by
    rw [hdecomp]
    exact List.mem_append_right _ (List.mem_cons_of_mem _ (List.mem_cons_self _ _))
  have hppmem : pp ∈ s.chain := by
    rw [hdecomp]
    exact List.mem_append_right _ (List.mem_cons_self _ _)
  have hwfc := w1 (id, c) hmemc
  have hwfpp := w1 pp hppmem
  obtain ⟨e1, e2, e3, e4, e5, e6, e7⟩ := Chunk.erase_spec c i hwfc.2.2 hwfc.1 hi
  obtain ⟨hcm1, hcm2⟩ : pp.2.is_first = false
      ∧ (c.erase i).alive + pp.2.alive ≤ merge_threshold Cap := by
    unfold can_merge at hcm
    rw [Bool.and_eq_true, Bool.and_eq_true, Bool.not_eq_true', Bool.not_eq_true',
      decide_eq_true_eq] at hcm
    exact ⟨hcm.1.2, hcm.2⟩
  have hppalive : 1 ≤ pp.2.alive := w5 pp hppmem hcm1
  have hid_ne : id ≠ pp.1 := by
    have hnod := w3
    rw [hdecomp] at hnod
    simp only [List.map_append, List.map_cons, List.nodup_append, List.nodup_cons,
      List.mem_cons] at hnod
    intro h
    exact hnod.2.1.1 (Or.inl h.symm)
  have hcard : Multiset.card c.liveVals = c.size := by
    unfold Chunk.liveVals Chunk.visits
    rw [Multiset.coe_card]
    exact visitsOn_length_all_alive c.data (fun j hj => by rw [hwfc.2.2 j]; simp [hj])
  have hcard1 : Multiset.card (c.erase i).liveVals = (c.erase i).alive := by
    have h5 := congrArg Multiset.card e1
    rw [Multiset.card_add, Multiset.card_singleton, hcard] at h5
    unfold Chunk.alive
    rw [e3, e2]
    omega
  have hcardpp : Multiset.card pp.2.liveVals = pp.2.alive := by
    have hlen : (visitsOn pp.2.al pp.2.data pp.2.size).length = pp.2.size :=
      visitsOn_length_all_alive pp.2.data (fun j hj => by rw [hwfpp.2.2 j]; simp [hj])
    unfold Chunk.liveVals Chunk.visits Chunk.alive
    rw [Multiset.coe_card, hlen, hwfpp.1]
    omega
  have hal1 : (c.erase i).alive + 1 = c.alive := by
    unfold Chunk.alive
    rw [e3, e2, hwfc.1]
    omega
  have hthr : merge_threshold Cap < Cap := Nat.div_lt_self hCap (by omega)
  obtain ⟨sid, did, t2, fl2, hval, hsd, t_al, t_size, t_live, t_del, t_first,
      t_flag, fl_nod, fl_mem⟩ :=
    do_merge_spec Cap s.freeList id (c.erase i) pp.1 pp.2 e4 e5
      (by rw [hwfpp.1]; exact (deadCount_all_alive (fun j h1 h2 => by
        rw [hwfpp.2.2 j]; simp [h2])).symm)
      (fun j hj => by rw [hwfpp.2.2 j]; simp; omega)
      (by rw [e6]; exact hfirstF) hcm1
      (by rw [hcard1, hcardpp]; omega) hid_ne w8
      (fun h => w10 (id, c) hmemc (e7 ▸ h))
      (fun h => flag_false_not_mem s w3 w9 (id, c) hmemc (e7 ▸ h))
      (fun h => w10 pp hppmem h)
      (fun h => flag_false_not_mem s w3 w9 pp hppmem h)
  rw [hval]
  show WF Cap { chain := dl ++ (sid, t2) :: post, freeList := fl2, nextId := s.nextId }
    ∧ liveM { chain := dl ++ (sid, t2) :: post, freeList := fl2, nextId := s.nextId }
      + {c.data i} = liveM s
  have ht2alive : t2.alive = (c.erase i).alive + pp.2.alive := by
    have h1 : t2.alive = t2.size - t2.deleted := rfl
    rw [h1, t_del, t_size, hcard1, hcardpp]
    omega
  have ht2full : t2.is_full Cap = false := by
    unfold Chunk.is_full
    rw [t_size]
    exact beq_eq_false_iff_ne.mpr (by rw [hcard1, hcardpp]; omega)
  constructor
  · refine WF_merge2 Cap s dl post pp (id, c) sid t2 fl2 hwf hdecomp ?_
      ⟨t_del, ?_, t_al⟩ t_first hcm1 ?_ ?_ ?_ ?_ fl_nod ?_ ?_ ?_
    · rcases hsd with h | h
      · exact Or.inr h.1
      · exact Or.inl h.1
    · rw [t_size, hcard1, hcardpp]
      omega
    · omega
    · show pp.2.alive ≤ t2.alive
      omega
    · show c.alive ≤ t2.alive
      omega
    · rw [t_flag, ht2full, t_first]
      rfl
    · intro j hj
      by_cases hjs : j = sid
      · exact Or.inl ⟨hjs, t_flag⟩
      · rcases (fl_mem j).mp hj with h | ⟨h1, h2⟩
        · exact absurd h hjs
        · rcases hsd with hs | hs
          · exact Or.inr ⟨by rw [← hs.2]; exact h1, by rw [← hs.1]; exact hjs, h2⟩
          · exact Or.inr ⟨by rw [← hs.1]; exact hjs, by rw [← hs.2]; exact h1, h2⟩
    · intro _
      exact (fl_mem sid).mpr (Or.inl rfl)
    · intro j hj hja hjb
      refine (fl_mem j).mpr (Or.inr ⟨?_, hj⟩)
      rcases hsd with hs | hs
      · rw [hs.2]
        exact hja
      · rw [hs.2]
        exact hjb
  · rw [liveM_decomp
      { chain := dl ++ (sid, t2) :: post, freeList := fl2, nextId := s.nextId }
      dl post (sid, t2) rfl,
      liveM_decomp2 s dl post pp (id, c) hdecomp]
    show (dl.map (fun q => q.2.liveVals)).sum + t2.liveVals
        + (post.map (fun q => q.2.liveVals)).sum + {c.data i} = _
    rw [t_live, ← e1]
    abel

end SCA

namespace SCA

/-- The merge-with-next tail of maintenance after an erase: the erased chunk
and its right neighbour fuse into the surviving entry. -/
theorem erase_merge_next_case (Cap : Nat) (hCap : 0 < Cap) (s : CState) (hwf : WF Cap s)
    (id i : Nat) (pre tl : List (Nat × Chunk)) (np : Nat × Chunk) (c : Chunk)
    (hdecomp : s.chain = pre ++ (id, c) :: np :: tl)
    (hi : i < c.size) (hal : c.al i = true)
    (hfirstF : c.is_first = false)
    (hcm : can_merge Cap (c.erase i) np.2 = true) :
    WF Cap { chain := pre ++ (do_merge Cap s.freeList id (c.erase i) np.1 np.2).1 :: tl,
             freeList := (do_merge Cap s.freeList id (c.erase i) np.1 np.2).2.2,
             nextId := s.nextId } ∧
      liveM { chain := pre ++ (do_merge Cap s.freeList id (c.erase i) np.1 np.2).1 :: tl,
              freeList := (do_merge Cap s.freeList id (c.erase i) np.1 np.2).2.2,
              nextId := s.nextId } + {c.data i} = liveM s := by
  have hwf2 := hwf
  obtain ⟨w1, w2, w3, w4, w5, w6, w7, w8, w9, w10⟩ := hwf2
  have hmemc : (id, c) ∈ s.chain := by
    rw [hdecomp]
    exact List.mem_append_right _ (List.mem_cons_self _ _)
  have hnpmem : np ∈ s.chain := by
    rw [hdecomp]
    exact List.mem_append_right _ (List.mem_cons_of_mem _ (List.mem_cons_self _ _))
  have hwfc := w1 (id, c) hmemc
  have hwfnp := w1 np hnpmem
  obtain ⟨e1, e2, e3, e4, e5, e6, e7⟩ := Chunk.erase_spec c i hwfc.2.2 hwfc.1 hi
  obtain ⟨hcm1, hcm2⟩ : np.2.is_first = false
      ∧ (c.erase i).alive + np.2.alive ≤ merge_threshold Cap := by
    unfold can_merge at hcm
    rw [Bool.and_eq_true, Bool.and_eq_true, Bool.not_eq_true', Bool.not_eq_true',
      decide_eq_true_eq] at hcm
    exact ⟨hcm.1.2, hcm.2⟩
  have hnpalive : 1 ≤ np.2.alive := w5 np hnpmem hcm1
  have hid_ne : id ≠ np.1 := by
    have hnod := w3
    rw [hdecomp] at hnod
    simp only [List.map_append, List.map_cons, List.nodup_append, List.nodup_cons,
      List.mem_cons] at hnod
    intro h
    exact hnod.2.1.1 (Or.inl h)
  have hcard : Multiset.card c.liveVals = c.size := by
    unfold Chunk.liveVals Chunk.visits
    rw [Multiset.coe_card]
    exact visitsOn_length_all_alive c.data (fun j hj => by rw [hwfc.2.2 j]; simp [hj])
  have hcard1 : Multiset.card (c.erase i).liveVals = (c.erase i).alive := by
    have h5 := congrArg Multiset.card e1
    rw [Multiset.card_add, Multiset.card_singleton, hcard] at h5
    unfold Chunk.alive
    rw [e3, e2]
    omega
  have hcardnp : Multiset.card np.2.liveVals = np.2.alive := by
    have hlen : (visitsOn np.2.al np.2.data np.2.size).length = np.2.size :=
      visitsOn_length_all_alive np.2.data (fun j hj => by rw [hwfnp.2.2 j]; simp [hj])
    unfold Chunk.liveVals Chunk.visits Chunk.alive
    rw [Multiset.coe_card, hlen, hwfnp.1]
    omega
  have hal1 : (c.erase i).alive + 1 = c.alive := by
    unfold Chunk.alive
    rw [e3, e2, hwfc.1]
    omega
  have hthr : merge_threshold Cap < Cap := Nat.div_lt_self hCap (by omega)
  obtain ⟨sid, did, t2, fl2, hval, hsd, t_al, t_size, t_live, t_del, t_first,
      t_flag, fl_nod, fl_mem⟩ :=
    do_merge_spec Cap s.freeList id (c.erase i) np.1 np.2 e4 e5
      (by rw [hwfnp.1]; exact (deadCount_all_alive (fun j h1 h2 => by
        rw [hwfnp.2.2 j]; simp [h2])).symm)
      (fun j hj => by rw [hwfnp.2.2 j]; simp; omega)
      (by rw [e6]; exact hfirstF) hcm1
      (by rw [hcard1, hcardnp]; omega) hid_ne w8
      (fun h => w10 (id, c) hmemc (e7 ▸ h))
      (fun h => flag_false_not_mem s w3 w9 (id, c) hmemc (e7 ▸ h))
      (fun h => w10 np hnpmem h)
      (fun h => flag_false_not_mem s w3 w9 np hnpmem h)
  rw [hval]
  show WF Cap { chain := pre ++ (sid, t2) :: tl, freeList := fl2, nextId := s.nextId }
    ∧ liveM { chain := pre ++ (sid, t2) :: tl, freeList := fl2, nextId := s.nextId }
      + {c.data i} = liveM s
  have ht2alive : t2.alive = (c.erase i).alive + np.2.alive := by
    have h1 : t2.alive = t2.size - t2.deleted := rfl
    rw [h1, t_del, t_size, hcard1, hcardnp]
    omega
  have ht2full : t2.is_full Cap = false := by
    unfold Chunk.is_full
    rw [t_size]
    exact beq_eq_false_iff_ne.mpr (by rw [hcard1, hcardnp]; omega)
  constructor
  · refine WF_merge2 Cap s pre tl (id, c) np sid t2 fl2 hwf hdecomp ?_
      ⟨t_del, ?_, t_al⟩ t_first hfirstF ?_ ?_ ?_ ?_ fl_nod ?_ ?_ ?_
    · rcases hsd with h | h
      · exact Or.inl h.1
      · exact Or.inr h.1
    · rw [t_size, hcard1, hcardnp]
      omega
    · omega
    · show c.alive ≤ t2.alive
      omega
    · show np.2.alive ≤ t2.alive
      omega
    · rw [t_flag, ht2full, t_first]
      rfl
    · intro j hj
      by_cases hjs : j = sid
      · exact Or.inl ⟨hjs, t_flag⟩
      · rcases (fl_mem j).mp hj with h | ⟨h1, h2⟩
        · exact absurd h hjs
        · rcases hsd with hs | hs
          · exact Or.inr ⟨by rw [← hs.1]; exact hjs, by rw [← hs.2]; exact h1, h2⟩
          · exact Or.inr ⟨by rw [← hs.2]; exact h1, by rw [← hs.1]; exact hjs, h2⟩
    · intro _
      exact (fl_mem sid).mpr (Or.inl rfl)
    · intro j hj hja hjb
      refine (fl_mem j).mpr (Or.inr ⟨?_, hj⟩)
      rcases hsd with hs | hs
      · rw [hs.2]
        exact hjb
      · rw [hs.2]
        exact hja
  · rw [liveM_decomp
      { chain := pre ++ (sid, t2) :: tl, freeList := fl2, nextId := s.nextId }
      pre tl (sid, t2) rfl,
      liveM_decomp2 s pre tl (id, c) np hdecomp]
    show (pre.map (fun q => q.2.liveVals)).sum + t2.liveVals
        + (tl.map (fun q => q.2.liveVals)).sum + {c.data i} = _
    rw [t_live, ← e1]
    abel

end SCA

namespace SCA

/-- Erasing preserves well-formedness and removes exactly the cursor's value
from the live multiset (a no-op for an invalid cursor), through whichever
maintenance path — deletion, merge left or right, compaction, or none —
the freshly dead slot triggers. -/
theorem eraseOp_spec (Cap : Nat) (hCap : 0 < Cap) (s : CState) (hwf : WF Cap s) (id i : Nat) :
    WF Cap (eraseOp Cap s id i) ∧ liveM (eraseOp Cap s id i) + eraseVal s id i = liveM s := by
  have hwf2 := hwf
  obtain ⟨w1, w2, w3, w4, w5, w6, w7, w8, w9, w10⟩ := hwf2
  rcases hsplit : splitChain s.chain id with _ | ⟨pre, c, post⟩
  · unfold eraseOp eraseVal
    rw [hsplit]
    exact ⟨hwf, by simp⟩
  · obtain ⟨hdecomp, _⟩ := splitChain_eq_some s.chain id pre c post hsplit
    by_cases hvalid : i < c.size ∧ c.al i
    · -- a valid cursor: mark dead, then maintenance
      have heq : eraseOp Cap s id i = (maintain Cap
          { chain := pre ++ (id, c.erase i) :: post, freeList := s.freeList,
            nextId := s.nextId } id).1 := by
        unfold eraseOp
        simp only [hsplit]
        rw [if_pos hvalid]
      have hev : eraseVal s id i = {c.data i} := by
        unfold eraseVal
        simp only [hsplit]
        rw [if_pos hvalid]
      rw [heq, hev]
      have hmemc : (id, c) ∈ s.chain := by
        rw [hdecomp]
        exact List.mem_append_right _ (List.mem_cons_self _ _)
      have hwfc := w1 (id, c) hmemc
      obtain ⟨e1, e2, e3, e4, e5, e6, e7⟩ := Chunk.erase_spec c i hwfc.2.2 hwfc.1 hvalid.1
      have hal1 : (c.erase i).alive + 1 = c.alive := by
        unfold Chunk.alive
        rw [e3, e2, hwfc.1]
        omega
      have hcard : Multiset.card c.liveVals = c.size := by
        unfold Chunk.liveVals Chunk.visits
        rw [Multiset.coe_card]
        exact visitsOn_length_all_alive c.data (fun j hj => by rw [hwfc.2.2 j]; simp [hj])
      have hcard1 : Multiset.card (c.erase i).liveVals = (c.erase i).alive := by
        have h5 := congrArg Multiset.card e1
        rw [Multiset.card_add, Multiset.card_singleton, hcard] at h5
        unfold Chunk.alive
        rw [e3, e2]
        omega
      have hids1 : List.map Prod.fst (pre ++ (id, c.erase i) :: post)
          = List.map Prod.fst s.chain := by
        rw [hdecomp]
        simp
      have hnod1 : (List.map Prod.fst (pre ++ (id, c.erase i) :: post)).Nodup := by
        rw [hids1]
        exact w3
      have hsplit1 : splitChain (pre ++ (id, c.erase i) :: post) id
          = some (pre, c.erase i, post) :=
        splitChain_of_mem_nodup _ hnod1 pre (id, c.erase i) post rfl
      have hcflag_mem : c.in_free_list = true → id ∈ s.freeList := w10 (id, c) hmemc
      have hcflag_nm : c.in_free_list = false → id ∉ s.freeList :=
        fun hf => flag_false_not_mem s w3 w9 (id, c) hmemc hf
      have hflags : (!(c.erase i).is_first
          && decide ((c.erase i).alive ≤ merge_threshold Cap)
          || decide (0 < (c.erase i).deleted)) = true := by
        rw [e2]
        simp
      by_cases hdelP : (c.erase i).alive = 0 ∧ c.is_first = false
      · -- try_delete fires: the chunk empties and leaves the chain
        have hdel : (decide ((c.erase i).alive = 0) && !(c.erase i).is_first) = true := by
          rw [e6, hdelP.1, hdelP.2]
          rfl
        have hm := maintain_delete Cap
          { chain := pre ++ (id, c.erase i) :: post, freeList := s.freeList,
            nextId := s.nextId } id pre (c.erase i) post hsplit1 hflags hdel
        rw [hm]
        have hfl2 : (tryRemoveFree s.freeList id (c.erase i)).1 = s.freeList.erase id := by
          rw [tryRemoveFree_eq s.freeList id (c.erase i) (fun h => hcflag_nm (e7 ▸ h))]
        have hc_alive : c.alive = 1 := by omega
        have hchain2 : List.Chain' (fun a b => merge_threshold Cap < a.2.alive + b.2.alive)
            ((pre ++ post).tail) := by
          rcases pre with _ | ⟨p0, pre'⟩
          · have hold : List.Chain' (fun a b => merge_threshold Cap < a.2.alive + b.2.alive)
                post := by
              have := w6
              rw [hdecomp] at this
              exact this
            exact hold.tail
          · simp only [List.cons_append, List.tail_cons]
            have hold := w6
            rw [hdecomp] at hold
            simp only [List.cons_append, List.tail_cons] at hold
            refine chain'_remove pre' post (id, c) hold ?_
            intro x y hx hy
            have hxl := chain'_left pre' post (id, c) hold x hx
            have hymem : y ∈ post := List.mem_of_mem_head? hy
            have hy_chain : y ∈ s.chain := by
              rw [hdecomp]
              exact List.mem_append_right _ (List.mem_cons_of_mem _ hymem)
            have hy_first : y.2.is_first = false := by
              have := w2
              rw [hdecomp] at this
              exact this.2 y (List.mem_append_right _ (List.mem_cons_of_mem _ hymem))
            have hy_alive := w5 y hy_chain hy_first
            show merge_threshold Cap < x.2.alive + y.2.alive
            have : merge_threshold Cap < x.2.alive + c.alive := hxl
            omega
        constructor
        · have := WF_delete Cap s pre post id c hwf hdecomp hdelP.2 hchain2
          rw [hfl2]
          exact this
        · have hlive1_zero : (c.erase i).liveVals = 0 := by
            rw [← Multiset.card_eq_zero, hcard1, hdelP.1]
          have hc_live : c.liveVals = ({c.data i} : Multiset Nat) := by
            rw [← e1, hlive1_zero, zero_add]
          have hnew : liveM
              { chain := pre ++ post,
                freeList := (tryRemoveFree s.freeList id (c.erase i)).1,
                nextId := s.nextId }
              = (pre.map (fun q => q.2.liveVals)).sum
                + (post.map (fun q => q.2.liveVals)).sum := by
            unfold liveM
            simp only
            rw [List.map_append, List.sum_append]
          rw [hnew, liveM_decomp s pre post (id, c) hdecomp, hc_live]
          abel
      · -- the chunk stays in the chain: merge, compact, or nothing
        have hdel : (decide ((c.erase i).alive = 0) && !(c.erase i).is_first) = false := by
          rw [e6]
          rcases h1 : decide ((c.erase i).alive = 0) with _ | _
          · rfl
          · rcases h2 : c.is_first with _ | _
            · exact absurd ⟨of_decide_eq_true h1, h2⟩ hdelP
            · rfl
        by_cases hfirstP : c.is_first = true
        · -- the anchor: merging is never wanted, compaction runs
          have hnm : (!(c.erase i).is_first
              && decide ((c.erase i).alive ≤ merge_threshold Cap)) = false := by
            rw [e6, hfirstP]
            rfl
          have hm := maintain_compact Cap
            { chain := pre ++ (id, c.erase i) :: post, freeList := s.freeList,
              nextId := s.nextId } id pre (c.erase i) post hsplit1 hflags hdel
            (fun h => absurd h (by rw [hnm]; exact Bool.false_ne_true))
            (fun h => absurd h (by rw [hnm]; exact Bool.false_ne_true))
            (by rw [e2]; rfl)
          rw [hm]
          have hpre_nil : pre = [] := by
            rcases pre with _ | ⟨p0, pre'⟩
            · rfl
            · exfalso
              have hsh := w2
              rw [hdecomp] at hsh
              have h2 := hsh.2 (id, c)
                (List.mem_append_right _ (List.mem_cons_self _ _))
              rw [h2] at hfirstP
              cases hfirstP
          subst hpre_nil
          obtain ⟨k1, k2, k3, k4, k5, k6, k7, k8, k9⟩ := Chunk.compact_spec (c.erase i) e4
          have hc2first : (c.erase i).compact.is_first = true := by
            rw [k8, e6]
            exact hfirstP
          have hta : tryAddFree Cap s.freeList id (c.erase i).compact
              = (s.freeList, (c.erase i).compact) :=
            tryAddFree_of_first Cap s.freeList id (c.erase i).compact hc2first
          rw [hta]
          have hsz2 : (c.erase i).compact.size = c.size - 1 := by
            rw [k2]
            omega
          have hshape2 : ∀ j, (c.erase i).compact.al j
              = decide (j < (c.erase i).compact.size) := by
            intro j
            by_cases hj1 : j < (c.erase i).compact.size
            · rw [k4 j hj1]
              simp [hj1]
            · by_cases hj2 : j < (c.erase i).size
              · rw [k5 j (by omega) hj2]
                simp [hj1]
              · rw [k6 j (by omega), e5 j (by omega)]
                simp [hj1]
          have hcflagF : c.in_free_list = false := by
            rw [w7 (id, c) hmemc, hfirstP]
            simp
          have hdecomp0 : s.chain = (id, c) :: post := hdecomp
          constructor
          · refine ⟨?_, ?_, ?_, ?_, ?_, ?_, ?_, w8, ?_, ?_⟩
            · intro p hp
              simp only [List.nil_append, List.mem_cons] at hp
              rcases hp with h | h
              · rw [h]
                refine ⟨k1, ?_, hshape2⟩
                rw [hsz2]
                have h1 : c.size ≤ Cap := hwfc.2.1
                omega
              · exact w1 p (by rw [hdecomp0]; exact List.mem_cons_of_mem _ h)
            · refine ⟨hc2first, ?_⟩
              intro p hp
              have hsh := w2
              rw [hdecomp0] at hsh
              exact hsh.2 p hp
            · show (List.map Prod.fst ([] ++ (id, (c.erase i).compact) :: post)).Nodup
              have hw := w3
              rw [hdecomp0] at hw
              simpa using hw
            · intro p hp
              simp only [List.nil_append, List.mem_cons] at hp
              rcases hp with h | h
              · rw [h]
                exact w4 (id, c) hmemc
              · exact w4 p (by rw [hdecomp0]; exact List.mem_cons_of_mem _ h)
            · intro p hp
              simp only [List.nil_append, List.mem_cons] at hp
              rcases hp with h | h
              · rw [h]
                intro hcontra
                simp only at hcontra
                rw [hc2first] at hcontra
                cases hcontra
              · exact w5 p (by rw [hdecomp0]; exact List.mem_cons_of_mem _ h)
            · show List.Chain' _ post
              have hw := w6
              rw [hdecomp0] at hw
              exact hw
            · intro p hp
              simp only [List.nil_append, List.mem_cons] at hp
              rcases hp with h | h
              · rw [h]
                show (c.erase i).compact.in_free_list = _
                rw [k9, e7, hcflagF, hc2first]
                simp
              · exact w7 p (by rw [hdecomp0]; exact List.mem_cons_of_mem _ h)
            · intro j hj
              obtain ⟨p, hp_mem, hp_id, hp_flag⟩ := w9 j hj
              rw [hdecomp0] at hp_mem
              rcases List.mem_cons.mp hp_mem with h | h
              · exfalso
                rw [h] at hp_flag
                simp only at hp_flag
                rw [hcflagF] at hp_flag
                cases hp_flag
              · exact ⟨p, List.mem_cons_of_mem _ h, hp_id, hp_flag⟩
            · intro p hp hpf
              simp only [List.nil_append, List.mem_cons] at hp
              rcases hp with h | h
              · exfalso
                rw [h] at hpf
                simp only at hpf
                rw [k9, e7, hcflagF] at hpf
                cases hpf
              · exact w10 p (by rw [hdecomp0]; exact List.mem_cons_of_mem _ h) hpf
          · have hnew : liveM
                { chain := [] ++ (id, (c.erase i).compact) :: post,
                  freeList := s.freeList, nextId := s.nextId }
                = (c.erase i).compact.liveVals
                  + (post.map (fun q => q.2.liveVals)).sum := by
              unfold liveM
              simp
            rw [hnew, k7]
            have hold : liveM s = c.liveVals + (post.map (fun q => q.2.liveVals)).sum := by
              unfold liveM
              rw [hdecomp0]
              simp
            rw [hold, ← e1]
            abel
        · -- a non-anchor chunk
          have hfirstF : c.is_first = false := by
            rcases h2 : c.is_first with _ | _
            · rfl
            · exact absurd h2 hfirstP
          have halive_pos : 1 ≤ (c.erase i).alive := by
            rcases Nat.eq_zero_or_pos ((c.erase i).alive) with h | h
            · exact absurd ⟨h, hfirstF⟩ hdelP
            · exact h
          by_cases hnmP : (c.erase i).alive ≤ merge_threshold Cap
          · -- merging wanted: previous neighbour, then next, else compact
            have hnm : (!(c.erase i).is_first
                && decide ((c.erase i).alive ≤ merge_threshold Cap)) = true := by
              rw [e6, hfirstF]
              simp [hnmP]
            rcases hpl : pre.getLast? with _ | pp
            · exfalso
              have hpre_nil : pre = [] := by
                rcases pre with _ | ⟨p0, pre'⟩
                · rfl
                · rw [List.getLast?_eq_none_iff] at hpl
                  cases hpl
              rw [hpre_nil] at hdecomp
              have hsh := w2
              rw [hdecomp] at hsh
              rw [hsh.1] at hfirstF
              cases hfirstF
            · by_cases hcm : can_merge Cap (c.erase i) pp.2 = true
              · -- merge with the previous chunk
                have hm := maintain_merge_prev Cap
                  { chain := pre ++ (id, c.erase i) :: post, freeList := s.freeList,
                    nextId := s.nextId } id pre (c.erase i) post pp hsplit1 hdel hnm hpl hcm
                rw [hm]
                have hdl := dropLast_append_of_getLast? pre pp hpl
                have hdecomp2 : s.chain = pre.dropLast ++ pp :: (id, c) :: post := by
                  rw [hdecomp]
                  conv_lhs => rw [← hdl]
                  simp
                exact erase_merge_prev_case Cap hCap s hwf id i pre.dropLast post pp c
                  hdecomp2 hvalid.1 hvalid.2 hfirstF hcm
              · rcases hph : post.head? with _ | np
                · -- no next neighbour: compact
                  have hm := maintain_compact Cap
                    { chain := pre ++ (id, c.erase i) :: post, freeList := s.freeList,
                      nextId := s.nextId } id pre (c.erase i) post hsplit1 hflags hdel
                    (fun _ pp2 hpl2 => by
                      rw [hpl] at hpl2
                      have hpp := Option.some.inj hpl2
                      rw [← hpp]
                      exact Bool.eq_false_iff.mpr hcm)
                    (fun _ np2 hph2 => by rw [hph] at hph2; cases hph2)
                    (by rw [e2]; rfl)
                  rw [hm]
                  refine erase_compact_nonanchor Cap s hwf id i pre post c hdecomp
                    hvalid.1 hvalid.2 hfirstF halive_pos ?_ ?_
                  · intro x hx hxf
                    have hxp : x = pp := by
                      rw [hpl] at hx
                      exact (Option.some.inj hx).symm
                    subst hxp
                    have hcmf : can_merge Cap (c.erase i) x.2 = false :=
                      Bool.eq_false_iff.mpr hcm
                    unfold can_merge at hcmf
                    rw [e6, hfirstF, hxf] at hcmf
                    simp at hcmf
                    omega
                  · intro y hy
                    rw [hph] at hy
                    cases hy
                · by_cases hcm2 : can_merge Cap (c.erase i) np.2 = true
                  · -- merge with the next chunk
                    have hm := maintain_merge_next Cap
                      { chain := pre ++ (id, c.erase i) :: post, freeList := s.freeList,
                        nextId := s.nextId } id pre (c.erase i) post np hsplit1 hdel hnm
                      (fun pp2 hpl2 => by
                        rw [hpl] at hpl2
                        have hpp := Option.some.inj hpl2
                        rw [← hpp]
                        exact Bool.eq_false_iff.mpr hcm)
                      hph hcm2
                    rw [hm]
                    have hpost_eq : post = np :: post.tail := cons_of_head? post np hph
                    have hdecomp2 : s.chain = pre ++ (id, c) :: np :: post.tail := by
                      rw [hdecomp]
                      conv_lhs => rw [hpost_eq]
                    exact erase_merge_next_case Cap hCap s hwf id i pre post.tail np c
                      hdecomp2 hvalid.1 hvalid.2 hfirstF hcm2
                  · -- neither neighbour mergeable: compact
                    have hm := maintain_compact Cap
                      { chain := pre ++ (id, c.erase i) :: post, freeList := s.freeList,
                        nextId := s.nextId } id pre (c.erase i) post hsplit1 hflags hdel
                      (fun _ pp2 hpl2 => by
                        rw [hpl] at hpl2
                        have hpp := Option.some.inj hpl2
                        rw [← hpp]
                        exact Bool.eq_false_iff.mpr hcm)
                      (fun _ np2 hph2 => by
                        rw [hph] at hph2
                        have hnp := Option.some.inj hph2
                        rw [← hnp]
                        exact Bool.eq_false_iff.mpr hcm2)
                      (by rw [e2]; rfl)
                    rw [hm]
                    refine erase_compact_nonanchor Cap s hwf id i pre post c hdecomp
                      hvalid.1 hvalid.2 hfirstF halive_pos ?_ ?_
                    · intro x hx hxf
                      have hxp : x = pp := by
                        rw [hpl] at hx
                        exact (Option.some.inj hx).symm
                      subst hxp
                      have hcmf : can_merge Cap (c.erase i) x.2 = false :=
                        Bool.eq_false_iff.mpr hcm
                      unfold can_merge at hcmf
                      rw [e6, hfirstF, hxf] at hcmf
                      simp at hcmf
                      omega
                    · intro y hy
                      have hymem : y ∈ post := List.mem_of_mem_head? hy
                      have hyfirst : y.2.is_first = false := by
                        rcases hpre2 : pre with _ | ⟨p0, pre'⟩
                        · rw [hpre2] at hpl
                          cases hpl
                        · have hsh := w2
                          rw [hdecomp, hpre2] at hsh
                          exact hsh.2 y (List.mem_append_right _
                            (List.mem_cons_of_mem _ hymem))
                      have hyp : y = np := by
                        rw [hph] at hy
                        exact (Option.some.inj hy).symm
                      have hcmf : can_merge Cap (c.erase i) y.2 = false := by
                        rw [hyp]
                        exact Bool.eq_false_iff.mpr hcm2
                      unfold can_merge at hcmf
                      rw [e6, hfirstF, hyfirst] at hcmf
                      simp at hcmf
                      omega
          · -- merging not wanted: the chunk stays above the threshold; compact
            have hnm : (!(c.erase i).is_first
                && decide ((c.erase i).alive ≤ merge_threshold Cap)) = false := by
              rw [e6, hfirstF]
              simp [hnmP]
            have hm := maintain_compact Cap
              { chain := pre ++ (id, c.erase i) :: post, freeList := s.freeList,
                nextId := s.nextId } id pre (c.erase i) post hsplit1 hflags hdel
              (fun h => absurd h (by rw [hnm]; exact Bool.false_ne_true))
              (fun h => absurd h (by rw [hnm]; exact Bool.false_ne_true))
              (by rw [e2]; rfl)
            rw [hm]
            exact erase_compact_nonanchor Cap s hwf id i pre post c hdecomp
              hvalid.1 hvalid.2 hfirstF halive_pos
              (fun x _ _ => by omega)
              (fun y _ => by omega)
    · -- invalid cursor: documented double-erase misuse, a no-op
      unfold eraseOp eraseVal
      simp only [hsplit]
      rw [if_neg hvalid, if_neg hvalid]
      exact ⟨hwf, by simp⟩

end SCA

namespace SCA

/-- A default-constructed container is well-formed. -/
theorem WF_initState (Cap : Nat) : WF Cap initState := by
  refine ⟨?_, trivial, ?_, ?_, ?_, ?_, ?_, ?_, ?_, ?_⟩
  · intro p hp
    cases hp
  · simp [initState]
  · intro p hp
    cases hp
  · intro p hp
    cases hp
  · simp [initState]
  · intro p hp
    cases hp
  · exact List.nodup_nil
  · intro j hj
    cases hj
  · intro p hp
    cases hp

/-- One erase step of the erased-values accounting. -/
theorem erasedFrom_cons_erase (Cap : Nat) (s : CState) (id i : Nat) (t : List Op) :
    erasedFrom Cap s (Op.erase id i :: t)
      = eraseVal s id i + erasedFrom Cap (step Cap s (Op.erase id i)) t := by
  have h0 : erasedFrom Cap s (Op.erase id i :: t)
      = (match splitChain s.chain id with
         | none => erasedFrom Cap (step Cap s (Op.erase id i)) t
         | some (_, c, _) =>
             if i < c.size ∧ c.al i then
               {c.data i} + erasedFrom Cap (step Cap s (Op.erase id i)) t
             else erasedFrom Cap (step Cap s (Op.erase id i)) t) := rfl
  rw [h0]
  unfold eraseVal
  rcases hsp : splitChain s.chain id with _ | ⟨pre, c, post⟩
  · simp only [hsp]
    rw [zero_add]
  · simp only [hsp]
    by_cases hv : i < c.size ∧ c.al i = true
    · rw [if_pos hv, if_pos hv]
    · rw [if_neg hv, if_neg hv, zero_add]

/-- Running any operation sequence preserves well-formedness, and the live
multiset plus the erased values accounts exactly for the insertions. -/
theorem run_preserve (Cap : Nat) (hCap : 0 < Cap) :
    ∀ (ops : List Op) (s : CState), WF Cap s →
      WF Cap (ops.foldl (step Cap) s) ∧
        liveM (ops.foldl (step Cap) s) + erasedFrom Cap s ops
          = liveM s + inserted ops := by
  intro ops
  induction ops with
  | nil =>
      intro s hwf
      refine ⟨hwf, ?_⟩
      show liveM s + 0 = liveM s + 0
      rfl
  | cons op t ih =>
      intro s hwf
      rcases op with v | ⟨id, i⟩
      · obtain ⟨hwf1, hlm1⟩ := emplaceOp_spec Cap hCap s hwf v
        obtain ⟨hwf2, hlm2⟩ := ih (emplaceOp Cap s v) hwf1
        refine ⟨hwf2, ?_⟩
        show liveM (t.foldl (step Cap) (emplaceOp Cap s v))
            + erasedFrom Cap (step Cap s (Op.emplace v)) t
          = liveM s + ({v} + inserted t)
        rw [show step Cap s (Op.emplace v) = emplaceOp Cap s v from rfl, hlm2, hlm1]
        rw [add_assoc]
      · obtain ⟨hwf1, hlm1⟩ := eraseOp_spec Cap hCap s hwf id i
        obtain ⟨hwf2, hlm2⟩ := ih (eraseOp Cap s id i) hwf1
        refine ⟨hwf2, ?_⟩
        show liveM (t.foldl (step Cap) (eraseOp Cap s id i))
            + erasedFrom Cap s (Op.erase id i :: t)
          = liveM s + inserted t
        rw [erasedFrom_cons_erase,
          show step Cap s (Op.erase id i) = eraseOp Cap s id i from rfl]
        have h3 : liveM (t.foldl (step Cap) (eraseOp Cap s id i))
            + (eraseVal s id i + erasedFrom Cap (eraseOp Cap s id i) t)
            = (liveM (t.foldl (step Cap) (eraseOp Cap s id i))
                + erasedFrom Cap (eraseOp Cap s id i) t) + eraseVal s id i := by
          abel
        rw [h3, hlm2]
        have h4 : liveM (eraseOp Cap s id i) + inserted t + eraseVal s id i
            = (liveM (eraseOp Cap s id i) + eraseVal s id i) + inserted t := by
          abel
        rw [h4, hlm1]

end SCA

namespace SCA

/-! ## Claim C1 -/

/-- C1: for every single-threaded sequence of emplace and erase operations
run on a fresh container, a subsequent `iterate` visits exactly the multiset
of inserted values minus the validly erased ones — each surviving element
once, no erased or phantom element — through all the compactions, merges and
chunk deletions maintenance performed along the way. -/
theorem claim_C1_iterate_multiset (Cap : Nat) (hCap : 0 < Cap) (ops : List Op) :
    ((iterateOp Cap (run Cap ops)).1 : Multiset Nat) + erasedFrom Cap initState ops
      = inserted ops := by
  obtain ⟨hwf, hlm⟩ := run_preserve Cap hCap ops initState (WF_initState Cap)
  have hlm2 : liveM (run Cap ops) + erasedFrom Cap initState ops = inserted ops := by
    have hinit : liveM initState = 0 := rfl
    rw [show run Cap ops = ops.foldl (step Cap) initState from rfl, hlm, hinit, zero_add]
  rw [iterateOp_wf Cap (run Cap ops) hwf]
  show (((run Cap ops).chain.map (fun p => p.2.visits)).join : Multiset Nat)
      + erasedFrom Cap initState ops = inserted ops
  rw [liveM_eq_join]
  exact hlm2

/-- Witness for C1 at capacity 4 with two insertions and one valid erase:
the iteration sees exactly the surviving value. -/
theorem claim_C1_iterate_multiset_witness :
    0 < 4 ∧ ((iterateOp 4 (run 4 [Op.emplace 7, Op.emplace 9, Op.erase 0 0])).1 : Multiset Nat)
        + erasedFrom 4 initState [Op.emplace 7, Op.emplace 9, Op.erase 0 0]
      = inserted [Op.emplace 7, Op.emplace 9, Op.erase 0 0] :=
  ⟨by decide, claim_C1_iterate_multiset 4 (by decide) [Op.emplace 7, Op.emplace 9, Op.erase 0 0]⟩

/-! ## Claim C10 -/

/-- On a well-formed state, the chunk that `emplace` hands to
`Chunk::emplace` always has room. -/
theorem emplaceTarget_size_lt (Cap : Nat) (hCap : 0 < Cap) (s : CState) (hwf : WF Cap s)
    (c : Chunk) (h : emplaceTargetChunk Cap s = some c) : c.size < Cap := by
  have hwf2 := hwf
  obtain ⟨w1, w2, w3, w4, w5, w6, w7, w8, w9, w10⟩ := hwf2
  unfold emplaceTargetChunk at h
  rcases hfl : s.freeList.head? with _ | fid
  · rcases hchain : s.chain with _ | ⟨⟨hid, hc⟩, rest⟩
    · rw [emplaceSetup_empty Cap s hfl hchain] at h
      have hsp : splitChain ([(s.nextId, freshChunk true)] : List (Nat × Chunk)) s.nextId
          = some ([], freshChunk true, []) := by
        simp [splitChain]
      have h2 : Option.map (fun q => q.2.1)
          (splitChain ([(s.nextId, freshChunk true)] : List (Nat × Chunk)) s.nextId)
          = some c := h
      rw [hsp, Option.map_some'] at h2
      have hc_eq : c = freshChunk true := (Option.some.inj h2).symm
      rw [hc_eq]
      exact hCap
    · cases hfull : hc.is_full Cap
      · rw [emplaceSetup_head Cap s hid hc rest hfl hchain hfull] at h
        have hsp : splitChain s.chain hid = some ([], hc, rest) := by
          rw [hchain]
          simp [splitChain]
        have h2 : Option.map (fun q => q.2.1) (splitChain s.chain hid) = some c := h
        rw [hsp, Option.map_some'] at h2
        have hc_eq : c = hc := (Option.some.inj h2).symm
        rw [hc_eq]
        have hmem : (hid, hc) ∈ s.chain := by
          rw [hchain]
          exact List.mem_cons_self _ _
        exact size_lt_of_not_full Cap hc hfull (w1 (hid, hc) hmem).2.1
      · rw [emplaceSetup_full Cap s hid hc rest hfl hchain hfull] at h
        have hsp : splitChain ((s.nextId, freshChunk true) ::
            (hid, { hc with is_first := false }) :: rest) s.nextId
            = some ([], freshChunk true, (hid, { hc with is_first := false }) :: rest) := by
          simp [splitChain]
        have h2 : Option.map (fun q => q.2.1)
            (splitChain ((s.nextId, freshChunk true) ::
              (hid, { hc with is_first := false }) :: rest) s.nextId)
            = some c := h
        rw [hsp, Option.map_some'] at h2
        have hc_eq : c = freshChunk true := (Option.some.inj h2).symm
        rw [hc_eq]
        exact hCap
  · rw [emplaceSetup_free Cap s fid hfl] at h
    have hfid_mem : fid ∈ s.freeList := List.mem_of_mem_head? hfl
    obtain ⟨pf, hpf_mem, hpf_id, hpf_flag⟩ := w9 fid hfid_mem
    obtain ⟨pre, post, hdecomp⟩ := List.append_of_mem hpf_mem
    have hsp := splitChain_of_mem_nodup s.chain w3 pre pf post hdecomp
    rw [hpf_id] at hsp
    have h2 : Option.map (fun q => q.2.1) (splitChain s.chain fid) = some c := h
    rw [hsp, Option.map_some'] at h2
    have hc_eq : c = pf.2 := (Option.some.inj h2).symm
    rw [hc_eq]
    have hff := flag_facts Cap pf.2 (w7 pf hpf_mem) hpf_flag
    exact size_lt_of_not_full Cap pf.2 hff.1 (w1 pf hpf_mem).2.1

/-- C10: in every reachable container state, whenever the container's
`emplace` invokes `Chunk::emplace` — on a registry chunk or on the possibly
fresh or freshly spliced head — the target chunk's `size` is strictly below
the capacity, so the placement-new at index `size` and the aliveness store
stay inside the chunk's arrays. -/
theorem claim_C10_emplace_in_bounds (Cap : Nat) (hCap : 0 < Cap) (ops : List Op) (c : Chunk)
    (h : emplaceTargetChunk Cap (run Cap ops) = some c) : c.size < Cap :=
  emplaceTarget_size_lt Cap hCap (run Cap ops)
    ((run_preserve Cap hCap ops initState (WF_initState Cap)).1) c h

/-- Witness for C10: after one insertion at capacity 4, the next emplace
targets the head chunk, whose size 1 is below 4. -/
theorem claim_C10_emplace_in_bounds_witness :
    0 < 4 ∧ (emplaceTargetChunk 4 (run 4 [Op.emplace 5])
        = some ((emplaceTargetChunk 4 (run 4 [Op.emplace 5])).getD (freshChunk true)))
      ∧ ((emplaceTargetChunk 4 (run 4 [Op.emplace 5])).getD (freshChunk true)).size < 4 :=
  ⟨by decide, rfl,
    claim_C10_emplace_in_bounds 4 (by decide) [Op.emplace 5] _ rfl⟩

end SCA
